import Mathlib

/-!
# Verification of hashicorp/go-immutable-radix against its specification

This file shallowly embeds the radix-tree algorithms of the repository
(`iradix.go`, `iter.go`, `reverse_iter.go`, and the generic node code) in
Lean 4 and settles the frozen claims C1..C10 about them.

Conventions:
* Go byte slices are `List Nat` (a byte is a `Nat`; the algorithms only
  compare bytes, so no `% 256` arithmetic is needed outside the bitmap
  child index, where machine words are `Nat` with explicit bounds).
* Go `interface{}` / generic values are a type parameter `V`.
* `nil`-able results become `Option`.
* Pointer-based in-place mutation inside a transaction is embedded twice:
  a pure value-level version (the observable semantics of the copy-on-write
  code) used for most claims, and an explicit store/address version used for
  the structural-sharing claim C1, where pointer identity matters.
-/

namespace IradixProof

/-- Byte-string comparison, translated from Go `bytes.Compare`:
lexicographic with the shorter prefix ordered first. -/
def lexCmp : List Nat → List Nat → Ordering
  | [], [] => Ordering.eq
  | [], _ :: _ => Ordering.lt
  | _ :: _, [] => Ordering.gt
  | a :: as, b :: bs =>
    if a < b then Ordering.lt
    else if b < a then Ordering.gt
    else lexCmp as bs

/-- `lexLt a b` means `a` is strictly smaller in Go byte-slice order. -/
def lexLt (a b : List Nat) : Prop := lexCmp a b = Ordering.lt

instance (a b : List Nat) : Decidable (lexLt a b) := by
  unfold lexLt; infer_instance

theorem lexCmp_refl (a : List Nat) : lexCmp a a = Ordering.eq := by
  induction a with
  | nil => rfl
  | cons x xs ih => simp [lexCmp, ih]

theorem lexCmp_eq_iff {a b : List Nat} : lexCmp a b = Ordering.eq ↔ a = b := by
  induction a generalizing b with
  | nil => cases b <;> simp [lexCmp]
  | cons x xs ih =>
    cases b with
    | nil => simp [lexCmp]
    | cons y ys =>
      by_cases hxy : x < y
      · simp [lexCmp, hxy]
        intro h; omega
      · by_cases hyx : y < x
        · simp [lexCmp, hxy, hyx]
          intro h; omega
        · have hxy' : x = y := by omega
          subst hxy'
          simp [lexCmp, hxy, hyx, ih]

theorem lexCmp_swap (a b : List Nat) : lexCmp b a = (lexCmp a b).swap := by
  induction a generalizing b with
  | nil => cases b <;> simp [lexCmp, Ordering.swap]
  | cons x xs ih =>
    cases b with
    | nil => simp [lexCmp, Ordering.swap]
    | cons y ys =>
      by_cases hxy : x < y
      · have : ¬ y < x := by omega
        simp [lexCmp, hxy, this, Ordering.swap]
      · by_cases hyx : y < x
        · simp [lexCmp, hxy, hyx, Ordering.swap]
        · simp [lexCmp, hxy, hyx, ih]

theorem lexLt_trans {a b c : List Nat} (h1 : lexLt a b) (h2 : lexLt b c) : lexLt a c := by
  unfold lexLt at *
  induction a generalizing b c with
  | nil =>
    cases b with
    | nil => simp [lexCmp] at h1
    | cons y ys => cases c with
      | nil => simp [lexCmp] at h2
      | cons z zs => simp [lexCmp]
  | cons x xs ih =>
    cases b with
    | nil => simp [lexCmp] at h1
    | cons y ys =>
      cases c with
      | nil => simp [lexCmp] at h2
      | cons z zs =>
        simp only [lexCmp] at h1 h2 ⊢
        by_cases hxy : x < y
        · -- x < y; need x < z or recurse
          by_cases hyz : y < z
          · have : x < z := by omega
            simp [this]
          · by_cases hzy : z < y
            · simp [hyz, hzy] at h2
            · have : y = z := by omega
              subst this
              simp [hxy]
        · by_cases hyx : y < x
          · simp [hxy, hyx] at h1
          · have hxey : x = y := by omega
            subst hxey
            rw [if_neg hxy, if_neg hxy] at h1
            by_cases hxz : x < z
            · simp [hxz]
            · by_cases hzx : z < x
              · rw [if_neg hxz, if_pos hzx] at h2
                exact absurd h2 (by simp)
              · rw [if_neg hxz, if_neg hzx] at h2 ⊢
                exact ih h1 h2

theorem lexLt_irrefl (a : List Nat) : ¬ lexLt a a := by
  unfold lexLt; simp [lexCmp_refl]

theorem lexLt_ne {a b : List Nat} (h : lexLt a b) : a ≠ b := by
  rintro rfl; exact lexLt_irrefl a h

/-- A strict prefix (or first-byte smaller) gives `lexLt` across appends:
if `a` is a proper prefix of `b` then `a < b`. -/
theorem lexLt_append_of_ne_nil (a rest : List Nat) (h : rest ≠ []) :
    lexLt a (a ++ rest) := by
  unfold lexLt
  induction a with
  | nil => cases rest with
    | nil => exact absurd rfl h
    | cons r rs => simp [lexCmp]
  | cons x xs ih => simp [lexCmp, ih]

/-- Keys sharing prefix `p` compare like their suffixes. -/
theorem lexCmp_append_left (p a b : List Nat) :
    lexCmp (p ++ a) (p ++ b) = lexCmp a b := by
  induction p with
  | nil => rfl
  | cons x xs ih => simp [lexCmp, ih]

/-- If the heads differ, comparison is decided by the heads. -/
theorem lexCmp_cons_of_lt {x y : Nat} (h : x < y) (a b : List Nat) :
    lexCmp (x :: a) (y :: b) = Ordering.lt := by
  simp [lexCmp, h]

/-! ## Go `sort.Search`

`iradix.go` locates child edges with `sort.Search`, Go's standard-library
binary search: the least index in `[0, n)` satisfying a monotone predicate,
or `n` when none does. We translate its loop and prove that specification. -/

/-- The loop of Go `sort.Search` on the interval `[i, j)`. The loop runs at
most `j - i` times (the interval halves each iteration), so we recurse
structurally on that bound to keep the definition kernel-computable; the
bound is never reached. -/
def goSearchAux (f : Nat → Bool) : Nat → Nat → Nat → Nat
  | 0, i, _ => i
  | fuel + 1, i, j =>
    if i < j then
      if f ((i + j) / 2) then goSearchAux f fuel i ((i + j) / 2)
      else goSearchAux f fuel ((i + j) / 2 + 1) j
    else i

/-- Go `sort.Search(n, f)`. -/
def goSearch (n : Nat) (f : Nat → Bool) : Nat := goSearchAux f n 0 n

theorem goSearchAux_ge (f : Nat → Bool) :
    ∀ (fuel i j : Nat), i ≤ goSearchAux f fuel i j
  | 0, i, _ => le_refl i
  | fuel + 1, i, j => by
    rw [goSearchAux]
    split
    · split
      · exact goSearchAux_ge f fuel i ((i + j) / 2)
      · have h1 : i ≤ (i + j) / 2 + 1 := by omega
        exact le_trans h1 (goSearchAux_ge f fuel ((i + j) / 2 + 1) j)
    · exact le_refl i

theorem goSearchAux_le (f : Nat → Bool) :
    ∀ (fuel i j : Nat), i ≤ j → goSearchAux f fuel i j ≤ j
  | 0, i, j, hij => hij
  | fuel + 1, i, j, hij => by
    rw [goSearchAux]
    split
    · split
      · have := goSearchAux_le f fuel i ((i + j) / 2) (by omega)
        omega
      · exact goSearchAux_le f fuel ((i + j) / 2 + 1) j (by omega)
    · exact hij

/-- In the monotone case (monotonicity only needed below `j`), everything
below the returned index falsifies `f` (given enough fuel). -/
theorem goSearchAux_not_below (f : Nat → Bool) (j : Nat)
    (hmono : ∀ a b, a ≤ b → b < j → f a = true → f b = true) :
    ∀ (fuel i : Nat), j - i ≤ fuel →
      ∀ k, i ≤ k → k < goSearchAux f fuel i j → f k = false := by
  intro fuel
  induction fuel with
  | zero =>
    intro i hfuel k hik hk
    rw [goSearchAux] at hk
    omega
  | succ fuel ih =>
    intro i hfuel k hik hk
    by_cases hij : i < j
    · rw [goSearchAux, if_pos hij] at hk
      by_cases hfm : f ((i + j) / 2) = true
      · rw [if_pos hfm] at hk
        have hmono2 : ∀ a b, a ≤ b → b < (i + j) / 2 → f a = true → f b = true :=
          fun a b hab hb hfa => hmono a b hab (by omega) hfa
        exact goSearchAux_not_below f ((i + j) / 2) hmono2 fuel i (by omega) k hik hk
      · rw [if_neg hfm] at hk
        by_cases hkm : k ≤ (i + j) / 2
        · cases hfk : f k with
          | true => exact absurd (hmono k ((i + j) / 2) hkm (by omega) hfk) (by simp [hfm])
          | false => rfl
        · exact ih ((i + j) / 2 + 1) (by omega) k (by omega) hk
    · rw [goSearchAux, if_neg hij] at hk
      omega

/-- If the returned index is inside the interval, it satisfies `f`. -/
theorem goSearchAux_holds (f : Nat → Bool) :
    ∀ (fuel i j : Nat), j - i ≤ fuel →
      goSearchAux f fuel i j < j → f (goSearchAux f fuel i j) = true := by
  intro fuel
  induction fuel with
  | zero =>
    intro i j hfuel h
    rw [goSearchAux] at h
    omega
  | succ fuel ih =>
    intro i j hfuel h
    by_cases hij : i < j
    · by_cases hfm : f ((i + j) / 2) = true
      · rw [goSearchAux, if_pos hij, if_pos hfm] at h ⊢
        by_cases hlt : goSearchAux f fuel i ((i + j) / 2) < (i + j) / 2
        · exact ih i ((i + j) / 2) (by omega) hlt
        · have hle := goSearchAux_le f fuel i ((i + j) / 2) (by omega)
          have heq : goSearchAux f fuel i ((i + j) / 2) = (i + j) / 2 := by omega
          rw [heq]
          exact hfm
      · rw [goSearchAux, if_pos hij, if_neg hfm] at h ⊢
        exact ih ((i + j) / 2 + 1) j (by omega) h
    · rw [goSearchAux, if_neg hij] at h
      omega

theorem goSearch_le (n : Nat) (f : Nat → Bool) : goSearch n f ≤ n :=
  goSearchAux_le f n 0 n (Nat.zero_le n)

theorem goSearch_not_below (n : Nat) (f : Nat → Bool)
    (hmono : ∀ a b, a ≤ b → b < n → f a = true → f b = true) :
    ∀ k, k < goSearch n f → f k = false :=
  fun k hk => goSearchAux_not_below f n hmono n 0 (by omega) k (Nat.zero_le k) hk

theorem goSearch_holds (n : Nat) (f : Nat → Bool) (h : goSearch n f < n) :
    f (goSearch n f) = true :=
  goSearchAux_holds f n 0 n (by omega) h

/-! ## Edge lists

The non-generic `node` keeps `edges` as an array of `(label, child)` pairs
sorted by label and locates children with `sort.Search`. These operations
are generic in the child type so that claim C9 can compare them with the
bitmap-based child index of the generic `Node[T]`. -/

/-- Label of entry `i`, as read by the `sort.Search` callback
`n.edges[i].label`; only evaluated at in-range indices. -/
def labelAt {C : Type} (es : List (Nat × C)) (i : Nat) : Nat :=
  ((es.get? i).map Prod.fst).getD 0

/-- Go `(n *node) getEdge(label)`: binary search, then check for an exact
label match; `none` renders Go's `(-1, nil)`. -/
def getEdge {C : Type} (es : List (Nat × C)) (label : Nat) : Option (Nat × C) :=
  match es.get? (goSearch es.length (fun i => decide (label ≤ labelAt es i))) with
  | some e =>
    if e.1 = label then
      some (goSearch es.length (fun i => decide (label ≤ labelAt es i)), e.2)
    else none
  | none => none

/-- The sorted-array lower-bound search: first edge whose label is `≥ label`,
as performed by `getLowerBoundEdge` (same `sort.Search` call as `getEdge`,
without the exact-match filter); `none` renders Go's `(-1, nil)`. -/
def getLowerBoundEdge {C : Type} (es : List (Nat × C)) (label : Nat) : Option (Nat × C) :=
  match es.get? (goSearch es.length (fun i => decide (label ≤ labelAt es i))) with
  | some e => some (goSearch es.length (fun i => decide (label ≤ labelAt es i)), e.2)
  | none => none

/-- Go `(n *node) addEdge(e)` appends and re-sorts; on a label-sorted edge
list with a label not already present this is insertion at the sorted
position, which is how we render it. -/
def insertEdge {C : Type} (e : Nat × C) : List (Nat × C) → List (Nat × C)
  | [] => [e]
  | f :: fs => if e.1 ≤ f.1 then e :: f :: fs else f :: insertEdge e fs

/-- Go `(n *node) replaceEdge(e)`: overwrite the child at the searched
label. Go panics when the label is missing; all call sites guard against
that, so the missing case is rendered as the identity. -/
def replaceEdge {C : Type} (es : List (Nat × C)) (label : Nat) (c : C) : List (Nat × C) :=
  match getEdge es label with
  | some (idx, _) => es.set idx (label, c)
  | none => es

/-- Go `(n *node) delEdge(label)`: remove the edge at the searched label if
present (shift left and truncate). -/
def delEdge {C : Type} (es : List (Nat × C)) (label : Nat) : List (Nat × C) :=
  match getEdge es label with
  | some (idx, _) => es.eraseIdx idx
  | none => es

theorem getEdge_eq_some {C : Type} {es : List (Nat × C)} {label i : Nat} {c : C}
    (h : getEdge es label = some (i, c)) : es.get? i = some (label, c) := by
  unfold getEdge at h
  split at h
  · rename_i e hg
    split at h
    · rename_i he
      injection h with h1
      injection h1 with hi hc
      subst hi
      rw [hg]
      cases e
      simp_all
    · exact absurd h (by simp)
  · exact absurd h (by simp)

theorem getLowerBoundEdge_eq_some {C : Type} {es : List (Nat × C)} {label i : Nat} {c : C}
    (h : getLowerBoundEdge es label = some (i, c)) :
    ∃ l, es.get? i = some (l, c) ∧
      i = goSearch es.length (fun k => decide (label ≤ labelAt es k)) := by
  unfold getLowerBoundEdge at h
  split at h
  · rename_i e hg
    injection h with h1
    injection h1 with hi hc
    subst hi
    exact ⟨e.1, by rw [hg]; cases e; simp_all, rfl⟩
  · exact absurd h (by simp)

/-! ## The pure node model

`PNode` is the value-level embedding of the radix node: the observable
content of `node` in `iradix.go` (and of the generic `Node[T]`, whose
bitmap child index claim C9 proves equivalent to the labeled sorted edge
array used here). -/

inductive PNode (V : Type) : Type where
  | mk (leaf : Option (List Nat × V)) (pfx : List Nat) (edges : List (Nat × PNode V))

def PNode.leaf {V : Type} : PNode V → Option (List Nat × V)
  | .mk l _ _ => l

def PNode.pfx {V : Type} : PNode V → List Nat
  | .mk _ p _ => p

def PNode.edges {V : Type} : PNode V → List (Nat × PNode V)
  | .mk _ _ e => e

@[simp] theorem PNode.leaf_mk {V : Type} (l : Option (List Nat × V)) (p : List Nat)
    (e : List (Nat × PNode V)) : (PNode.mk l p e).leaf = l := rfl

@[simp] theorem PNode.pfx_mk {V : Type} (l : Option (List Nat × V)) (p : List Nat)
    (e : List (Nat × PNode V)) : (PNode.mk l p e).pfx = p := rfl

@[simp] theorem PNode.edges_mk {V : Type} (l : Option (List Nat × V)) (p : List Nat)
    (e : List (Nat × PNode V)) : (PNode.mk l p e).edges = e := rfl

/-- Any child found by `getEdge` is structurally smaller than its node
(used for termination of the recursive tree operations). -/
theorem sizeOf_lt_of_getEdge {V : Type} {lf : Option (List Nat × V)} {p : List Nat}
    {es : List (Nat × PNode V)} {label i : Nat} {c : PNode V}
    (h : getEdge es label = some (i, c)) : sizeOf c < sizeOf (PNode.mk lf p es) := by
  have hmem : (label, c) ∈ es := List.get?_mem (getEdge_eq_some h)
  have h1 : sizeOf (label, c) < sizeOf es := List.sizeOf_lt_of_mem hmem
  have h2 : sizeOf c < sizeOf (label, c) := by simp
  simp only [PNode.mk.sizeOf_spec]
  omega

/-! ## Tree operations (from `iradix.go`) -/

/-- Go `longestPrefix(k1, k2)`: length of the shared prefix. -/
def commonPfxLen : List Nat → List Nat → Nat
  | a :: as, b :: bs => if a = b then commonPfxLen as bs + 1 else 0
  | _, _ => 0

/-- Go `(n *node) mergeChild()`: absorb the sole child (callers guarantee
exactly one edge; an empty edge list would panic in Go and is rendered as
the identity). -/
def mergeChild {V : Type} : PNode V → PNode V
  | .mk lf p es =>
    match es with
    | (_, c) :: _ => .mk c.leaf (p ++ c.pfx) c.edges
    | [] => .mk lf p []

/-- The split node built in the final branch of `Txn.insert`: prefix is the
common prefix; under it the trimmed existing child and, unless the new key
ends at the split, a fresh leaf node (both added with `addEdge`). -/
def mkSplit {V : Type} (k : List Nat) (v : V) (search : List Nat) (cp : Nat)
    (child : PNode V) : PNode V :=
  match search.drop cp with
  | [] =>
    PNode.mk (some (k, v)) (search.take cp)
      (insertEdge (child.pfx.getD cp 0, PNode.mk child.leaf (child.pfx.drop cp) child.edges) [])
  | r0 :: rrest =>
    PNode.mk none (search.take cp)
      (insertEdge (r0, PNode.mk (some (k, v)) (r0 :: rrest) [])
        (insertEdge (child.pfx.getD cp 0, PNode.mk child.leaf (child.pfx.drop cp) child.edges) []))

/-- Go `(t *Txn) insert(n, k, search, v)`: recursive copy-on-write insert.
The returned node is the value of the node Go returns (Go's `writeNode`
clones are heap bookkeeping, embedded separately for claim C1); the other
two components are `oldVal` and `didUpdate`. In this version of the code
the recursion never returns a nil node, so the result is not optional. -/
def insertRec {V : Type} : PNode V → List Nat → List Nat → V → PNode V × Option V × Bool
  | .mk lf p es, k, search, v =>
    match search with
    | [] =>
      match lf with
      | some (k0, v0) => (.mk (some (k0, v)) p es, some v0, true)
      | none => (.mk (some (k, v)) p es, none, false)
    | s0 :: _ =>
      match hge : getEdge es s0 with
      | none =>
        (.mk lf p (insertEdge (s0, .mk (some (k, v)) search []) es), none, false)
      | some (idx, child) =>
        if commonPfxLen search child.pfx = child.pfx.length then
          (.mk lf p (es.set idx
              (s0, (insertRec child k (search.drop (commonPfxLen search child.pfx)) v).1)),
            (insertRec child k (search.drop (commonPfxLen search child.pfx)) v).2)
        else
          (.mk lf p (replaceEdge es s0
              (mkSplit k v search (commonPfxLen search child.pfx) child)), none, false)
termination_by n => sizeOf n
decreasing_by
  all_goals exact sizeOf_lt_of_getEdge hge

/-- Go `(t *Txn) delete(parent, n, search)` (the `parent` argument is
unused in the source). `isRoot` renders the pointer comparison
`n != t.root`. Returns the replacement node and the removed leaf, or
`none` for a miss. -/
def deleteRec {V : Type} : Bool → PNode V → List Nat → Option (PNode V × (List Nat × V))
  | isRoot, .mk lf p es, search =>
    match search with
    | [] =>
      match lf with
      | none => none
      | some oldLeaf =>
        if !isRoot && es.length == 1 then some (mergeChild (.mk none p es), oldLeaf)
        else some (.mk none p es, oldLeaf)
    | s0 :: _ =>
      match hge : getEdge es s0 with
      | none => none
      | some (idx, child) =>
        if child.pfx.isPrefixOf search then
          match deleteRec false child (search.drop child.pfx.length) with
          | none => none
          | some (newChild, oldLeaf) =>
            if newChild.leaf.isNone && newChild.edges.isEmpty then
              if !isRoot && (delEdge es s0).length == 1 && !(lf.isSome) then
                some (mergeChild (.mk lf p (delEdge es s0)), oldLeaf)
              else some (.mk lf p (delEdge es s0), oldLeaf)
            else some (.mk lf p (es.set idx (s0, newChild)), oldLeaf)
        else none
termination_by _ n => sizeOf n
decreasing_by
  all_goals exact sizeOf_lt_of_getEdge hge

/-- Go `(t *Tree) Get(k)`: iterative descent, rendered recursively; the
loop variable `n` moves to a found child each iteration. -/
def getRec {V : Type} : PNode V → List Nat → Option V
  | .mk lf _ es, search =>
    match search with
    | [] => lf.map Prod.snd
    | s0 :: _ =>
      match hge : getEdge es s0 with
      | none => none
      | some (_, child) =>
        if child.pfx.isPrefixOf search then getRec child (search.drop child.pfx.length)
        else none
termination_by n => sizeOf n
decreasing_by exact sizeOf_lt_of_getEdge hge

/-- The running `last` update at the top of the `LongestPrefix` loop:
remember the node leaf when present. -/
def lastUpd {V : Type} (lf : Option (List Nat × V)) (last : Option (List Nat × V)) :
    Option (List Nat × V) :=
  match lf with
  | some l => some l
  | none => last

/-- Go `(n *Node[T]) LongestPrefix(k)` (identical to the non-generic
`Tree.LongestPrefix` loop): descend, remembering the most recent leaf. -/
def lpRec {V : Type} : PNode V → List Nat → Option (List Nat × V) → Option (List Nat × V)
  | .mk lf _ es, search, last =>
    match search with
    | [] => lastUpd lf last
    | s0 :: _ =>
      match hge : getEdge es s0 with
      | none => lastUpd lf last
      | some (_, child) =>
        if child.pfx.isPrefixOf search then
          lpRec child (search.drop child.pfx.length) (lastUpd lf last)
        else lastUpd lf last
termination_by n => sizeOf n
decreasing_by
  all_goals exact sizeOf_lt_of_getEdge hge

/-! ## Trees and transactions -/

structure PTree (V : Type) where
  root : PNode V
  size : Nat

structure PTxn (V : Type) where
  root : PNode V
  size : Nat

/-- Go `New()`. -/
def newTree (V : Type) : PTree V := ⟨.mk none [] [], 0⟩

/-- Go `(t *Tree) Txn()`. -/
def PTree.txn {V : Type} (t : PTree V) : PTxn V := ⟨t.root, t.size⟩

/-- Go `(t *Txn) Insert(k, v)` (in this version `insert` always returns a
non-nil root, so the nil guard is dropped). -/
def PTxn.insertK {V : Type} (t : PTxn V) (k : List Nat) (v : V) : PTxn V × Option V × Bool :=
  let res := insertRec t.root k k v
  (⟨res.1, if res.2.2 then t.size else t.size + 1⟩, res.2)

/-- Go `(t *Txn) Delete(k)`. -/
def PTxn.deleteK {V : Type} (t : PTxn V) (k : List Nat) : PTxn V × Option V × Bool :=
  match deleteRec true t.root k with
  | none => (t, none, false)
  | some (newRoot, oldLeaf) => (⟨newRoot, t.size - 1⟩, some oldLeaf.2, true)

/-- Go `(t *Txn) Commit()`. -/
def PTxn.commit {V : Type} (t : PTxn V) : PTree V := ⟨t.root, t.size⟩

/-- Go `(t *Tree) Insert(k, v)`. -/
def PTree.insertK {V : Type} (t : PTree V) (k : List Nat) (v : V) : PTree V × Option V × Bool :=
  let res := t.txn.insertK k v
  (res.1.commit, res.2)

/-- Go `(t *Tree) Delete(k)`. -/
def PTree.deleteK {V : Type} (t : PTree V) (k : List Nat) : PTree V × Option V × Bool :=
  let res := t.txn.deleteK k
  (res.1.commit, res.2)

/-- Go `(t *Tree) Get(k)`. -/
def PTree.get {V : Type} (t : PTree V) (k : List Nat) : Option V := getRec t.root k

/-- Go `(t *Tree) Len()`. -/
def PTree.len {V : Type} (t : PTree V) : Nat := t.size

/-! ## Spec-side views: stored entries and well-formedness -/

mutual

/-- All `(key, value)` pairs stored in the subtree, in edge order with the
node's own leaf first (the order `recursiveWalk` visits them). -/
def entriesN {V : Type} : PNode V → List (List Nat × V)
  | .mk lf _ es => lf.toList ++ entriesEs es

def entriesEs {V : Type} : List (Nat × PNode V) → List (List Nat × V)
  | [] => []
  | (_, c) :: rest => entriesN c ++ entriesEs rest

end

/-- Strictly ascending label list. -/
def sortedLabels : List Nat → Bool
  | [] => true
  | [_] => true
  | a :: b :: rest => decide (a < b) && sortedLabels (b :: rest)

mutual

/-- Well-formedness of a node whose accumulated path (concatenation of
prefixes from the root down to and including this node) is `p`:
a leaf stores exactly the accumulated path as its key; edge labels are
strictly sorted; each child's prefix is nonempty and starts with its edge
label. These are the invariants the Go code maintains for every tree
reachable from `New()`. -/
def wfN {V : Type} (p : List Nat) : PNode V → Bool
  | .mk lf _ es =>
    (match lf with
     | none => true
     | some (k0, _) => decide (k0 = p)) &&
    sortedLabels (es.map Prod.fst) &&
    wfEs p es

def wfEs {V : Type} (p : List Nat) : List (Nat × PNode V) → Bool
  | [] => true
  | (l, c) :: rest =>
    (match c.pfx with
     | [] => false
     | c0 :: _ => decide (c0 = l)) &&
    wfN (p ++ c.pfx) c &&
    wfEs p rest

end

/-- Well-formed tree: well-formed root with empty accumulated path and an
empty root prefix (as built by `New()` and preserved by all operations). -/
def wfTree {V : Type} (t : PTree V) : Bool :=
  wfN [] t.root && t.root.pfx.isEmpty

/-! ## Lemmas about sorted edge lists -/

/-- Association-list view of an edge list: the child at a label. -/
def findL {C : Type} : List (Nat × C) → Nat → Option C
  | [], _ => none
  | (l0, c) :: rest, l => if l0 = l then some c else findL rest l

/-- `SL es`: the edge labels are strictly ascending. -/
def SL {C : Type} (es : List (Nat × C)) : Prop :=
  List.Chain' (· < ·) (es.map Prod.fst)

theorem sortedLabels_iff_chain (l : List Nat) :
    sortedLabels l = true ↔ List.Chain' (· < ·) l := by
  induction l with
  | nil => simp [sortedLabels]
  | cons a rest ih =>
    cases rest with
    | nil => simp [sortedLabels]
    | cons b r =>
      rw [sortedLabels, List.chain'_cons]
      rw [Bool.and_eq_true, decide_eq_true_iff, ih]

theorem SL_pairwise {C : Type} {es : List (Nat × C)} (hs : SL es) :
    List.Pairwise (· < ·) (es.map Prod.fst) :=
  List.chain'_iff_pairwise.mp hs

theorem SL_nodup {C : Type} {es : List (Nat × C)} (hs : SL es) :
    (es.map Prod.fst).Nodup :=
  (SL_pairwise hs).imp Nat.ne_of_lt

theorem labelAt_eq {C : Type} (es : List (Nat × C)) (i : Nat) :
    labelAt es i = ((es.map Prod.fst).get? i).getD 0 := by
  simp [labelAt, List.get?_map]

theorem SL_labelAt_lt {C : Type} {es : List (Nat × C)} (hs : SL es)
    {a b : Nat} (hab : a < b) (hb : b < es.length) :
    labelAt es a < labelAt es b := by
  rw [labelAt_eq, labelAt_eq]
  have hlen : (es.map Prod.fst).length = es.length := List.length_map es Prod.fst
  have hga : a < (es.map Prod.fst).length := by omega
  have hgb : b < (es.map Prod.fst).length := by omega
  rw [List.get?_eq_get hga, List.get?_eq_get hgb]
  simp only [Option.getD_some]
  exact List.pairwise_iff_get.mp (SL_pairwise hs) ⟨a, hga⟩ ⟨b, hgb⟩ hab

/-- The `sort.Search` predicate used by `getEdge` is monotone (within
bounds) on a sorted edge list. -/
theorem SL_mono {C : Type} {es : List (Nat × C)} (hs : SL es) (label : Nat) :
    ∀ a b, a ≤ b → b < es.length →
      decide (label ≤ labelAt es a) = true → decide (label ≤ labelAt es b) = true := by
  intro a b hab hb ha
  rw [decide_eq_true_iff] at ha ⊢
  rcases Nat.eq_or_lt_of_le hab with rfl | hlt
  · exact ha
  · exact le_of_lt (lt_of_le_of_lt ha (SL_labelAt_lt hs hlt hb))

theorem findL_eq_none {C : Type} {es : List (Nat × C)} {l : Nat} :
    findL es l = none ↔ l ∉ es.map Prod.fst := by
  induction es with
  | nil => simp [findL]
  | cons e rest ih =>
    cases e with
    | mk l0 c =>
      by_cases h : l0 = l
      · subst h; simp [findL]
      · simp [findL, h, ih, Ne.symm h]

theorem findL_mem {C : Type} {es : List (Nat × C)} {l : Nat} {c : C}
    (h : findL es l = some c) : (l, c) ∈ es := by
  induction es with
  | nil => simp [findL] at h
  | cons e rest ih =>
    cases e with
    | mk l0 c0 =>
      by_cases he : l0 = l
      · subst he
        rw [findL, if_pos rfl] at h
        injection h with h
        subst h
        exact List.mem_cons_self _ _
      · rw [findL, if_neg he] at h
        exact List.mem_cons_of_mem _ (ih h)

theorem findL_of_get? {C : Type} {es : List (Nat × C)} {i l : Nat} {c : C}
    (hnd : (es.map Prod.fst).Nodup) (h : es.get? i = some (l, c)) :
    findL es l = some c := by
  induction es generalizing i with
  | nil => simp at h
  | cons e rest ih =>
    cases e with
    | mk l0 c0 =>
      cases i with
      | zero =>
        simp at h
        rw [findL, if_pos h.1]
        simp [h.2]
      | succ i =>
        simp only [List.get?_cons_succ] at h
        have hmem : (l, c) ∈ rest := List.get?_mem h
        have hlmem : l ∈ rest.map Prod.fst := List.mem_map_of_mem Prod.fst hmem
        simp only [List.map_cons, List.nodup_cons] at hnd
        have hne : l0 ≠ l := fun he => hnd.1 (he ▸ hlmem)
        rw [findL, if_neg hne]
        exact ih hnd.2 h

/-- On a sorted edge list, `getEdge` computes the association-list lookup. -/
theorem getEdge_snd {C : Type} {es : List (Nat × C)} (hs : SL es) (l : Nat) :
    (getEdge es l).map Prod.snd = findL es l := by
  rcases hfi : findL es l with _ | c
  · -- label absent: either the search lands past the end, or on a bigger label
    rw [Option.map_eq_none']
    rcases hge : getEdge es l with _ | p
    · rfl
    · rcases p with ⟨i, c⟩
      have := getEdge_eq_some hge
      have : findL es l = some c := findL_of_get? (SL_nodup hs) this
      rw [hfi] at this
      exact absurd this (by simp)
  · -- label present at a unique index
    have hmem : (l, c) ∈ es := findL_mem hfi
    rcases List.get_of_mem hmem with ⟨⟨i, hilt⟩, hget⟩
    have hget : es.get? i = some (l, c) := by
      rw [List.get?_eq_get hilt]
      exact congrArg some hget
    -- the binary search returns exactly i
    set f : Nat → Bool := fun k => decide (l ≤ labelAt es k) with hf
    have hfi_true : f i = true := by
      show decide (l ≤ labelAt es i) = true
      rw [decide_eq_true_iff, labelAt_eq, List.get?_map, hget]
      simp
    have hres_le : goSearch es.length f ≤ i := by
      by_contra hlt
      push_neg at hlt
      have := goSearch_not_below es.length f (SL_mono hs l) i hlt
      rw [hfi_true] at this
      exact absurd this (by simp)
    have hres_ge : i ≤ goSearch es.length f := by
      by_contra hlt
      push_neg at hlt
      have hv := goSearch_holds es.length f (lt_of_lt_of_le hlt (le_of_lt hilt))
      have hv2 : l ≤ labelAt es (goSearch es.length f) := of_decide_eq_true hv
      have hlab : labelAt es (goSearch es.length f) < labelAt es i :=
        SL_labelAt_lt hs hlt hilt
      rw [labelAt_eq es i, List.get?_map, hget] at hlab
      simp at hlab
      omega
    have hres : goSearch es.length f = i := le_antisymm hres_le hres_ge
    unfold getEdge
    rw [← hf, hres, hget]
    simp [hfi]

theorem getEdge_eq_none_iff {C : Type} {es : List (Nat × C)} (hs : SL es) (l : Nat) :
    getEdge es l = none ↔ l ∉ es.map Prod.fst := by
  rw [← findL_eq_none, ← getEdge_snd hs]
  rcases getEdge es l with _ | p <;> simp

/-- `insertEdge` updates the association lookup pointwise. -/
theorem findL_insertEdge {C : Type} (e : Nat × C) (es : List (Nat × C)) (q : Nat) :
    findL (insertEdge e es) q = if e.1 = q then some e.2 else findL es q := by
  induction es with
  | nil => simp [insertEdge, findL]
  | cons f fs ih =>
    by_cases hle : e.1 ≤ f.1
    · rw [insertEdge, if_pos hle]
      rcases e with ⟨l, c⟩
      rfl
    · rw [insertEdge, if_neg hle]
      rcases f with ⟨l0, c0⟩
      by_cases hq : l0 = q
      · subst hq
        have : e.1 ≠ l0 := by omega
        rw [findL, if_pos rfl, if_neg this, findL, if_pos rfl]
      · rw [findL, if_neg hq, ih, findL, if_neg hq]

theorem mem_map_fst_insertEdge {C : Type} (e : Nat × C) (es : List (Nat × C)) (q : Nat) :
    q ∈ (insertEdge e es).map Prod.fst ↔ q = e.1 ∨ q ∈ es.map Prod.fst := by
  induction es with
  | nil => simp [insertEdge]
  | cons f fs ih =>
    by_cases hle : e.1 ≤ f.1
    · rw [insertEdge, if_pos hle]
      simp [eq_comm]
    · rw [insertEdge, if_neg hle]
      simp only [List.map_cons, List.mem_cons, ih]
      tauto

theorem SL_insertEdge {C : Type} (e : Nat × C) :
    ∀ es : List (Nat × C), SL es → e.1 ∉ es.map Prod.fst → SL (insertEdge e es)
  | [], _, _ => by simp [insertEdge, SL]
  | f :: fs, hs, hfresh => by
    simp only [List.map_cons, List.mem_cons] at hfresh
    push_neg at hfresh
    unfold SL at hs
    rw [List.map_cons, List.chain'_cons'] at hs
    by_cases hle : e.1 ≤ f.1
    · rw [insertEdge, if_pos hle]
      unfold SL
      rw [List.map_cons, List.map_cons, List.chain'_cons]
      refine ⟨lt_of_le_of_ne hle hfresh.1, ?_⟩
      rw [List.chain'_cons']
      exact hs
    · rw [insertEdge, if_neg hle]
      unfold SL
      rw [List.map_cons, List.chain'_cons']
      constructor
      · -- the head of the inserted tail is either e.1 (> f.1) or the old head
        intro y hy
        cases fs with
        | nil =>
          simp [insertEdge] at hy
          subst hy
          omega
        | cons g gs =>
          by_cases hle2 : e.1 ≤ g.1
          · rw [insertEdge, if_pos hle2] at hy
            simp at hy
            subst hy
            omega
          · rw [insertEdge, if_neg hle2] at hy
            simp at hy
            subst hy
            exact hs.1 g.1 (by simp)
      · exact SL_insertEdge e fs hs.2 hfresh.2

theorem map_fst_set {C : Type} {es : List (Nat × C)} {i l : Nat} {c0 : C}
    (h : es.get? i = some (l, c0)) (c : C) :
    (es.set i (l, c)).map Prod.fst = es.map Prod.fst := by
  induction es generalizing i with
  | nil => simp at h
  | cons e rest ih =>
    cases i with
    | zero =>
      simp only [List.get?_cons_zero, Option.some_inj] at h
      subst h
      simp
    | succ i =>
      simp only [List.get?_cons_succ] at h
      simp [List.set_cons_succ, ih h]

theorem findL_set {C : Type} {es : List (Nat × C)} {i l : Nat} {c0 : C}
    (hnd : (es.map Prod.fst).Nodup) (h : es.get? i = some (l, c0)) (c : C) (q : Nat) :
    findL (es.set i (l, c)) q = if l = q then some c else findL es q := by
  induction es generalizing i with
  | nil => simp at h
  | cons e rest ih =>
    rcases e with ⟨l0, d⟩
    simp only [List.map_cons, List.nodup_cons] at hnd
    cases i with
    | zero =>
      simp only [List.get?_cons_zero, Option.some_inj] at h
      have hl0 : l0 = l := congrArg Prod.fst h
      subst hl0
      by_cases hq : l0 = q <;> simp [findL, hq]
    | succ i =>
      simp only [List.get?_cons_succ] at h
      rw [List.set_cons_succ, findL, findL]
      by_cases hq : l0 = q
      · subst hq
        have hl : l ∈ rest.map Prod.fst := List.mem_map_of_mem _ (List.get?_mem h)
        have hne : ¬ l = l0 := fun he => hnd.1 (he ▸ hl)
        rw [if_pos rfl, if_pos rfl, if_neg hne]
      · rw [if_neg hq, if_neg hq, ih hnd.2 h]

/-- `replaceEdge` on a sorted list with the label present is a `set` at the
found index; its association lookup updates pointwise. -/
theorem findL_replaceEdge {C : Type} {es : List (Nat × C)} (hs : SL es) {l : Nat}
    (hmem : l ∈ es.map Prod.fst) (c : C) (q : Nat) :
    findL (replaceEdge es l c) q = if l = q then some c else findL es q := by
  unfold replaceEdge
  rcases hge : getEdge es l with _ | ⟨i, c1⟩
  · exact absurd ((getEdge_eq_none_iff hs l).mp hge) (by simp [hmem])
  · exact findL_set (SL_nodup hs) (getEdge_eq_some hge) c q

theorem SL_replaceEdge {C : Type} {es : List (Nat × C)} (hs : SL es) (l : Nat) (c : C) :
    SL (replaceEdge es l c) := by
  unfold replaceEdge
  rcases hge : getEdge es l with _ | ⟨i, c1⟩
  · exact hs
  · unfold SL
    rw [map_fst_set (getEdge_eq_some hge) c]
    exact hs

theorem SL_set {C : Type} {es : List (Nat × C)} (hs : SL es) {i l : Nat} {c0 : C}
    (h : es.get? i = some (l, c0)) (c : C) : SL (es.set i (l, c)) := by
  unfold SL
  rw [map_fst_set h c]
  exact hs

/-! ## Common-prefix-length lemmas -/

@[simp] theorem commonPfxLen_nil_left (b : List Nat) : commonPfxLen [] b = 0 := by
  cases b <;> rfl

@[simp] theorem commonPfxLen_nil_right (a : List Nat) : commonPfxLen a [] = 0 := by
  cases a <;> rfl

theorem commonPfxLen_le_left (a b : List Nat) : commonPfxLen a b ≤ a.length := by
  induction a generalizing b with
  | nil => simp [commonPfxLen]
  | cons x xs ih =>
    cases b with
    | nil => simp [commonPfxLen]
    | cons y ys =>
      rw [commonPfxLen]
      by_cases h : x = y
      · rw [if_pos h]; simp [ih ys]
      · rw [if_neg h]; simp

theorem commonPfxLen_le_right (a b : List Nat) : commonPfxLen a b ≤ b.length := by
  induction a generalizing b with
  | nil => simp [commonPfxLen]
  | cons x xs ih =>
    cases b with
    | nil => simp [commonPfxLen]
    | cons y ys =>
      rw [commonPfxLen]
      by_cases h : x = y
      · rw [if_pos h]; simp [ih ys]
      · rw [if_neg h]; simp

theorem commonPfxLen_eq_right_iff (a b : List Nat) :
    commonPfxLen a b = b.length ↔ b <+: a := by
  induction a generalizing b with
  | nil =>
    cases b with
    | nil => simp [commonPfxLen]
    | cons y ys => simp [commonPfxLen]
  | cons x xs ih =>
    cases b with
    | nil => simp [commonPfxLen]
    | cons y ys =>
      rw [commonPfxLen]
      by_cases h : x = y
      · subst h
        rw [if_pos rfl]
        simp only [List.length_cons, Nat.add_right_cancel_iff, ih ys,
          List.cons_prefix_cons, true_and]
      · rw [if_neg h]
        simp only [List.length_cons]
        constructor
        · omega
        · intro hp
          rw [List.cons_prefix_cons] at hp
          exact absurd hp.1.symm h

theorem take_commonPfxLen_eq (a b : List Nat) :
    a.take (commonPfxLen a b) = b.take (commonPfxLen a b) := by
  induction a generalizing b with
  | nil => simp
  | cons x xs ih =>
    cases b with
    | nil => simp [commonPfxLen]
    | cons y ys =>
      rw [commonPfxLen]
      by_cases h : x = y
      · subst h
        rw [if_pos rfl]
        simp [ih ys]
      · rw [if_neg h]
        simp

theorem getD_ne_of_commonPfxLen (a b : List Nat)
    (ha : commonPfxLen a b < a.length) (hb : commonPfxLen a b < b.length) :
    a.getD (commonPfxLen a b) 0 ≠ b.getD (commonPfxLen a b) 0 := by
  induction a generalizing b with
  | nil => simp at ha
  | cons x xs ih =>
    cases b with
    | nil => simp at hb
    | cons y ys =>
      rw [commonPfxLen] at ha hb ⊢
      by_cases h : x = y
      · rw [if_pos h] at ha hb ⊢
        simp only [List.length_cons] at ha hb
        simpa using ih ys (by omega) (by omega)
      · rw [if_neg h]
        simpa using h

/-- `bytes.HasPrefix` test in the code corresponds to `List.IsPrefix`. -/
theorem isPrefixOf_iff (a b : List Nat) : a.isPrefixOf b = true ↔ a <+: b := by
  exact List.isPrefixOf_iff_prefix

/-! ## Unfolding lemmas for the tree well-formedness predicate -/

theorem wfN_iff {V : Type} (p : List Nat) (lf : Option (List Nat × V)) (px : List Nat)
    (es : List (Nat × PNode V)) :
    wfN p (.mk lf px es) = true ↔
      (∀ k0 v0, lf = some (k0, v0) → k0 = p) ∧ SL es ∧ wfEs p es = true := by
  rw [wfN.eq_def, Bool.and_eq_true, Bool.and_eq_true, sortedLabels_iff_chain]
  cases lf with
  | none => simp [SL]
  | some l =>
    rcases l with ⟨k0, v0⟩
    simp only [decide_eq_true_iff, SL]
    constructor
    · rintro ⟨⟨h1, h2⟩, h3⟩
      refine ⟨fun a b hab => ?_, h2, h3⟩
      injection hab with hab
      injection hab with ha hb
      exact ha ▸ h1
    · rintro ⟨h1, h2, h3⟩
      exact ⟨⟨h1 k0 v0 rfl, h2⟩, h3⟩

theorem wfEs_iff {V : Type} (p : List Nat) (es : List (Nat × PNode V)) :
    wfEs p es = true ↔
      ∀ e ∈ es, (∃ r, e.2.pfx = e.1 :: r) ∧ wfN (p ++ e.2.pfx) e.2 = true := by
  induction es with
  | nil => simp [wfEs]
  | cons e rest ih =>
    rcases e with ⟨l, c⟩
    rw [wfEs.eq_def, Bool.and_eq_true, Bool.and_eq_true]
    constructor
    · rintro ⟨⟨h1, h2⟩, h3⟩
      intro f hf
      rcases List.mem_cons.mp hf with rfl | hf2
      · refine ⟨?_, h2⟩
        rcases hpx : c.pfx with _ | ⟨c0, r⟩
        · rw [hpx] at h1; simp at h1
        · rw [hpx] at h1
          simp only [decide_eq_true_iff] at h1
          exact ⟨r, by rw [h1]⟩
      · exact ih.mp h3 f hf2
    · intro h
      obtain ⟨⟨r, hr⟩, hwf⟩ := h (l, c) (List.mem_cons_self _ _)
      refine ⟨⟨?_, hwf⟩, ih.mpr fun f hf => h f (List.mem_cons_of_mem _ hf)⟩
      rw [hr]
      simp

/-! ## Unfolding lemmas for the recursive tree operations

The recursive functions pattern-match on `getEdge` with a named hypothesis
(needed for termination); these lemmas provide the per-case equations. -/

theorem getRec_nil {V : Type} (lf : Option (List Nat × V)) (px : List Nat)
    (es : List (Nat × PNode V)) :
    getRec (.mk lf px es) [] = lf.map Prod.snd := by
  rw [getRec]

theorem getRec_cons_none {V : Type} {lf : Option (List Nat × V)} {px : List Nat}
    {es : List (Nat × PNode V)} {s0 : Nat} {ss : List Nat}
    (hge : getEdge es s0 = none) :
    getRec (.mk lf px es) (s0 :: ss) = none := by
  rw [getRec]
  split
  · rfl
  · rename_i i child heq
    rw [hge] at heq
    exact absurd heq (by simp)

theorem getRec_cons_some {V : Type} {lf : Option (List Nat × V)} {px : List Nat}
    {es : List (Nat × PNode V)} {s0 : Nat} {ss : List Nat} {i : Nat} {child : PNode V}
    (hge : getEdge es s0 = some (i, child)) :
    getRec (.mk lf px es) (s0 :: ss) =
      (if child.pfx.isPrefixOf (s0 :: ss) then
        getRec child ((s0 :: ss).drop child.pfx.length)
      else none) := by
  rw [getRec]
  split
  · rename_i heq
    rw [hge] at heq
    exact absurd heq (by simp)
  · rename_i i2 child2 heq
    rw [hge] at heq
    injection heq with heq
    injection heq with h1 h2
    subst h1
    subst h2
    rfl

theorem insertRec_nil {V : Type} (lf : Option (List Nat × V)) (px : List Nat)
    (es : List (Nat × PNode V)) (k : List Nat) (v : V) :
    insertRec (.mk lf px es) k [] v =
      (match lf with
       | some (k0, v0) => (.mk (some (k0, v)) px es, some v0, true)
       | none => (.mk (some (k, v)) px es, none, false)) := by
  rw [insertRec.eq_def]

theorem insertRec_cons_none {V : Type} {lf : Option (List Nat × V)} {px : List Nat}
    {es : List (Nat × PNode V)} {s0 : Nat} {ss : List Nat} {k : List Nat} {v : V}
    (hge : getEdge es s0 = none) :
    insertRec (.mk lf px es) k (s0 :: ss) v =
      (.mk lf px (insertEdge (s0, .mk (some (k, v)) (s0 :: ss) []) es), none, false) := by
  rw [insertRec]
  split
  · rfl
  · rename_i i child heq
    rw [hge] at heq
    exact absurd heq (by simp)

theorem insertRec_cons_eq {V : Type} {lf : Option (List Nat × V)} {px : List Nat}
    {es : List (Nat × PNode V)} {s0 : Nat} {ss : List Nat} {k : List Nat} {v : V}
    {i : Nat} {child : PNode V}
    (hge : getEdge es s0 = some (i, child))
    (hcp : commonPfxLen (s0 :: ss) child.pfx = child.pfx.length) :
    insertRec (.mk lf px es) k (s0 :: ss) v =
      (.mk lf px (es.set i
          (s0, (insertRec child k ((s0 :: ss).drop child.pfx.length) v).1)),
        (insertRec child k ((s0 :: ss).drop child.pfx.length) v).2) := by
  rw [insertRec]
  split
  · rename_i heq
    rw [hge] at heq
    exact absurd heq (by simp)
  · rename_i i2 child2 heq
    rw [hge] at heq
    injection heq with heq
    injection heq with h1 h2
    subst h1
    subst h2
    rw [if_pos hcp, hcp]

theorem insertRec_cons_split {V : Type} {lf : Option (List Nat × V)} {px : List Nat}
    {es : List (Nat × PNode V)} {s0 : Nat} {ss : List Nat} {k : List Nat} {v : V}
    {i : Nat} {child : PNode V}
    (hge : getEdge es s0 = some (i, child))
    (hcp : ¬ commonPfxLen (s0 :: ss) child.pfx = child.pfx.length) :
    insertRec (.mk lf px es) k (s0 :: ss) v =
      (.mk lf px (replaceEdge es s0
          (mkSplit k v (s0 :: ss) (commonPfxLen (s0 :: ss) child.pfx) child)),
        none, false) := by
  rw [insertRec]
  split
  · rename_i heq
    rw [hge] at heq
    exact absurd heq (by simp)
  · rename_i i2 child2 heq
    rw [hge] at heq
    injection heq with heq
    injection heq with h1 h2
    subst h1
    subst h2
    rw [if_neg hcp]

theorem deleteRec_nil {V : Type} (isRoot : Bool) (lf : Option (List Nat × V)) (px : List Nat)
    (es : List (Nat × PNode V)) :
    deleteRec isRoot (.mk lf px es) [] =
      (match lf with
       | none => none
       | some oldLeaf =>
         if !isRoot && es.length == 1 then some (mergeChild (.mk none px es), oldLeaf)
         else some (.mk none px es, oldLeaf)) := by
  rw [deleteRec.eq_def]

theorem deleteRec_cons_none {V : Type} {isRoot : Bool} {lf : Option (List Nat × V)}
    {px : List Nat} {es : List (Nat × PNode V)} {s0 : Nat} {ss : List Nat}
    (hge : getEdge es s0 = none) :
    deleteRec isRoot (.mk lf px es) (s0 :: ss) = none := by
  rw [deleteRec]
  split
  · rfl
  · rename_i i child heq
    rw [hge] at heq
    exact absurd heq (by simp)

theorem deleteRec_cons_some {V : Type} {isRoot : Bool} {lf : Option (List Nat × V)}
    {px : List Nat} {es : List (Nat × PNode V)} {s0 : Nat} {ss : List Nat}
    {i : Nat} {child : PNode V}
    (hge : getEdge es s0 = some (i, child)) :
    deleteRec isRoot (.mk lf px es) (s0 :: ss) =
      (if child.pfx.isPrefixOf (s0 :: ss) then
        match deleteRec false child ((s0 :: ss).drop child.pfx.length) with
        | none => none
        | some (newChild, oldLeaf) =>
          if newChild.leaf.isNone && newChild.edges.isEmpty then
            if !isRoot && (delEdge es s0).length == 1 && !(lf.isSome) then
              some (mergeChild (.mk lf px (delEdge es s0)), oldLeaf)
            else some (.mk lf px (delEdge es s0), oldLeaf)
          else some (.mk lf px (es.set i (s0, newChild)), oldLeaf)
      else none) := by
  rw [deleteRec]
  split
  · rename_i heq
    rw [hge] at heq
    exact absurd heq (by simp)
  · rename_i i2 child2 heq
    rw [hge] at heq
    injection heq with heq
    injection heq with h1 h2
    subst h1
    subst h2
    rfl

theorem lpRec_nil {V : Type} (lf : Option (List Nat × V)) (px : List Nat)
    (es : List (Nat × PNode V)) (last : Option (List Nat × V)) :
    lpRec (.mk lf px es) [] last = lastUpd lf last := by
  rw [lpRec]

theorem lpRec_cons_none {V : Type} {lf : Option (List Nat × V)} {px : List Nat}
    {es : List (Nat × PNode V)} {s0 : Nat} {ss : List Nat} {last : Option (List Nat × V)}
    (hge : getEdge es s0 = none) :
    lpRec (.mk lf px es) (s0 :: ss) last = lastUpd lf last := by
  rw [lpRec]
  split
  · rfl
  · rename_i i child heq
    rw [hge] at heq
    exact absurd heq (by simp)

theorem lpRec_cons_some {V : Type} {lf : Option (List Nat × V)} {px : List Nat}
    {es : List (Nat × PNode V)} {s0 : Nat} {ss : List Nat} {last : Option (List Nat × V)}
    {i : Nat} {child : PNode V}
    (hge : getEdge es s0 = some (i, child)) :
    lpRec (.mk lf px es) (s0 :: ss) last =
      (if child.pfx.isPrefixOf (s0 :: ss) then
        lpRec child ((s0 :: ss).drop child.pfx.length) (lastUpd lf last)
      else lastUpd lf last) := by
  rw [lpRec]
  split
  · rename_i heq
    rw [hge] at heq
    exact absurd heq (by simp)
  · rename_i i2 child2 heq
    rw [hge] at heq
    injection heq with heq
    injection heq with h1 h2
    subst h1
    subst h2
    rfl

/-! ## Derived facts about the tree operations -/

/-- `getRec` on a nonempty search key does not depend on the node's own
leaf or prefix (the loop reads only the edges at this point). -/
theorem getRec_cons_indep {V : Type} (lf lf2 : Option (List Nat × V)) (a b : List Nat)
    (es : List (Nat × PNode V)) (q0 : Nat) (qs : List Nat) :
    getRec (.mk lf a es) (q0 :: qs) = getRec (.mk lf2 b es) (q0 :: qs) := by
  rcases hge : getEdge es q0 with _ | ⟨i, child⟩
  · rw [getRec_cons_none hge, getRec_cons_none hge]
  · rw [getRec_cons_some hge, getRec_cons_some hge]

/-- `getRec` stepping through the association-list view of the edges. -/
theorem getRec_cons_findL {V : Type} {es : List (Nat × PNode V)} (hs : SL es)
    (lf : Option (List Nat × V)) (px : List Nat) (q0 : Nat) (qs : List Nat) :
    getRec (.mk lf px es) (q0 :: qs) =
      (match findL es q0 with
       | none => none
       | some child =>
         if child.pfx.isPrefixOf (q0 :: qs) then
           getRec child ((q0 :: qs).drop child.pfx.length)
         else none) := by
  rcases hge : getEdge es q0 with _ | ⟨i, child⟩
  · have hf : findL es q0 = none := by
      rw [← getEdge_snd hs, hge]; rfl
    rw [getRec_cons_none hge, hf]
  · have hf : findL es q0 = some child := by
      rw [← getEdge_snd hs, hge]; rfl
    rw [getRec_cons_some hge, hf]

theorem mem_insertEdge {C : Type} {f e : Nat × C} {es : List (Nat × C)} :
    f ∈ insertEdge e es ↔ f = e ∨ f ∈ es := by
  induction es with
  | nil => simp [insertEdge]
  | cons g gs ih =>
    by_cases hle : e.1 ≤ g.1
    · rw [insertEdge, if_pos hle]
      simp
    · rw [insertEdge, if_neg hle]
      simp only [List.mem_cons, ih]
      tauto

theorem replaceEdge_eq_set {C : Type} {es : List (Nat × C)} {l i : Nat} {c0 : C}
    (hge : getEdge es l = some (i, c0)) (c : C) :
    replaceEdge es l c = es.set i (l, c) := by
  unfold replaceEdge
  rw [hge]

theorem getEdge_nil {C : Type} (l : Nat) : getEdge ([] : List (Nat × C)) l = none := rfl

theorem ne_append_of_ne_nil {a x : List Nat} (h : x ≠ []) : a ≠ a ++ x := by
  intro he
  have h2 := congrArg List.length he
  simp at h2
  exact h h2

/-- `wfN` does not constrain the node's own prefix. -/
theorem wfN_mk_pfx_indep {V : Type} (p : List Nat) (lf : Option (List Nat × V))
    (a b : List Nat) (es : List (Nat × PNode V)) :
    wfN p (.mk lf a es) = wfN p (.mk lf b es) := by
  rw [wfN.eq_def, wfN.eq_def]

theorem getEdge_of_findL {C : Type} {es : List (Nat × C)} {l : Nat} {c : C}
    (hs : SL es) (hfl : findL es l = some c) : ∃ i, getEdge es l = some (i, c) := by
  have h := getEdge_snd hs l
  rw [hfl] at h
  rcases hge : getEdge es l with _ | ⟨i, c2⟩
  · rw [hge] at h
    exact absurd h (by simp)
  · rw [hge] at h
    simp only [Option.map_some'] at h
    injection h with h
    exact ⟨i, by rw [h]⟩

theorem getRec_cons_fnone {V : Type} {es : List (Nat × PNode V)} (hs : SL es)
    {lf : Option (List Nat × V)} {px : List Nat} {q0 : Nat} {qs : List Nat}
    (hfl : findL es q0 = none) :
    getRec (.mk lf px es) (q0 :: qs) = none := by
  apply getRec_cons_none
  rw [getEdge_eq_none_iff hs]
  exact findL_eq_none.mp hfl

theorem getRec_cons_fsome {V : Type} {es : List (Nat × PNode V)} (hs : SL es)
    {lf : Option (List Nat × V)} {px : List Nat} {q0 : Nat} {qs : List Nat}
    {child : PNode V} (hfl : findL es q0 = some child) :
    getRec (.mk lf px es) (q0 :: qs) =
      (if child.pfx.isPrefixOf (q0 :: qs) then
        getRec child ((q0 :: qs).drop child.pfx.length)
      else none) := by
  obtain ⟨i, hge⟩ := getEdge_of_findL hs hfl
  exact getRec_cons_some hge

theorem mkSplit_pfx {V : Type} (k : List Nat) (v : V) (search : List Nat) (cp : Nat)
    (child : PNode V) : (mkSplit k v search cp child).pfx = search.take cp := by
  unfold mkSplit
  split <;> rfl

theorem mkSplit_of_drop_nil {V : Type} {k : List Nat} {v : V} {search : List Nat} {cp : Nat}
    {child : PNode V} (h : search.drop cp = []) :
    mkSplit k v search cp child =
      PNode.mk (some (k, v)) (search.take cp)
        [(child.pfx.getD cp 0, PNode.mk child.leaf (child.pfx.drop cp) child.edges)] := by
  unfold mkSplit
  split
  · rfl
  · rename_i r0 rs hr2
    rw [h] at hr2
    exact absurd hr2 (by simp)

theorem mkSplit_of_drop_cons {V : Type} {k : List Nat} {v : V} {search : List Nat} {cp : Nat}
    {child : PNode V} {r0 : Nat} {rs : List Nat} (h : search.drop cp = r0 :: rs) :
    mkSplit k v search cp child =
      PNode.mk none (search.take cp)
        (insertEdge (r0, PNode.mk (some (k, v)) (r0 :: rs) [])
          [(child.pfx.getD cp 0, PNode.mk child.leaf (child.pfx.drop cp) child.edges)]) := by
  unfold mkSplit
  split
  · rename_i hr2
    rw [h] at hr2
    exact absurd hr2 (by simp)
  · rename_i r1 rs1 hr2
    rw [h] at hr2
    injection hr2 with h1 h2
    subst h1
    subst h2
    rfl

theorem getRec_retag {V : Type} (a : List Nat) (n : PNode V) (q : List Nat) :
    getRec (.mk n.leaf a n.edges) q = getRec n q := by
  rcases n with ⟨lf, b, es⟩
  simp only [PNode.leaf_mk, PNode.edges_mk]
  cases q with
  | nil => rw [getRec_nil, getRec_nil]
  | cons q0 qs => exact getRec_cons_indep lf lf a b es q0 qs

theorem wfN_retag {V : Type} (q a : List Nat) (n : PNode V) :
    wfN q (.mk n.leaf a n.edges) = wfN q n := by
  rcases n with ⟨lf, b, es⟩
  simp only [PNode.leaf_mk, PNode.edges_mk]
  exact wfN_mk_pfx_indep q lf a b es

theorem SL_single {C : Type} (e : Nat × C) : SL [e] := by
  simp [SL]

/-- Well-formedness of the split node (final branch of `Txn.insert`). -/
theorem mkSplit_wf {V : Type} (p k : List Nat) (v : V) (s0 : Nat) (ss r : List Nat)
    (child : PNode V)
    (hr : child.pfx = s0 :: r)
    (hcp_lt : commonPfxLen (s0 :: ss) child.pfx < child.pfx.length)
    (hwfc : wfN (p ++ child.pfx) child = true)
    (hk : k = p ++ s0 :: ss) :
    wfN (p ++ (s0 :: ss).take (commonPfxLen (s0 :: ss) child.pfx))
      (mkSplit k v (s0 :: ss) (commonPfxLen (s0 :: ss) child.pfx) child) = true := by
  have htake := take_commonPfxLen_eq (s0 :: ss) child.pfx
  have hdc : child.pfx.drop (commonPfxLen (s0 :: ss) child.pfx) =
      child.pfx.getD (commonPfxLen (s0 :: ss) child.pfx) 0 ::
        child.pfx.drop (commonPfxLen (s0 :: ss) child.pfx + 1) := by
    rw [List.drop_eq_getElem_cons hcp_lt, List.getD_eq_getElem child.pfx 0 hcp_lt]
  have hpath : (p ++ (s0 :: ss).take (commonPfxLen (s0 :: ss) child.pfx)) ++
      child.pfx.drop (commonPfxLen (s0 :: ss) child.pfx) = p ++ child.pfx := by
    rw [htake, List.append_assoc, List.take_append_drop]
  have htrim : ∀ q1 : List Nat, q1 = (p ++ (s0 :: ss).take (commonPfxLen (s0 :: ss) child.pfx)) ++
        child.pfx.drop (commonPfxLen (s0 :: ss) child.pfx) →
      wfN q1 (PNode.mk child.leaf (child.pfx.drop (commonPfxLen (s0 :: ss) child.pfx))
        child.edges) = true := by
    intro q1 hq1
    rw [hq1, hpath, wfN_retag]
    exact hwfc
  rcases hrest : (s0 :: ss).drop (commonPfxLen (s0 :: ss) child.pfx) with _ | ⟨r0, rs⟩
  · rw [mkSplit_of_drop_nil hrest, wfN_iff]
    have hss : (s0 :: ss).take (commonPfxLen (s0 :: ss) child.pfx) = s0 :: ss := by
      have h2 := List.take_append_drop (commonPfxLen (s0 :: ss) child.pfx) (s0 :: ss)
      rw [hrest, List.append_nil] at h2
      exact h2
    refine ⟨?_, SL_single _, ?_⟩
    · intro k1 v1 h0
      injection h0 with h0
      injection h0 with h1 h2
      rw [← h1, hk, hss]
    · rw [wfEs_iff]
      intro e he
      rw [List.mem_singleton] at he
      subst he
      refine ⟨⟨child.pfx.drop (commonPfxLen (s0 :: ss) child.pfx + 1), ?_⟩, ?_⟩
      · show (PNode.mk child.leaf _ child.edges).pfx = _
        rw [PNode.pfx_mk, hdc]
      · exact htrim _ rfl
  · have hlen2 : commonPfxLen (s0 :: ss) child.pfx < (s0 :: ss).length := by
      by_contra h2
      push_neg at h2
      rw [List.drop_eq_nil_of_le h2] at hrest
      exact absurd hrest (by simp)
    have hr0 : (s0 :: ss).getD (commonPfxLen (s0 :: ss) child.pfx) 0 = r0 := by
      have h2 := List.drop_eq_getElem_cons hlen2 (l := s0 :: ss)
      rw [hrest] at h2
      injection h2 with h3 h4
      rw [List.getD_eq_getElem _ 0 hlen2, h3]
    have hne_lab : r0 ≠ child.pfx.getD (commonPfxLen (s0 :: ss) child.pfx) 0 := by
      rw [← hr0]
      exact getD_ne_of_commonPfxLen (s0 :: ss) child.pfx hlen2 hcp_lt
    rw [mkSplit_of_drop_cons hrest, wfN_iff]
    refine ⟨by simp, ?_, ?_⟩
    · exact SL_insertEdge _ _ (SL_single _) (by simpa using hne_lab)
    · rw [wfEs_iff]
      intro e he
      rcases mem_insertEdge.mp he with rfl | he2
      · refine ⟨⟨rs, rfl⟩, ?_⟩
        rw [wfN_iff]
        refine ⟨?_, by simp [SL], by simp [wfEs]⟩
        intro k1 v1 h0
        injection h0 with h0
        injection h0 with h1 h2
        rw [← h1, hk]
        show p ++ s0 :: ss = (p ++ (s0 :: ss).take (commonPfxLen (s0 :: ss) child.pfx)) ++ r0 :: rs
        rw [List.append_assoc, ← hrest, List.take_append_drop]
      · rw [List.mem_singleton] at he2
        subst he2
        refine ⟨⟨child.pfx.drop (commonPfxLen (s0 :: ss) child.pfx + 1), ?_⟩, ?_⟩
        · show (PNode.mk child.leaf _ child.edges).pfx = _
          rw [PNode.pfx_mk, hdc]
        · exact htrim _ rfl

/-- Lookups inside the split node: the inserted suffix finds the new value,
suffixes continuing the old child prefix delegate to the old child, and
everything else misses. -/
theorem mkSplit_get {V : Type} (k : List Nat) (v : V) (s0 : Nat) (ss : List Nat)
    (child : PNode V)
    (hcp_lt : commonPfxLen (s0 :: ss) child.pfx < child.pfx.length) :
    ∀ qrest, getRec (mkSplit k v (s0 :: ss) (commonPfxLen (s0 :: ss) child.pfx) child) qrest =
      if qrest = (s0 :: ss).drop (commonPfxLen (s0 :: ss) child.pfx) then some v
      else if (child.pfx.drop (commonPfxLen (s0 :: ss) child.pfx)).isPrefixOf qrest then
        getRec child
          (qrest.drop (child.pfx.drop (commonPfxLen (s0 :: ss) child.pfx)).length)
      else none := by
  have hdc : child.pfx.drop (commonPfxLen (s0 :: ss) child.pfx) =
      child.pfx.getD (commonPfxLen (s0 :: ss) child.pfx) 0 ::
        child.pfx.drop (commonPfxLen (s0 :: ss) child.pfx + 1) := by
    rw [List.drop_eq_getElem_cons hcp_lt, List.getD_eq_getElem child.pfx 0 hcp_lt]
  intro qrest
  rcases hrest : (s0 :: ss).drop (commonPfxLen (s0 :: ss) child.pfx) with _ | ⟨r0, rs⟩
  · -- the new key ends exactly at the split node
    rw [mkSplit_of_drop_nil hrest]
    cases qrest with
    | nil =>
      rw [getRec_nil, if_pos rfl]
      rfl
    | cons d0 ds =>
      rw [if_neg (by simp)]
      by_cases hd : child.pfx.getD (commonPfxLen (s0 :: ss) child.pfx) 0 = d0
      · have hfl2 : findL [(child.pfx.getD (commonPfxLen (s0 :: ss) child.pfx) 0,
            PNode.mk child.leaf (child.pfx.drop (commonPfxLen (s0 :: ss) child.pfx))
              child.edges)] d0 =
            some (PNode.mk child.leaf
              (child.pfx.drop (commonPfxLen (s0 :: ss) child.pfx)) child.edges) := by
          rw [findL, if_pos hd]
        rw [getRec_cons_fsome (SL_single _) hfl2]
        rw [PNode.pfx_mk]
        by_cases hp2 :
            (child.pfx.drop (commonPfxLen (s0 :: ss) child.pfx)).isPrefixOf (d0 :: ds)
        · rw [if_pos hp2, if_pos hp2, getRec_retag]
        · rw [if_neg hp2, if_neg hp2]
      · have hfl2 : findL [(child.pfx.getD (commonPfxLen (s0 :: ss) child.pfx) 0,
            PNode.mk child.leaf (child.pfx.drop (commonPfxLen (s0 :: ss) child.pfx))
              child.edges)] d0 = none := by
          rw [findL, if_neg hd]
          rfl
        rw [getRec_cons_fnone (SL_single _) hfl2]
        rw [if_neg ?hp3]
        case hp3 =>
          intro hp
          rw [isPrefixOf_iff, hdc] at hp
          obtain ⟨t, ht⟩ := hp
          injection ht with h1 h2
          exact hd h1
  · -- the new key continues below the split node as a fresh leaf child
    have hlen2 : commonPfxLen (s0 :: ss) child.pfx < (s0 :: ss).length := by
      by_contra h2
      push_neg at h2
      rw [List.drop_eq_nil_of_le h2] at hrest
      exact absurd hrest (by simp)
    have hr0 : (s0 :: ss).getD (commonPfxLen (s0 :: ss) child.pfx) 0 = r0 := by
      have h2 := List.drop_eq_getElem_cons hlen2 (l := s0 :: ss)
      rw [hrest] at h2
      injection h2 with h3 h4
      rw [List.getD_eq_getElem _ 0 hlen2, h3]
    have hne_lab : r0 ≠ child.pfx.getD (commonPfxLen (s0 :: ss) child.pfx) 0 := by
      rw [← hr0]
      exact getD_ne_of_commonPfxLen (s0 :: ss) child.pfx hlen2 hcp_lt
    rw [mkSplit_of_drop_cons hrest]
    have hSLsp : SL (insertEdge (r0, PNode.mk (some (k, v)) (r0 :: rs) [])
        [(child.pfx.getD (commonPfxLen (s0 :: ss) child.pfx) 0,
          PNode.mk child.leaf (child.pfx.drop (commonPfxLen (s0 :: ss) child.pfx))
            child.edges)]) :=
      SL_insertEdge _ _ (SL_single _) (by simpa using hne_lab)
    cases qrest with
    | nil =>
      rw [getRec_nil]
      rw [if_neg (by simp), if_neg ?hp4]
      · rfl
      case hp4 =>
        intro hp
        rw [isPrefixOf_iff, hdc] at hp
        have := hp.length_le
        simp at this
    | cons d0 ds =>
      have hfle := findL_insertEdge (r0, PNode.mk (some (k, v)) (r0 :: rs) [])
        [(child.pfx.getD (commonPfxLen (s0 :: ss) child.pfx) 0,
          PNode.mk child.leaf (child.pfx.drop (commonPfxLen (s0 :: ss) child.pfx))
            child.edges)] d0
      by_cases hd0 : r0 = d0
      · -- the fresh leaf child
        subst hd0
        rw [if_pos rfl] at hfle
        rw [getRec_cons_fsome hSLsp hfle, PNode.pfx_mk]
        by_cases hp2 : (r0 :: rs).isPrefixOf (r0 :: ds)
        · rw [if_pos hp2]
          have hp3 := (isPrefixOf_iff _ _).mp hp2
          obtain ⟨z, hz⟩ := hp3
          have hdz : (r0 :: ds).drop (r0 :: rs).length = z := by
            rw [← hz, List.drop_left]
          rw [hdz]
          cases z with
          | nil =>
            rw [getRec_nil, if_pos (by rw [← hz, List.append_nil])]
            rfl
          | cons z0 zs =>
            rw [getRec_cons_none (getEdge_nil z0)]
            have hne2 : ¬ ((r0 :: ds) = (r0 :: rs)) := by
              rw [← hz]
              exact (ne_append_of_ne_nil (by simp)).symm
            rw [if_neg hne2, if_neg ?hp5]
            case hp5 =>
              intro hp
              rw [isPrefixOf_iff, hdc] at hp
              obtain ⟨t, ht⟩ := hp
              injection ht with h1 h2
              exact hne_lab h1.symm
        · rw [if_neg hp2]
          rw [if_neg ?hp6, if_neg ?hp7]
          case hp6 =>
            intro he
            rw [he] at hp2
            rw [isPrefixOf_iff] at hp2
            exact hp2 (List.prefix_refl _)
          case hp7 =>
            intro hp
            rw [isPrefixOf_iff, hdc] at hp
            obtain ⟨t, ht⟩ := hp
            injection ht with h1 h2
            exact hne_lab h1.symm
      · rw [if_neg hd0] at hfle
        have hne3 : ¬ ((d0 :: ds) = (r0 :: rs)) :=
          fun he => hd0 (by injection he with h1 h2; rw [h1])
        rw [if_neg hne3]
        by_cases hd : child.pfx.getD (commonPfxLen (s0 :: ss) child.pfx) 0 = d0
        · rw [findL, if_pos hd] at hfle
          rw [getRec_cons_fsome hSLsp hfle, PNode.pfx_mk]
          by_cases hp2 :
              (child.pfx.drop (commonPfxLen (s0 :: ss) child.pfx)).isPrefixOf (d0 :: ds)
          · rw [if_pos hp2, if_pos hp2, getRec_retag]
          · rw [if_neg hp2, if_neg hp2]
        · rw [findL, if_neg hd] at hfle
          rw [getRec_cons_fnone hSLsp (by rw [hfle]; rfl)]
          rw [if_neg ?hp8]
          case hp8 =>
            intro hp
            rw [isPrefixOf_iff, hdc] at hp
            obtain ⟨t, ht⟩ := hp
            injection ht with h1 h2
            exact hd h1

/-- Main correctness of the recursive insert, by strong induction on the
node size: the node keeps its prefix, stays well-formed, lookups change
exactly at the inserted suffix, and the returned pair is the old value and
whether it existed. -/
theorem insertRec_ok {V : Type} :
    ∀ (m : Nat) (n : PNode V) (p k search : List Nat) (v : V),
      sizeOf n ≤ m → wfN p n = true → k = p ++ search →
      (insertRec n k search v).1.pfx = n.pfx ∧
      wfN p (insertRec n k search v).1 = true ∧
      (∀ q, getRec (insertRec n k search v).1 q =
        if q = search then some v else getRec n q) ∧
      (insertRec n k search v).2.1 = getRec n search ∧
      (insertRec n k search v).2.2 = (getRec n search).isSome := by
  intro m
  induction m with
  | zero =>
    intro n p k search v hm
    rcases n with ⟨lf, px, es⟩
    simp only [PNode.mk.sizeOf_spec] at hm
    omega
  | succ m ih =>
    intro n p k search v hm hwf hk
    rcases n with ⟨lf, px, es⟩
    rw [wfN_iff] at hwf
    obtain ⟨hleaf, hSL, hwfes⟩ := hwf
    cases search with
    | nil =>
      rw [List.append_nil] at hk
      rw [insertRec_nil]
      cases lf with
      | none =>
        refine ⟨rfl, ?_, ?_, by simp [getRec_nil], by simp [getRec_nil]⟩
        · rw [wfN_iff]
          refine ⟨?_, hSL, hwfes⟩
          intro k0 v0 h0
          injection h0 with h0
          injection h0 with h1 h2
          rw [← h1, hk]
        · intro q
          cases q with
          | nil => simp [getRec_nil]
          | cons q0 qs =>
            rw [if_neg (by simp)]
            exact getRec_cons_indep _ _ _ _ _ _ _
      | some lZ =>
        rcases lZ with ⟨k0, v0⟩
        refine ⟨rfl, ?_, ?_, by simp [getRec_nil], by simp [getRec_nil]⟩
        · rw [wfN_iff]
          refine ⟨?_, hSL, hwfes⟩
          intro k1 v1 h0
          injection h0 with h0
          injection h0 with h1 h2
          rw [← h1]
          exact hleaf k0 v0 rfl
        · intro q
          cases q with
          | nil => simp [getRec_nil]
          | cons q0 qs =>
            rw [if_neg (by simp)]
            exact getRec_cons_indep _ _ _ _ _ _ _
    | cons s0 ss =>
      rcases hge : getEdge es s0 with _ | ⟨i, child⟩
      · -- no edge: attach a fresh leaf child
        have hs0 : s0 ∉ es.map Prod.fst := (getEdge_eq_none_iff hSL s0).mp hge
        have hfl : findL es s0 = none := findL_eq_none.mpr hs0
        have hSL2 : SL (insertEdge (s0, PNode.mk (some (k, v)) (s0 :: ss) []) es) :=
          SL_insertEdge _ es hSL hs0
        rw [insertRec_cons_none hge]
        refine ⟨rfl, ?_, ?_, ?_, ?_⟩
        · rw [wfN_iff]
          refine ⟨hleaf, hSL2, ?_⟩
          rw [wfEs_iff]
          intro e he
          rcases mem_insertEdge.mp he with rfl | he2
          · refine ⟨⟨ss, rfl⟩, ?_⟩
            rw [wfN_iff]
            refine ⟨?_, by simp [SL], by simp [wfEs]⟩
            intro k1 v1 h0
            injection h0 with h0
            injection h0 with h1 h2
            rw [← h1, hk]
            rfl
          · exact (wfEs_iff p es).mp hwfes e he2
        · intro q
          cases q with
          | nil =>
            rw [if_neg (by simp), getRec_nil, getRec_nil]
          | cons q0 qs =>
            have hfl2 : findL (insertEdge (s0, PNode.mk (some (k, v)) (s0 :: ss) []) es) q0 =
                if s0 = q0 then some (PNode.mk (some (k, v)) (s0 :: ss) []) else findL es q0 :=
              findL_insertEdge _ es q0
            by_cases hq0 : s0 = q0
            · subst hq0
              rw [if_pos rfl] at hfl2
              rw [getRec_cons_fsome hSL2 hfl2]
              simp only [PNode.pfx_mk]
              by_cases hpre : (s0 :: ss).isPrefixOf (s0 :: qs)
              · have hpre2 := (isPrefixOf_iff _ _).mp hpre
                obtain ⟨tail, htail⟩ := hpre2
                have hdq : (s0 :: qs).drop (s0 :: ss).length = tail := by
                  rw [← htail, List.drop_left]
                rw [if_pos hpre, hdq]
                cases tail with
                | nil =>
                  have heq : (s0 :: qs) = (s0 :: ss) := by
                    rw [← htail, List.append_nil]
                  rw [getRec_nil, if_pos heq]
                  rfl
                | cons t0 ts =>
                  have hne : ¬ ((s0 :: qs) = (s0 :: ss)) := by
                    rw [← htail]
                    exact (ne_append_of_ne_nil (by simp)).symm
                  rw [getRec_cons_none (getEdge_nil t0), if_neg hne]
                  rw [getRec_cons_fnone hSL hfl]
              · rw [if_neg hpre]
                rw [if_neg ?hne2, getRec_cons_fnone hSL hfl]
                case hne2 =>
                  intro he
                  rw [he] at hpre
                  rw [isPrefixOf_iff] at hpre
                  exact hpre (List.prefix_refl _)
            · rw [if_neg hq0] at hfl2
              have hne : ¬ (q0 :: qs) = (s0 :: ss) :=
                fun he => hq0 (by injection he with h1 h2; rw [h1])
              rw [if_neg hne]
              rcases hflq : findL es q0 with _ | c2
              · rw [hflq] at hfl2
                rw [getRec_cons_fnone hSL2 hfl2, getRec_cons_fnone hSL hflq]
              · rw [hflq] at hfl2
                rw [getRec_cons_fsome hSL2 hfl2, getRec_cons_fsome hSL hflq]
        · rw [getRec_cons_fnone hSL hfl]
        · rw [getRec_cons_fnone hSL hfl]
          rfl
      · -- edge found
        have hget2 : es.get? i = some (s0, child) := getEdge_eq_some hge
        have hmem : (s0, child) ∈ es := List.get?_mem hget2
        have hfl : findL es s0 = some child := findL_of_get? (SL_nodup hSL) hget2
        obtain ⟨⟨r, hr⟩, hwfc⟩ := (wfEs_iff p es).mp hwfes (s0, child) hmem
        by_cases hcp : commonPfxLen (s0 :: ss) child.pfx = child.pfx.length
        · -- child prefix fully matches: recurse
          have hcpfx : child.pfx <+: (s0 :: ss) := (commonPfxLen_eq_right_iff _ _).mp hcp
          obtain ⟨srest, hsplit⟩ := hcpfx
          have hdrop : (s0 :: ss).drop child.pfx.length = srest := by
            rw [← hsplit, List.drop_left]
          have hsize : sizeOf child ≤ m := by
            have := @sizeOf_lt_of_getEdge _ lf px _ _ _ _ hge
            omega
          have hk2 : k = (p ++ child.pfx) ++ srest := by
            rw [hk, ← hsplit, List.append_assoc]
          obtain ⟨ihpfx, ihwf, ihget, ihold, ihupd⟩ :=
            ih child (p ++ child.pfx) k srest v hsize hwfc hk2
          rw [insertRec_cons_eq hge hcp, hdrop]
          have hSL2 : SL (es.set i (s0, (insertRec child k srest v).1)) :=
            SL_set hSL hget2 _
          have hfl2 : ∀ q0, findL (es.set i (s0, (insertRec child k srest v).1)) q0 =
              if s0 = q0 then some (insertRec child k srest v).1 else findL es q0 :=
            findL_set (SL_nodup hSL) hget2 _
          refine ⟨rfl, ?_, ?_, ?_, ?_⟩
          · rw [wfN_iff]
            refine ⟨hleaf, hSL2, ?_⟩
            rw [wfEs_iff]
            intro e he
            rcases List.mem_or_eq_of_mem_set he with he2 | rfl
            · exact (wfEs_iff p es).mp hwfes e he2
            · refine ⟨⟨r, ?_⟩, ?_⟩
              · show (insertRec child k srest v).1.pfx = s0 :: r
                rw [ihpfx, hr]
              · show wfN (p ++ (insertRec child k srest v).1.pfx)
                  (insertRec child k srest v).1 = true
                rw [ihpfx]
                exact ihwf
          · intro q
            cases q with
            | nil =>
              rw [if_neg (by simp), getRec_nil, getRec_nil]
            | cons q0 qs =>
              by_cases hq0 : s0 = q0
              · subst hq0
                have hf2 := hfl2 s0
                rw [if_pos rfl] at hf2
                rw [getRec_cons_fsome hSL2 hf2, ihpfx]
                by_cases hpre : child.pfx.isPrefixOf (s0 :: qs)
                · rw [if_pos hpre, getRec_cons_fsome hSL hfl, if_pos hpre]
                  have hpre2 := (isPrefixOf_iff _ _).mp hpre
                  obtain ⟨qrest, hqr⟩ := hpre2
                  have hdq : (s0 :: qs).drop child.pfx.length = qrest := by
                    rw [← hqr, List.drop_left]
                  rw [hdq, ihget qrest]
                  by_cases hqs : qrest = srest
                  · subst hqs
                    rw [if_pos rfl, if_pos (by rw [← hqr, hsplit])]
                  · rw [if_neg hqs, if_neg ?hneq]
                    case hneq =>
                      intro he
                      apply hqs
                      apply @List.append_cancel_left _ child.pfx
                      rw [hqr, hsplit, he]
                · rw [if_neg hpre, getRec_cons_fsome hSL hfl, if_neg hpre, if_neg ?hneq2]
                  case hneq2 =>
                    intro he
                    apply hpre
                    rw [he, isPrefixOf_iff]
                    exact ⟨srest, hsplit⟩
              · have hf2 := hfl2 q0
                rw [if_neg hq0] at hf2
                have hne : ¬ (q0 :: qs) = (s0 :: ss) :=
                  fun he => hq0 (by injection he with h1 h2; rw [h1])
                rw [if_neg hne]
                rcases hflq : findL es q0 with _ | c2
                · rw [hflq] at hf2
                  rw [getRec_cons_fnone hSL2 hf2, getRec_cons_fnone hSL hflq]
                · rw [hflq] at hf2
                  rw [getRec_cons_fsome hSL2 hf2, getRec_cons_fsome hSL hflq]
          · rw [getRec_cons_fsome hSL hfl,
              if_pos ((isPrefixOf_iff _ _).mpr ⟨srest, hsplit⟩), hdrop]
            exact ihold
          · rw [getRec_cons_fsome hSL hfl,
              if_pos ((isPrefixOf_iff _ _).mpr ⟨srest, hsplit⟩), hdrop]
            exact ihupd
        · -- split the child
          have hcp_lt : commonPfxLen (s0 :: ss) child.pfx < child.pfx.length :=
            lt_of_le_of_ne (commonPfxLen_le_right _ _) hcp
          have htake := take_commonPfxLen_eq (s0 :: ss) child.pfx
          have hold_pre : ¬ child.pfx.isPrefixOf (s0 :: ss) := by
            rw [isPrefixOf_iff]
            intro hp
            exact hcp ((commonPfxLen_eq_right_iff _ _).mpr hp)
          rw [insertRec_cons_split hge hcp, replaceEdge_eq_set hge]
          have hSL3 : SL (es.set i
              (s0, mkSplit k v (s0 :: ss) (commonPfxLen (s0 :: ss) child.pfx) child)) :=
            SL_set hSL hget2 _
          have hfl3 := findL_set (SL_nodup hSL) hget2
            (mkSplit k v (s0 :: ss) (commonPfxLen (s0 :: ss) child.pfx) child)
          refine ⟨rfl, ?_, ?_, ?_, ?_⟩
          · rw [wfN_iff]
            refine ⟨hleaf, hSL3, ?_⟩
            rw [wfEs_iff]
            intro e he
            rcases List.mem_or_eq_of_mem_set he with he2 | rfl
            · exact (wfEs_iff p es).mp hwfes e he2
            · have hcp_pos : 1 ≤ commonPfxLen (s0 :: ss) child.pfx := by
                rw [hr]
                simp [commonPfxLen]
              obtain ⟨cpm, hcpm⟩ : ∃ c, commonPfxLen (s0 :: ss) child.pfx = c + 1 :=
                ⟨commonPfxLen (s0 :: ss) child.pfx - 1, by omega⟩
              refine ⟨⟨ss.take cpm, ?_⟩, ?_⟩
              · show (mkSplit k v (s0 :: ss) (commonPfxLen (s0 :: ss) child.pfx) child).pfx =
                  s0 :: ss.take cpm
                rw [mkSplit_pfx, hcpm]
                rfl
              · show wfN (p ++
                    (mkSplit k v (s0 :: ss) (commonPfxLen (s0 :: ss) child.pfx) child).pfx)
                    (mkSplit k v (s0 :: ss) (commonPfxLen (s0 :: ss) child.pfx) child) = true
                rw [mkSplit_pfx]
                exact mkSplit_wf p k v s0 ss r child hr hcp_lt hwfc hk
          · intro q
            cases q with
            | nil =>
              rw [if_neg (by simp), getRec_nil, getRec_nil]
            | cons q0 qs =>
              by_cases hq0 : s0 = q0
              · subst hq0
                have hf2 := hfl3 s0
                rw [if_pos rfl] at hf2
                rw [getRec_cons_fsome hSL3 hf2, mkSplit_pfx]
                by_cases hpre :
                    ((s0 :: ss).take (commonPfxLen (s0 :: ss) child.pfx)).isPrefixOf (s0 :: qs)
                · rw [if_pos hpre]
                  have hpre2 := (isPrefixOf_iff _ _).mp hpre
                  obtain ⟨qrest, hq⟩ := hpre2
                  have htl : ((s0 :: ss).take (commonPfxLen (s0 :: ss) child.pfx)).length =
                      commonPfxLen (s0 :: ss) child.pfx := by
                    rw [List.length_take]
                    have := commonPfxLen_le_left (s0 :: ss) child.pfx
                    omega
                  have hdq : (s0 :: qs).drop
                      (((s0 :: ss).take (commonPfxLen (s0 :: ss) child.pfx)).length) = qrest := by
                    rw [← hq, List.drop_left]
                  rw [hdq, mkSplit_get k v s0 ss child hcp_lt qrest]
                  have heqiff : (qrest = (s0 :: ss).drop (commonPfxLen (s0 :: ss) child.pfx)) ↔
                      ((s0 :: qs) = (s0 :: ss)) := by
                    constructor
                    · intro hz
                      rw [← hq, hz]
                      exact List.take_append_drop _ _
                    · intro hz
                      apply @List.append_cancel_left _
                        ((s0 :: ss).take (commonPfxLen (s0 :: ss) child.pfx))
                      rw [hq, hz]
                      exact (List.take_append_drop _ _).symm
                  have h9 : (s0 :: ss).take (commonPfxLen (s0 :: ss) child.pfx) ++
                      child.pfx.drop (commonPfxLen (s0 :: ss) child.pfx) = child.pfx := by
                    rw [htake]
                    exact List.take_append_drop _ _
                  have hpiff : (child.pfx.drop (commonPfxLen (s0 :: ss) child.pfx)) <+: qrest ↔
                      child.pfx <+: (s0 :: qs) := by
                    constructor
                    · intro hp
                      have h8 := (List.prefix_append_right_inj
                        ((s0 :: ss).take (commonPfxLen (s0 :: ss) child.pfx))).mpr hp
                      rw [hq, h9] at h8
                      exact h8
                    · intro hp
                      have h8 : (s0 :: ss).take (commonPfxLen (s0 :: ss) child.pfx) ++
                          child.pfx.drop (commonPfxLen (s0 :: ss) child.pfx) <+:
                          (s0 :: ss).take (commonPfxLen (s0 :: ss) child.pfx) ++ qrest := by
                        rw [h9, hq]
                        exact hp
                      exact (List.prefix_append_right_inj _).mp h8
                  have h5 : child.pfx.length =
                      ((s0 :: ss).take (commonPfxLen (s0 :: ss) child.pfx)).length +
                        (child.pfx.length - commonPfxLen (s0 :: ss) child.pfx) := by
                    rw [htl]
                    omega
                  have hdrop2 : (s0 :: qs).drop child.pfx.length =
                      qrest.drop ((child.pfx.drop (commonPfxLen (s0 :: ss) child.pfx)).length) := by
                    calc (s0 :: qs).drop child.pfx.length
                        = ((s0 :: ss).take (commonPfxLen (s0 :: ss) child.pfx) ++ qrest).drop
                            (((s0 :: ss).take (commonPfxLen (s0 :: ss) child.pfx)).length +
                              (child.pfx.length - commonPfxLen (s0 :: ss) child.pfx)) := by
                          rw [hq, ← h5]
                      _ = qrest.drop (child.pfx.length - commonPfxLen (s0 :: ss) child.pfx) :=
                          List.drop_append _
                      _ = qrest.drop ((child.pfx.drop
                            (commonPfxLen (s0 :: ss) child.pfx)).length) := by
                          rw [List.length_drop]
                  by_cases hz : qrest = (s0 :: ss).drop (commonPfxLen (s0 :: ss) child.pfx)
                  · rw [if_pos hz, if_pos (heqiff.mp hz)]
                  · rw [if_neg hz, if_neg (fun he => hz (heqiff.mpr he))]
                    rw [getRec_cons_fsome hSL hfl]
                    by_cases hp : (child.pfx.drop
                        (commonPfxLen (s0 :: ss) child.pfx)).isPrefixOf qrest
                    · rw [if_pos hp]
                      rw [if_pos ((isPrefixOf_iff _ _).mpr
                        (hpiff.mp ((isPrefixOf_iff _ _).mp hp)))]
                      rw [hdrop2]
                    · rw [if_neg hp]
                      rw [if_neg (fun hp2 => hp ((isPrefixOf_iff _ _).mpr
                        (hpiff.mpr ((isPrefixOf_iff _ _).mp hp2))))]
                · rw [if_neg hpre]
                  have hqne : ¬ ((s0 :: qs) = (s0 :: ss)) := by
                    intro he
                    apply hpre
                    rw [he, isPrefixOf_iff]
                    exact List.take_prefix _ _
                  rw [if_neg hqne, getRec_cons_fsome hSL hfl, if_neg ?hp9]
                  case hp9 =>
                    intro hp
                    apply hpre
                    rw [isPrefixOf_iff] at hp ⊢
                    rw [htake]
                    exact (List.take_prefix _ child.pfx).trans hp
              · have hf2 := hfl3 q0
                rw [if_neg hq0] at hf2
                have hne : ¬ ((q0 :: qs) = (s0 :: ss)) :=
                  fun he => hq0 (by injection he with h1 h2; rw [h1])
                rw [if_neg hne]
                rcases hflq : findL es q0 with _ | c2
                · rw [hflq] at hf2
                  rw [getRec_cons_fnone hSL3 hf2, getRec_cons_fnone hSL hflq]
                · rw [hflq] at hf2
                  rw [getRec_cons_fsome hSL3 hf2, getRec_cons_fsome hSL hflq]
          · rw [getRec_cons_fsome hSL hfl, if_neg hold_pre]
          · rw [getRec_cons_fsome hSL hfl, if_neg hold_pre]
            rfl

/-! ## Tree-level corollaries of insert correctness -/

theorem get_newTree {V : Type} (k : List Nat) : (newTree V).get k = none := by
  cases k with
  | nil => rw [PTree.get, newTree, getRec_nil]; rfl
  | cons q0 qs => exact getRec_cons_none (getEdge_nil q0)

theorem insertK_spec {V : Type} (t : PTree V) (k : List Nat) (v : V)
    (hwf : wfTree t = true) :
    wfTree (t.insertK k v).1 = true ∧
    (∀ q, (t.insertK k v).1.get q = if q = k then some v else t.get q) ∧
    (t.insertK k v).2.1 = t.get k ∧
    (t.insertK k v).2.2 = (t.get k).isSome ∧
    (t.insertK k v).1.len = (if (t.get k).isSome then t.len else t.len + 1) := by
  rw [wfTree, Bool.and_eq_true] at hwf
  obtain ⟨hwfn, hroot⟩ := hwf
  obtain ⟨hpfx, hwf2, hget, hold, hupd⟩ :=
    insertRec_ok (sizeOf t.root) t.root [] k k v (le_refl _) hwfn (by simp)
  refine ⟨?_, hget, hold, hupd, ?_⟩
  · rw [wfTree, Bool.and_eq_true]
    constructor
    · exact hwf2
    · show (insertRec t.root k k v).1.pfx.isEmpty = true
      rw [hpfx]
      exact hroot
  · show (if (insertRec t.root k k v).2.2 then t.size else t.size + 1) = _
    rw [hupd]
    simp only [PTree.get, PTree.len]

/-- Inserting a list of pairs through one transaction
(`Txn.Insert` repeatedly, then `Commit`). -/
def insertManyTxn {V : Type} : PTxn V → List (List Nat × V) → PTxn V
  | t, [] => t
  | t, kv :: rest => insertManyTxn (t.insertK kv.1 kv.2).1 rest

/-- Inserting a list of pairs through repeated `Tree.Insert`. -/
def insertMany {V : Type} : PTree V → List (List Nat × V) → PTree V
  | t, [] => t
  | t, kv :: rest => insertMany (t.insertK kv.1 kv.2).1 rest

theorem insertMany_eq_txn {V : Type} :
    ∀ (l : List (List Nat × V)) (t : PTree V),
      insertMany t l = (insertManyTxn t.txn l).commit
  | [], t => by
    rw [insertMany, insertManyTxn]
    cases t
    rfl
  | kv :: rest, t => by
    rw [insertMany, insertManyTxn]
    rw [insertMany_eq_txn rest]
    rfl

theorem insertMany_ok {V : Type} :
    ∀ (l : List (List Nat × V)) (t : PTree V), wfTree t = true →
      (l.map Prod.fst).Nodup → (∀ kv ∈ l, t.get kv.1 = none) →
      wfTree (insertMany t l) = true ∧
      (insertMany t l).len = t.len + l.length ∧
      (∀ kv ∈ l, (insertMany t l).get kv.1 = some kv.2) ∧
      (∀ q, (∀ kv ∈ l, q ≠ kv.1) → (insertMany t l).get q = t.get q)
  | [], t, hwf, _, _ => by
    rw [insertMany]
    exact ⟨hwf, by simp, by simp, fun q _ => rfl⟩
  | (k, v) :: rest, t, hwf, hnd, hfresh => by
    rw [insertMany]
    obtain ⟨hwf2, hget2, _, _, hlen2⟩ := insertK_spec t k v hwf
    have hk_none : t.get k = none := hfresh (k, v) (List.mem_cons_self _ _)
    simp only [List.map_cons, List.nodup_cons] at hnd
    have hfresh2 : ∀ kv ∈ rest, (t.insertK k v).1.get kv.1 = none := by
      intro kv hkv
      rw [hget2]
      have hne : kv.1 ≠ k := by
        intro he
        exact hnd.1 (he ▸ List.mem_map_of_mem Prod.fst hkv)
      rw [if_neg hne]
      exact hfresh kv (List.mem_cons_of_mem _ hkv)
    obtain ⟨ihwf, ihlen, ihmem, ihother⟩ :=
      insertMany_ok rest (t.insertK k v).1 hwf2 hnd.2 hfresh2
    refine ⟨ihwf, ?_, ?_, ?_⟩
    · rw [ihlen, hlen2, hk_none]
      simp only [Option.isSome_none, Bool.false_eq_true, if_false, List.length_cons]
      omega
    · intro kv hkv
      rcases List.mem_cons.mp hkv with rfl | hkv2
      · show (insertMany (t.insertK k v).1 rest).get k = some v
        rw [ihother k ?hall, hget2, if_pos rfl]
        case hall =>
          intro kv2 hkv2 he
          exact hnd.1 (he ▸ List.mem_map_of_mem Prod.fst hkv2)
      · exact ihmem kv hkv2
    · intro q hq
      rw [ihother q (fun kv hkv => hq kv (List.mem_cons_of_mem _ hkv)), hget2,
        if_neg (hq (k, v) (List.mem_cons_self _ _))]

theorem wfTree_newTree (V : Type) : wfTree (newTree V) = true := rfl

/-- C2 (claim): for every finite sequence of pairwise-distinct keys with
values, inserting all pairs into an empty tree — directly through
`Tree.Insert` or through one transaction — yields a tree with
`Len = |K|` in which `Get` finds every inserted pair. -/
theorem claim_C2 {V : Type} (l : List (List Nat × V)) (hnd : (l.map Prod.fst).Nodup) :
    (insertMany (newTree V) l).len = l.length ∧
    (∀ kv ∈ l, (insertMany (newTree V) l).get kv.1 = some kv.2) ∧
    insertMany (newTree V) l = (insertManyTxn (newTree V).txn l).commit := by
  obtain ⟨_, hlen, hmem, _⟩ :=
    insertMany_ok l (newTree V) (wfTree_newTree V) hnd (fun kv _ => get_newTree kv.1)
  refine ⟨?_, hmem, insertMany_eq_txn l (newTree V)⟩
  rw [hlen]
  show 0 + l.length = l.length
  omega

theorem claim_C2_witness :
    (([([48, 48, 49], 1), ([48, 48, 50], 2), ([48, 49, 48], 10)] :
        List (List Nat × Nat)).map Prod.fst).Nodup ∧
    ((insertMany (newTree Nat) [([48, 48, 49], 1), ([48, 48, 50], 2), ([48, 49, 48], 10)]).len = 3 ∧
      (∀ kv ∈ [([48, 48, 49], 1), ([48, 48, 50], 2), ([48, 49, 48], 10)],
        (insertMany (newTree Nat)
          [([48, 48, 49], 1), ([48, 48, 50], 2), ([48, 49, 48], 10)]).get kv.1 = some kv.2) ∧
      insertMany (newTree Nat) [([48, 48, 49], 1), ([48, 48, 50], 2), ([48, 49, 48], 10)] =
        (insertManyTxn (newTree Nat).txn
          [([48, 48, 49], 1), ([48, 48, 50], 2), ([48, 49, 48], 10)]).commit) :=
  ⟨by decide, claim_C2 [([48, 48, 49], 1), ([48, 48, 50], 2), ([48, 49, 48], 10)] (by decide)⟩

/-- C7 (claim): `Tree.Insert` on a key already stored with value `w`
returns `(w, true)` as `(oldValue, didUpdate)` and keeps `Len`; on an
absent key it returns `(nil, false)` and increments `Len`. -/
theorem claim_C7 {V : Type} (t : PTree V) (k : List Nat) (v : V) (hwf : wfTree t = true) :
    (∀ w, t.get k = some w →
      (t.insertK k v).2 = (some w, true) ∧ (t.insertK k v).1.len = t.len) ∧
    (t.get k = none →
      (t.insertK k v).2 = (none, false) ∧ (t.insertK k v).1.len = t.len + 1) := by
  obtain ⟨_, _, hold, hupd, hlen⟩ := insertK_spec t k v hwf
  constructor
  · intro w hw
    constructor
    · have h1 : (t.insertK k v).2 = ((t.insertK k v).2.1, (t.insertK k v).2.2) := rfl
      rw [h1, hold, hupd, hw]
      rfl
    · rw [hlen, hw]
      rfl
  · intro hw
    constructor
    · have h1 : (t.insertK k v).2 = ((t.insertK k v).2.1, (t.insertK k v).2.2) := rfl
      rw [h1, hold, hupd, hw]
      rfl
    · rw [hlen, hw]
      rfl

/-- A one-entry example tree built through the embedded operations,
with derived facts used to instantiate claim witnesses. -/
def exTree1 : PTree Nat := ((newTree Nat).insertK [97] 5).1

theorem exTree1_wf : wfTree exTree1 = true :=
  (insertK_spec (newTree Nat) [97] 5 (wfTree_newTree Nat)).1

theorem exTree1_get97 : exTree1.get [97] = some 5 := by
  have h := (insertK_spec (newTree Nat) [97] 5 (wfTree_newTree Nat)).2.1 [97]
  rw [if_pos rfl] at h
  exact h

theorem exTree1_get98 : exTree1.get [98] = none := by
  have h := (insertK_spec (newTree Nat) [97] 5 (wfTree_newTree Nat)).2.1 [98]
  rw [if_neg (by decide), get_newTree] at h
  exact h

theorem claim_C7_witness :
    wfTree exTree1 = true ∧
    (exTree1.insertK [97] 7).2 = (some 5, true) ∧
    (exTree1.insertK [97] 7).1.len = exTree1.len :=
  ⟨exTree1_wf,
    ((claim_C7 exTree1 [97] 7 exTree1_wf).1 5 exTree1_get97).1,
    ((claim_C7 exTree1 [97] 7 exTree1_wf).1 5 exTree1_get97).2⟩

/-! ## Deleting an absent key -/

theorem deleteRec_none_of_get_none {V : Type} :
    ∀ (m : Nat) (n : PNode V) (search : List Nat) (b : Bool),
      sizeOf n ≤ m → getRec n search = none → deleteRec b n search = none := by
  intro m
  induction m with
  | zero =>
    intro n search b hm
    rcases n with ⟨lf, px, es⟩
    simp only [PNode.mk.sizeOf_spec] at hm
    omega
  | succ m ih =>
    intro n search b hm hget
    rcases n with ⟨lf, px, es⟩
    cases search with
    | nil =>
      rw [getRec_nil] at hget
      rw [deleteRec_nil]
      cases lf with
      | none => rfl
      | some l0 => exact absurd hget (by simp)
    | cons s0 ss =>
      rcases hge : getEdge es s0 with _ | ⟨i, child⟩
      · exact deleteRec_cons_none hge
      · rw [getRec_cons_some hge] at hget
        rw [deleteRec_cons_some hge]
        by_cases hpre : child.pfx.isPrefixOf (s0 :: ss)
        · rw [if_pos hpre] at hget ⊢
          have hsize : sizeOf child ≤ m := by
            have := @sizeOf_lt_of_getEdge _ lf px _ _ _ _ hge
            omega
          rw [ih child ((s0 :: ss).drop child.pfx.length) false hsize hget]
        · rw [if_neg hpre]

/-- C10 (claim): deleting a key that is not stored returns
`(found = false, nil)` and leaves the tree unchanged (same root, same
`Len`). -/
theorem claim_C10 {V : Type} (t : PTree V) (k : List Nat) (hget : t.get k = none) :
    t.deleteK k = (t, none, false) := by
  have hdel : deleteRec true t.txn.root k = none :=
    deleteRec_none_of_get_none (sizeOf t.txn.root) t.txn.root k true (le_refl _) hget
  have h2 : t.txn.deleteK k = (t.txn, none, false) := by
    unfold PTxn.deleteK
    rw [hdel]
  show ((t.txn.deleteK k).1.commit, (t.txn.deleteK k).2) = (t, none, false)
  rw [h2]
  cases t
  rfl

theorem claim_C10_witness :
    exTree1.get [98] = none ∧
    exTree1.deleteK [98] = (exTree1, none, false) :=
  ⟨exTree1_get98, claim_C10 exTree1 [98] exTree1_get98⟩

/-! ## Stored entries: shape lemmas -/

theorem entriesN_mk {V : Type} (lf : Option (List Nat × V)) (px : List Nat)
    (es : List (Nat × PNode V)) :
    entriesN (.mk lf px es) = lf.toList ++ entriesEs es := by
  rw [entriesN.eq_def]

theorem entriesEs_nil {V : Type} : entriesEs ([] : List (Nat × PNode V)) = [] := by
  rw [entriesEs.eq_def]

theorem entriesEs_cons {V : Type} (l : Nat) (c : PNode V) (rest : List (Nat × PNode V)) :
    entriesEs ((l, c) :: rest) = entriesN c ++ entriesEs rest := by
  rw [entriesEs.eq_def]

theorem mem_entriesEs {V : Type} {e : List Nat × V} :
    ∀ {es : List (Nat × PNode V)}, e ∈ entriesEs es ↔ ∃ lc ∈ es, e ∈ entriesN lc.2
  | [] => by
    rw [entriesEs_nil]
    simp
  | (l, c) :: rest => by
    rw [entriesEs_cons, List.mem_append, @mem_entriesEs _ _ rest]
    constructor
    · rintro (h | ⟨lc, hlc, he⟩)
      · exact ⟨(l, c), List.mem_cons_self _ _, h⟩
      · exact ⟨lc, List.mem_cons_of_mem _ hlc, he⟩
    · rintro ⟨lc, hlc, he⟩
      rcases List.mem_cons.mp hlc with rfl | hlc2
      · exact Or.inl he
      · exact Or.inr ⟨lc, hlc2, he⟩

/-- Every key stored under a node extends the node's accumulated path. -/
theorem entries_key_pfx {V : Type} :
    ∀ (m : Nat) (n : PNode V) (p : List Nat), sizeOf n ≤ m → wfN p n = true →
      ∀ e ∈ entriesN n, p <+: e.1 := by
  intro m
  induction m with
  | zero =>
    intro n p hm
    rcases n with ⟨lf, px, es⟩
    simp only [PNode.mk.sizeOf_spec] at hm
    omega
  | succ m ih =>
    intro n p hm hwf e he
    rcases n with ⟨lf, px, es⟩
    rw [wfN_iff] at hwf
    obtain ⟨hleaf, hSL, hwfes⟩ := hwf
    rw [entriesN_mk, List.mem_append] at he
    rcases he with he | he
    · cases lf with
      | none => simp at he
      | some l0 =>
        simp only [Option.toList_some, List.mem_singleton] at he
        rcases l0 with ⟨k0, v0⟩
        subst he
        show p <+: k0
        rw [hleaf k0 v0 rfl]
    · rw [mem_entriesEs] at he
      obtain ⟨lc, hlc, he2⟩ := he
      obtain ⟨⟨r, hr⟩, hwfc⟩ := (wfEs_iff p es).mp hwfes lc hlc
      have hsize : sizeOf lc.2 ≤ m := by
        have h1 : sizeOf lc < sizeOf es := List.sizeOf_lt_of_mem hlc
        have h2 : sizeOf lc.2 < sizeOf lc := by
          rcases lc with ⟨a, b⟩
          simp
        simp only [PNode.mk.sizeOf_spec] at hm
        omega
      have := ih lc.2 (p ++ lc.2.pfx) hsize hwfc e he2
      exact (List.prefix_append p lc.2.pfx).trans this

/-- Keys stored under the child at label `l` extend `p ++ [l]`. -/
theorem entries_key_label {V : Type} {p : List Nat} {es : List (Nat × PNode V)}
    (hwfes : wfEs p es = true) {l : Nat} {c : PNode V} (hlc : (l, c) ∈ es) :
    ∀ e ∈ entriesN c, ∃ rest, e.1 = p ++ l :: rest := by
  intro e he
  obtain ⟨⟨r, hr⟩, hwfc⟩ := (wfEs_iff p es).mp hwfes (l, c) hlc
  have hr2 : c.pfx = l :: r := hr
  have hwfc2 : wfN (p ++ c.pfx) c = true := hwfc
  have hp := entries_key_pfx (sizeOf c) c (p ++ c.pfx) (le_refl _) hwfc2 e he
  obtain ⟨z, hz⟩ := hp
  refine ⟨r ++ z, ?_⟩
  rw [← hz, hr2]
  simp

/-! ## Longest-prefix correctness (claim C6) -/

/-- Filter of candidates: stored entries whose key is a prefix of `q`. -/
def lpCands {V : Type} (n : PNode V) (q : List Nat) : List (List Nat × V) :=
  (entriesN n).filter (fun e => e.1.isPrefixOf q)

theorem filter_child_ne {V : Type} {p : List Nat} {es : List (Nat × PNode V)}
    (hwfes : wfEs p es = true) {l : Nat} {c : PNode V} (hlc : (l, c) ∈ es)
    {s0 : Nat} {ss : List Nat} (hne : l ≠ s0) :
    (entriesN c).filter (fun e => e.1.isPrefixOf (p ++ s0 :: ss)) = [] := by
  rw [List.filter_eq_nil]
  intro e he
  obtain ⟨rest, hrest⟩ := entries_key_label hwfes hlc e he
  intro hp
  rw [isPrefixOf_iff, hrest] at hp
  have := (List.prefix_append_right_inj p).mp hp
  rw [List.cons_prefix_cons] at this
  exact hne this.1

/-- Keys of entries under a child are strictly longer than the path `p`. -/
theorem entries_child_len {V : Type} {p : List Nat} {es : List (Nat × PNode V)}
    (hwfes : wfEs p es = true) {l : Nat} {c : PNode V} (hlc : (l, c) ∈ es) :
    ∀ e ∈ entriesN c, p.length < e.1.length := by
  intro e he
  obtain ⟨rest, hrest⟩ := entries_key_label hwfes hlc e he
  rw [hrest]
  simp

theorem wfEs_tail {V : Type} {p : List Nat} {f : Nat × PNode V} {fs : List (Nat × PNode V)}
    (h : wfEs p (f :: fs) = true) : wfEs p fs = true := by
  rw [wfEs_iff] at h ⊢
  exact fun g hg => h g (List.mem_cons_of_mem _ hg)

/-- Filtering a singleton leaf list when the leaf key is a prefix of `q`. -/
theorem leaf_filter_some {V : Type} (k0 : List Nat) (v0 : V) (q : List Nat)
    (h : k0 <+: q) :
    ((some (k0, v0) : Option (List Nat × V)).toList.filter
        (fun e => e.1.isPrefixOf q)) = [(k0, v0)] := by
  have hc : (k0, v0).1.isPrefixOf q = true := (isPrefixOf_iff _ _).mpr h
  simp only [Option.toList_some]
  simp [hc]

/-- Only the child carrying the next search byte can contribute prefixes
of `p ++ s0 :: ss`. -/
theorem filter_entriesEs_eq_child {V : Type} {p : List Nat} {s0 : Nat} {ss : List Nat}
    {child : PNode V} :
    ∀ es : List (Nat × PNode V), wfEs p es = true → (es.map Prod.fst).Nodup →
      (s0, child) ∈ es →
      (entriesEs es).filter (fun e => e.1.isPrefixOf (p ++ s0 :: ss)) =
        (entriesN child).filter (fun e => e.1.isPrefixOf (p ++ s0 :: ss))
  | [], _, _, hmem => by simp at hmem
  | (l1, c1) :: fs, hwfes, hnd, hmem => by
    rw [entriesEs_cons, List.filter_append]
    simp only [List.map_cons, List.nodup_cons] at hnd
    rcases List.mem_cons.mp hmem with heq | hmem2
    · have h1 : l1 = s0 := by injection heq with ha hb; exact ha.symm
      have h2 : c1 = child := by injection heq with ha hb; exact hb.symm
      have hrest : (entriesEs fs).filter
          (fun e => e.1.isPrefixOf (p ++ s0 :: ss)) = [] := by
        rw [List.filter_eq_nil]
        intro e he
        rw [mem_entriesEs] at he
        obtain ⟨lc, hlc, he2⟩ := he
        rcases lc with ⟨l2, c2⟩
        have hlabel : l2 ≠ s0 := by
          intro heq2
          apply hnd.1
          rw [h1, ← heq2]
          exact List.mem_map_of_mem Prod.fst hlc
        have h4 := @filter_child_ne _ _ _ (wfEs_tail hwfes) _ _ hlc _ ss hlabel
        rw [List.filter_eq_nil] at h4
        exact h4 e he2
      rw [hrest, List.append_nil, h2]
    · have hlth : l1 ≠ s0 := by
        intro heq2
        apply hnd.1
        rw [heq2]
        exact List.mem_map_of_mem Prod.fst hmem2
      have hhead : (entriesN c1).filter
          (fun e => e.1.isPrefixOf (p ++ s0 :: ss)) = [] :=
        filter_child_ne hwfes (List.mem_cons_self _ _) hlth
      rw [hhead, List.nil_append]
      exact filter_entriesEs_eq_child fs (wfEs_tail hwfes) hnd.2 hmem2

/-- If the searched label is absent, no stored key under the edges is a
prefix of `p ++ s0 :: ss`. -/
theorem filter_entriesEs_eq_nil {V : Type} {p : List Nat} {s0 : Nat} {ss : List Nat} :
    ∀ es : List (Nat × PNode V), wfEs p es = true →
      s0 ∉ es.map Prod.fst →
      (entriesEs es).filter (fun e => e.1.isPrefixOf (p ++ s0 :: ss)) = []
  | [], _, _ => by rw [entriesEs_nil]; rfl
  | (l1, c1) :: fs, hwfes, habs => by
    rw [entriesEs_cons, List.filter_append]
    simp only [List.map_cons, List.mem_cons] at habs
    push_neg at habs
    have hhead : (entriesN c1).filter
        (fun e => e.1.isPrefixOf (p ++ s0 :: ss)) = [] :=
      filter_child_ne hwfes (List.mem_cons_self _ _) (fun he => habs.1 he.symm)
    rw [hhead, List.nil_append]
    exact filter_entriesEs_eq_nil fs (wfEs_tail hwfes) habs.2

/-- Main correctness of the `LongestPrefix` descent: the result is the
longest stored candidate prefix of `q` in the subtree, or the running
`last` when the subtree has no candidate. -/
theorem lpRec_ok {V : Type} :
    ∀ (m : Nat) (n : PNode V) (p search : List Nat) (last : Option (List Nat × V)),
      sizeOf n ≤ m → wfN p n = true →
      (lpCands n (p ++ search) = [] ∧ lpRec n search last = last) ∨
      (∃ e, e ∈ lpCands n (p ++ search) ∧ lpRec n search last = some e ∧
        ∀ f ∈ lpCands n (p ++ search), f.1.length ≤ e.1.length) := by
  intro m
  induction m with
  | zero =>
    intro n p search last hm
    rcases n with ⟨lf, px, es⟩
    simp only [PNode.mk.sizeOf_spec] at hm
    omega
  | succ m ih =>
    intro n p search last hm hwf
    have hwf2 := hwf
    rcases n with ⟨lf, px, es⟩
    rw [wfN_iff] at hwf2
    obtain ⟨hleaf, hSL, hwfes⟩ := hwf2
    rw [lpCands, entriesN_mk, List.filter_append]
    cases search with
    | nil =>
      have hchild : (entriesEs es).filter
          (fun e => e.1.isPrefixOf (p ++ [])) = [] := by
        rw [List.filter_eq_nil]
        intro e he
        rw [mem_entriesEs] at he
        obtain ⟨lc, hlc, he2⟩ := he
        rcases lc with ⟨l2, c2⟩
        have hlen := entries_child_len hwfes hlc e he2
        intro hp
        rw [isPrefixOf_iff] at hp
        have := hp.length_le
        simp at this
        omega
      rw [hchild, List.append_nil, lpRec_nil]
      cases lf with
      | none =>
        left
        refine ⟨?_, rfl⟩
        simp
      | some l0 =>
        right
        rcases l0 with ⟨k0, v0⟩
        have hk0 : k0 = p := hleaf k0 v0 rfl
        have hpfx : k0 <+: p ++ [] := by
          rw [hk0]
          exact List.prefix_append p []
        rw [leaf_filter_some k0 v0 _ hpfx]
        refine ⟨(k0, v0), List.mem_singleton_self _, rfl, ?_⟩
        intro f hf
        rw [List.mem_singleton] at hf
        subst hf
        exact Nat.le_refl _
    | cons s0 ss =>
      rcases hge : getEdge es s0 with _ | ⟨i, child⟩
      · -- no child at the search byte: candidates are just the node's leaf
        have habs : s0 ∉ es.map Prod.fst := (getEdge_eq_none_iff hSL s0).mp hge
        rw [filter_entriesEs_eq_nil es hwfes habs, List.append_nil]
        rw [lpRec_cons_none hge]
        cases lf with
        | none =>
          left
          refine ⟨by simp, rfl⟩
        | some l0 =>
          right
          rcases l0 with ⟨k0, v0⟩
          have hk0 : k0 = p := hleaf k0 v0 rfl
          have hpfx : k0 <+: p ++ s0 :: ss := by
            rw [hk0]
            exact List.prefix_append p _
          rw [leaf_filter_some k0 v0 _ hpfx]
          refine ⟨(k0, v0), List.mem_singleton_self _, rfl, ?_⟩
          intro f hf
          rw [List.mem_singleton] at hf
          subst hf
          exact Nat.le_refl _
      · -- child found
        have hget2 := getEdge_eq_some hge
        have hmem := List.get?_mem hget2
        obtain ⟨⟨r, hr⟩, hwfc⟩ := (wfEs_iff p es).mp hwfes (s0, child) hmem
        have hr2 : child.pfx = s0 :: r := hr
        have hwfc2 : wfN (p ++ child.pfx) child = true := hwfc
        rw [filter_entriesEs_eq_child es hwfes (SL_nodup hSL) hmem]
        rw [lpRec_cons_some hge]
        have hsize : sizeOf child ≤ m := by
          have := @sizeOf_lt_of_getEdge _ lf px _ _ _ _ hge
          omega
        by_cases hpre : child.pfx.isPrefixOf (s0 :: ss)
        · rw [if_pos hpre]
          obtain ⟨srest, hsplit⟩ := (isPrefixOf_iff _ _).mp hpre
          have hdrop : (s0 :: ss).drop child.pfx.length = srest := by
            rw [← hsplit, List.drop_left]
          have hqeq : (p ++ child.pfx) ++ srest = p ++ s0 :: ss := by
            rw [List.append_assoc, hsplit]
          rcases ih child (p ++ child.pfx) srest (lastUpd lf last) hsize hwfc2 with
            ⟨hcnil, hres⟩ | ⟨e, hmeme, hres, hdom⟩
          · -- no candidate under the child: only the leaf (if any) remains
            rw [hqeq] at hcnil
            rw [lpCands] at hcnil
            rw [hdrop, hres, hcnil, List.append_nil]
            cases lf with
            | none =>
              left
              exact ⟨by simp, rfl⟩
            | some l0 =>
              right
              rcases l0 with ⟨k0, v0⟩
              have hk0 : k0 = p := hleaf k0 v0 rfl
              have hpfx : k0 <+: p ++ s0 :: ss := by
                rw [hk0]
                exact List.prefix_append p _
              rw [leaf_filter_some k0 v0 _ hpfx]
              refine ⟨(k0, v0), List.mem_singleton_self _, rfl, ?_⟩
              intro f hf
              rw [List.mem_singleton] at hf
              subst hf
              exact Nat.le_refl _
          · -- the child has candidates; they dominate the leaf
            rw [hqeq] at hmeme hdom
            rw [lpCands] at hmeme hdom
            rw [hdrop, hres]
            right
            refine ⟨e, ?_, rfl, ?_⟩
            · rw [List.mem_append]
              exact Or.inr hmeme
            · intro f hf
              rw [List.mem_append] at hf
              rcases hf with hf | hf
              · -- f is the node leaf: its key is p, shorter than any child key
                have he1 : e ∈ entriesN child := (List.mem_filter.mp hmeme).1
                have hlen := entries_child_len hwfes hmem e he1
                have hf2 := (List.mem_filter.mp hf).1
                cases lf with
                | none => simp at hf2
                | some l0 =>
                  rcases l0 with ⟨k0, v0⟩
                  simp only [Option.toList_some, List.mem_singleton] at hf2
                  have hk0 : k0 = p := hleaf k0 v0 rfl
                  subst hf2
                  rw [hk0]
                  exact Nat.le_of_lt hlen
              · exact hdom f hf
        · -- the child's prefix does not match: no candidates under it either
          rw [if_neg hpre]
          have hchild : (entriesN child).filter
              (fun e => e.1.isPrefixOf (p ++ s0 :: ss)) = [] := by
            rw [List.filter_eq_nil]
            intro e he
            have hkp : (p ++ child.pfx) <+: e.1 :=
              entries_key_pfx (sizeOf child) child (p ++ child.pfx)
                (Nat.le_refl _) hwfc2 e he
            intro hp
            rw [isPrefixOf_iff] at hp
            have h5 : (p ++ child.pfx) <+: p ++ s0 :: ss := hkp.trans hp
            have h6 : child.pfx <+: s0 :: ss :=
              (List.prefix_append_right_inj p).mp h5
            exact hpre ((isPrefixOf_iff _ _).mpr h6)
          rw [hchild, List.append_nil]
          cases lf with
          | none =>
            left
            exact ⟨by simp, rfl⟩
          | some l0 =>
            right
            rcases l0 with ⟨k0, v0⟩
            have hk0 : k0 = p := hleaf k0 v0 rfl
            have hpfx : k0 <+: p ++ s0 :: ss := by
              rw [hk0]
              exact List.prefix_append p _
            rw [leaf_filter_some k0 v0 _ hpfx]
            refine ⟨(k0, v0), List.mem_singleton_self _, rfl, ?_⟩
            intro f hf
            rw [List.mem_singleton] at hf
            subst hf
            exact Nat.le_refl _

/-- Membership in the candidate list unpacked. -/
theorem mem_lpCands {V : Type} {n : PNode V} {q : List Nat} {e : List Nat × V} :
    e ∈ lpCands n q ↔ e ∈ entriesN n ∧ e.1 <+: q := by
  rw [lpCands, List.mem_filter, isPrefixOf_iff]

/-- Stored entries correspond exactly to successful lookups. -/
theorem mem_entries_get {V : Type} :
    ∀ (m : Nat) (n : PNode V) (p : List Nat), sizeOf n ≤ m → wfN p n = true →
      ∀ (k : List Nat) (v : V),
        ((k, v) ∈ entriesN n ↔ ∃ s, k = p ++ s ∧ getRec n s = some v) := by
  intro m
  induction m with
  | zero =>
    intro n p hm
    rcases n with ⟨lf, px, es⟩
    simp only [PNode.mk.sizeOf_spec] at hm
    omega
  | succ m ih =>
    intro n p hm hwf k v
    have hwf2 := hwf
    rcases n with ⟨lf, px, es⟩
    rw [wfN_iff] at hwf2
    obtain ⟨hleaf, hSL, hwfes⟩ := hwf2
    rw [entriesN_mk]
    constructor
    · intro hmem
      rw [List.mem_append] at hmem
      rcases hmem with hmem | hmem
      · cases lf with
        | none => simp at hmem
        | some l0 =>
          rcases l0 with ⟨k0, v0⟩
          simp only [Option.toList_some, List.mem_singleton] at hmem
          have h1 : k = k0 := by injection hmem
          have h2 : v = v0 := by injection hmem
          refine ⟨[], ?_, ?_⟩
          · rw [List.append_nil, h1]
            exact hleaf k0 v0 rfl
          · rw [getRec_nil, h2]
            rfl
      · rw [mem_entriesEs] at hmem
        obtain ⟨lc, hlc, hmemc⟩ := hmem
        rcases lc with ⟨l, c⟩
        obtain ⟨⟨r, hr⟩, hwfc⟩ := (wfEs_iff p es).mp hwfes (l, c) hlc
        have hsize : sizeOf c ≤ m := by
          have h1 : sizeOf (l, c) < sizeOf es := List.sizeOf_lt_of_mem hlc
          have h2 : sizeOf c < sizeOf (l, c) := by simp
          simp only [PNode.mk.sizeOf_spec] at hm
          omega
        obtain ⟨sr, hs1, hs2⟩ := (ih c (p ++ c.pfx) hsize hwfc k v).mp hmemc
        refine ⟨c.pfx ++ sr, ?_, ?_⟩
        · rw [hs1, List.append_assoc]
        · have hfl : findL es l = some c := by
            obtain ⟨i, hi⟩ := List.mem_iff_get?.mp hlc
            exact findL_of_get? (SL_nodup hSL) hi
          obtain ⟨i, hge⟩ := getEdge_of_findL hSL hfl
          rw [hr, List.cons_append]
          rw [getRec_cons_some hge]
          have hp : c.pfx.isPrefixOf (l :: (r ++ sr)) = true := by
            rw [isPrefixOf_iff, hr]
            exact ⟨sr, by rw [List.cons_append]⟩
          rw [if_pos hp]
          have hd : (l :: (r ++ sr)).drop c.pfx.length = sr := by
            rw [hr]
            show ((l :: r) ++ sr).drop (l :: r).length = sr
            rw [List.drop_left]
          rw [hd]
          exact hs2
    · intro hex
      obtain ⟨s, hks, hgs⟩ := hex
      cases s with
      | nil =>
        rw [getRec_nil] at hgs
        cases lf with
        | none => simp at hgs
        | some l0 =>
          rcases l0 with ⟨k0, v0⟩
          simp only [Option.map_some'] at hgs
          have hv : v0 = v := by injection hgs
          rw [List.mem_append]
          left
          simp only [Option.toList_some, List.mem_singleton]
          have hk0 : k0 = p := hleaf k0 v0 rfl
          rw [hks, List.append_nil, hk0, hv]
      | cons s0 ss =>
        rcases hge : getEdge es s0 with _ | ⟨i, child⟩
        · rw [getRec_cons_none hge] at hgs
          exact absurd hgs (by simp)
        · rw [getRec_cons_some hge] at hgs
          by_cases hp : child.pfx.isPrefixOf (s0 :: ss)
          · rw [if_pos hp] at hgs
            have hmemc := List.get?_mem (getEdge_eq_some hge)
            obtain ⟨⟨r, hr⟩, hwfc⟩ := (wfEs_iff p es).mp hwfes (s0, child) hmemc
            have hsize : sizeOf child ≤ m := by
              have h1 : sizeOf (s0, child) < sizeOf es := List.sizeOf_lt_of_mem hmemc
              have h2 : sizeOf child < sizeOf (s0, child) := by simp
              simp only [PNode.mk.sizeOf_spec] at hm
              omega
            obtain ⟨srest, hsplit⟩ := (isPrefixOf_iff _ _).mp hp
            have hdrop : (s0 :: ss).drop child.pfx.length = srest := by
              rw [← hsplit, List.drop_left]
            rw [hdrop] at hgs
            have hk2 : k = (p ++ child.pfx) ++ srest := by
              rw [hks, ← hsplit, List.append_assoc]
            have hin : (k, v) ∈ entriesN child :=
              (ih child (p ++ child.pfx) hsize hwfc k v).mpr ⟨srest, hk2, hgs⟩
            rw [List.mem_append]
            right
            rw [mem_entriesEs]
            exact ⟨(s0, child), hmemc, hin⟩
          · rw [if_neg hp] at hgs
            exact absurd hgs (by simp)

/-- Go `(t *Tree) LongestPrefix(k)`: delegate the descent to the root. -/
def PTree.longestPrefix {V : Type} (t : PTree V) (q : List Nat) :
    Option (List Nat × V) :=
  lpRec t.root q none

/-- Lookup hits of a well-formed tree are exactly its stored entries. -/
theorem get_iff_mem_entries {V : Type} (t : PTree V) (hwf : wfTree t = true)
    (k : List Nat) (v : V) :
    t.get k = some v ↔ (k, v) ∈ entriesN t.root := by
  have hwfr : wfN [] t.root = true := by
    rw [wfTree, Bool.and_eq_true] at hwf
    exact hwf.1
  rw [PTree.get,
    mem_entries_get (sizeOf t.root) t.root [] (Nat.le_refl _) hwfr k v]
  constructor
  · intro h
    exact ⟨k, (List.nil_append k).symm, h⟩
  · intro h
    obtain ⟨s, hs, hg⟩ := h
    rw [List.nil_append] at hs
    rw [hs]
    exact hg

/-- C6: on a well-formed tree, `LongestPrefix(q)` misses exactly when no
stored key is a prefix of `q`, and a hit `(k0, v0)` is a stored pair whose
key is a prefix of `q` of maximal length among all stored prefixes of `q`. -/
theorem claim_C6 {V : Type} (t : PTree V) (q : List Nat) (hwf : wfTree t = true) :
    (t.longestPrefix q = none ↔ ∀ k v, t.get k = some v → ¬ k <+: q) ∧
    (∀ k0 v0, t.longestPrefix q = some (k0, v0) →
      t.get k0 = some v0 ∧ k0 <+: q ∧
      ∀ k v, t.get k = some v → k <+: q → k.length ≤ k0.length) := by
  have hwfr : wfN [] t.root = true := by
    rw [wfTree, Bool.and_eq_true] at hwf
    exact hwf.1
  have hmain := lpRec_ok (sizeOf t.root) t.root [] q none (Nat.le_refl _) hwfr
  rw [List.nil_append] at hmain
  rcases hmain with ⟨hnil, hres⟩ | ⟨e, hmem, hres, hdom⟩
  · constructor
    · rw [PTree.longestPrefix, hres]
      constructor
      · intro _ k v hg hpfx
        have hin : (k, v) ∈ lpCands t.root q :=
          mem_lpCands.mpr ⟨(get_iff_mem_entries t hwf k v).mp hg, hpfx⟩
        rw [hnil] at hin
        simp at hin
      · intro _
        rfl
    · intro k0 v0 habs
      rw [PTree.longestPrefix, hres] at habs
      exact absurd habs (by simp)
  · constructor
    · rw [PTree.longestPrefix, hres]
      constructor
      · intro habs
        exact absurd habs (by simp)
      · intro hall
        exfalso
        obtain ⟨hine, hpfxe⟩ := mem_lpCands.mp hmem
        rcases e with ⟨a, b⟩
        exact hall a b ((get_iff_mem_entries t hwf a b).mpr hine) hpfxe
    · intro k0 v0 heq
      rw [PTree.longestPrefix, hres] at heq
      have he : e = (k0, v0) := by injection heq
      subst he
      obtain ⟨hine, hpfxe⟩ := mem_lpCands.mp hmem
      refine ⟨(get_iff_mem_entries t hwf k0 v0).mpr hine, hpfxe, ?_⟩
      intro k v hg hpfx
      have hin : (k, v) ∈ lpCands t.root q :=
        mem_lpCands.mpr ⟨(get_iff_mem_entries t hwf k v).mp hg, hpfx⟩
      exact hdom (k, v) hin

theorem claim_C6_witness :
    wfTree exTree1 = true ∧
    (∀ k0 v0, exTree1.longestPrefix [97, 98] = some (k0, v0) →
      exTree1.get k0 = some v0 ∧ k0 <+: [97, 98] ∧
      ∀ k v, exTree1.get k = some v → k <+: [97, 98] → k.length ≤ k0.length) :=
  ⟨exTree1_wf, (claim_C6 exTree1 [97, 98] exTree1_wf).2⟩

/-! ## Walk ordering (claim C5)

`recursiveWalk` / `reverseRecursiveWalk` are instrumented to return the list
of `(key, value)` pairs the callback was invoked on, in call order, together
with the aborted flag the Go functions return. -/

mutual

/-- Go `recursiveWalk(n, fn)`: pre-order, own leaf first, then children in
edge order; abort as soon as `fn` returns true. -/
def recursiveWalk {V : Type} (fn : List Nat → V → Bool) :
    PNode V → List (List Nat × V) × Bool
  | .mk lf _ es =>
    match lf with
    | some (k, v) =>
      if fn k v then ([(k, v)], true)
      else
        let r := recursiveWalkEs fn es
        ((k, v) :: r.1, r.2)
    | none => recursiveWalkEs fn es

def recursiveWalkEs {V : Type} (fn : List Nat → V → Bool) :
    List (Nat × PNode V) → List (List Nat × V) × Bool
  | [] => ([], false)
  | (_, c) :: rest =>
    let r := recursiveWalk fn c
    if r.2 then r
    else
      let r2 := recursiveWalkEs fn rest
      (r.1 ++ r2.1, r2.2)

end

mutual

/-- Go `reverseRecursiveWalk(n, fn)`: own leaf first, then children in
reverse edge order; abort as soon as `fn` returns true. -/
def reverseRecursiveWalk {V : Type} (fn : List Nat → V → Bool) :
    PNode V → List (List Nat × V) × Bool
  | .mk lf _ es =>
    match lf with
    | some (k, v) =>
      if fn k v then ([(k, v)], true)
      else
        let r := reverseRecursiveWalkEs fn es
        ((k, v) :: r.1, r.2)
    | none => reverseRecursiveWalkEs fn es

def reverseRecursiveWalkEs {V : Type} (fn : List Nat → V → Bool) :
    List (Nat × PNode V) → List (List Nat × V) × Bool
  | [] => ([], false)
  | (_, c) :: rest =>
    let r := reverseRecursiveWalkEs fn rest
    if r.2 then r
    else
      let r2 := reverseRecursiveWalk fn c
      (r.1 ++ r2.1, r2.2)

end

mutual

/-- The entry order `reverseRecursiveWalk` traverses: own leaf first, then
children in reverse edge order. -/
def revEntriesN {V : Type} : PNode V → List (List Nat × V)
  | .mk lf _ es => lf.toList ++ revEntriesEs es

def revEntriesEs {V : Type} : List (Nat × PNode V) → List (List Nat × V)
  | [] => []
  | (_, c) :: rest => revEntriesEs rest ++ revEntriesN c

end

/-- Take elements until (and including) the first one satisfying `p`. -/
def takeThrough {α : Type} (p : α → Bool) : List α → List α
  | [] => []
  | a :: rest => if p a then [a] else a :: takeThrough p rest

theorem takeThrough_nil {α : Type} (p : α → Bool) : takeThrough p [] = [] := rfl

theorem takeThrough_cons {α : Type} (p : α → Bool) (a : α) (l : List α) :
    takeThrough p (a :: l) = if p a then [a] else a :: takeThrough p l := rfl

theorem takeThrough_of_any_eq_false {α : Type} {p : α → Bool} :
    ∀ {l : List α}, l.any p = false → takeThrough p l = l
  | [], _ => rfl
  | a :: rest, h => by
    rw [List.any_cons, Bool.or_eq_false_iff] at h
    rw [takeThrough_cons, if_neg (by rw [h.1]; exact Bool.false_ne_true),
      takeThrough_of_any_eq_false h.2]

theorem takeThrough_append {α : Type} (p : α → Bool) (l1 l2 : List α) :
    takeThrough p (l1 ++ l2) =
      if l1.any p then takeThrough p l1 else l1 ++ takeThrough p l2 := by
  induction l1 with
  | nil => simp [takeThrough_nil]
  | cons a l ih =>
    rcases h : p a with _ | _
    · rw [List.cons_append, takeThrough_cons, if_neg (by rw [h]; exact Bool.false_ne_true),
        ih, List.any_cons, h, Bool.false_or]
      rcases h2 : l.any p with _ | _
      · rw [if_neg Bool.false_ne_true, if_neg Bool.false_ne_true, List.cons_append]
      · rw [if_pos rfl, if_pos rfl, takeThrough_cons,
          if_neg (by rw [h]; exact Bool.false_ne_true)]
    · rw [List.cons_append, takeThrough_cons, if_pos h, List.any_cons, h,
        Bool.true_or, if_pos rfl, takeThrough_cons, if_pos h]

theorem recursiveWalk_mk_some {V : Type} (fn : List Nat → V → Bool)
    (k : List Nat) (v : V) (px : List Nat) (es : List (Nat × PNode V)) :
    recursiveWalk fn (.mk (some (k, v)) px es) =
      if fn k v then ([(k, v)], true)
      else ((k, v) :: (recursiveWalkEs fn es).1, (recursiveWalkEs fn es).2) := by
  rw [recursiveWalk.eq_def]

theorem recursiveWalk_mk_none {V : Type} (fn : List Nat → V → Bool)
    (px : List Nat) (es : List (Nat × PNode V)) :
    recursiveWalk fn (.mk none px es) = recursiveWalkEs fn es := by
  rw [recursiveWalk.eq_def]

theorem recursiveWalkEs_nil {V : Type} (fn : List Nat → V → Bool) :
    recursiveWalkEs fn ([] : List (Nat × PNode V)) = ([], false) := by
  rw [recursiveWalkEs.eq_def]

theorem recursiveWalkEs_cons {V : Type} (fn : List Nat → V → Bool)
    (l : Nat) (c : PNode V) (rest : List (Nat × PNode V)) :
    recursiveWalkEs fn ((l, c) :: rest) =
      if (recursiveWalk fn c).2 then recursiveWalk fn c
      else ((recursiveWalk fn c).1 ++ (recursiveWalkEs fn rest).1,
        (recursiveWalkEs fn rest).2) := by
  rw [recursiveWalkEs.eq_def]

theorem reverseRecursiveWalk_mk_some {V : Type} (fn : List Nat → V → Bool)
    (k : List Nat) (v : V) (px : List Nat) (es : List (Nat × PNode V)) :
    reverseRecursiveWalk fn (.mk (some (k, v)) px es) =
      if fn k v then ([(k, v)], true)
      else ((k, v) :: (reverseRecursiveWalkEs fn es).1,
        (reverseRecursiveWalkEs fn es).2) := by
  rw [reverseRecursiveWalk.eq_def]

theorem reverseRecursiveWalk_mk_none {V : Type} (fn : List Nat → V → Bool)
    (px : List Nat) (es : List (Nat × PNode V)) :
    reverseRecursiveWalk fn (.mk none px es) = reverseRecursiveWalkEs fn es := by
  rw [reverseRecursiveWalk.eq_def]

theorem reverseRecursiveWalkEs_nil {V : Type} (fn : List Nat → V → Bool) :
    reverseRecursiveWalkEs fn ([] : List (Nat × PNode V)) = ([], false) := by
  rw [reverseRecursiveWalkEs.eq_def]

theorem reverseRecursiveWalkEs_cons {V : Type} (fn : List Nat → V → Bool)
    (l : Nat) (c : PNode V) (rest : List (Nat × PNode V)) :
    reverseRecursiveWalkEs fn ((l, c) :: rest) =
      if (reverseRecursiveWalkEs fn rest).2 then reverseRecursiveWalkEs fn rest
      else ((reverseRecursiveWalkEs fn rest).1 ++ (reverseRecursiveWalk fn c).1,
        (reverseRecursiveWalk fn c).2) := by
  rw [reverseRecursiveWalkEs.eq_def]

theorem revEntriesN_mk {V : Type} (lf : Option (List Nat × V)) (px : List Nat)
    (es : List (Nat × PNode V)) :
    revEntriesN (.mk lf px es) = lf.toList ++ revEntriesEs es := by
  rw [revEntriesN.eq_def]

theorem revEntriesEs_nil {V : Type} :
    revEntriesEs ([] : List (Nat × PNode V)) = [] := by
  rw [revEntriesEs.eq_def]

theorem revEntriesEs_cons {V : Type} (l : Nat) (c : PNode V)
    (rest : List (Nat × PNode V)) :
    revEntriesEs ((l, c) :: rest) = revEntriesEs rest ++ revEntriesN c := by
  rw [revEntriesEs.eq_def]

/-- `Walk` calls the callback exactly on the entry list in `entriesN` order,
stopping at (and including) the first entry where it returns true; the
returned flag says whether any visited entry aborted. -/
theorem recursiveWalk_eq {V : Type} (fn : List Nat → V → Bool) :
    ∀ (m : Nat) (n : PNode V), sizeOf n ≤ m →
      recursiveWalk fn n =
        (takeThrough (fun e => fn e.1 e.2) (entriesN n),
         (entriesN n).any (fun e => fn e.1 e.2)) := by
  intro m
  induction m with
  | zero =>
    intro n hm
    rcases n with ⟨lf, px, es⟩
    simp only [PNode.mk.sizeOf_spec] at hm
    omega
  | succ m ih =>
    intro n hm
    rcases n with ⟨lf, px, es⟩
    have hes : ∀ es2 : List (Nat × PNode V), (∀ lc ∈ es2, sizeOf lc.2 ≤ m) →
        recursiveWalkEs fn es2 =
          (takeThrough (fun e => fn e.1 e.2) (entriesEs es2),
           (entriesEs es2).any (fun e => fn e.1 e.2)) := by
      intro es2 hsz
      induction es2 with
      | nil =>
        rw [recursiveWalkEs_nil, entriesEs_nil, takeThrough_nil]
        rfl
      | cons e rest ihes =>
        rcases e with ⟨l, c⟩
        have hc := ih c (hsz (l, c) (List.mem_cons_self _ _))
        have hrest := ihes (fun lc hlc => hsz lc (List.mem_cons_of_mem _ hlc))
        rw [recursiveWalkEs_cons, hc, hrest, entriesEs_cons, takeThrough_append,
          List.any_append]
        dsimp only
        rcases h2 : (entriesN c).any (fun e => fn e.1 e.2) with _ | _
        · rw [if_neg Bool.false_ne_true, if_neg Bool.false_ne_true, Bool.false_or,
            takeThrough_of_any_eq_false h2]
        · rw [if_pos rfl, if_pos rfl, Bool.true_or]
    have hszb : ∀ lc ∈ es, sizeOf lc.2 ≤ m := by
      intro lc hlc
      have h1 : sizeOf lc < sizeOf es := List.sizeOf_lt_of_mem hlc
      have h2 : sizeOf lc.2 < sizeOf lc := by
        rcases lc with ⟨a, b⟩
        simp
      simp only [PNode.mk.sizeOf_spec] at hm
      omega
    have hE := hes es hszb
    cases lf with
    | none =>
      rw [recursiveWalk_mk_none, hE, entriesN_mk, Option.toList_none,
        List.nil_append]
    | some l0 =>
      rcases l0 with ⟨k, v⟩
      rw [recursiveWalk_mk_some, hE, entriesN_mk, Option.toList_some,
        List.singleton_append, takeThrough_cons, List.any_cons]
      dsimp only
      rcases h : fn k v with _ | _
      · rw [if_neg Bool.false_ne_true, if_neg Bool.false_ne_true, Bool.false_or]
      · rw [if_pos rfl, if_pos rfl, Bool.true_or]

/-- `WalkBackwards` calls the callback exactly on the entry list in
`revEntriesN` order (own leaf before the children, children in reverse edge
order), stopping at the first entry where it returns true. -/
theorem reverseRecursiveWalk_eq {V : Type} (fn : List Nat → V → Bool) :
    ∀ (m : Nat) (n : PNode V), sizeOf n ≤ m →
      reverseRecursiveWalk fn n =
        (takeThrough (fun e => fn e.1 e.2) (revEntriesN n),
         (revEntriesN n).any (fun e => fn e.1 e.2)) := by
  intro m
  induction m with
  | zero =>
    intro n hm
    rcases n with ⟨lf, px, es⟩
    simp only [PNode.mk.sizeOf_spec] at hm
    omega
  | succ m ih =>
    intro n hm
    rcases n with ⟨lf, px, es⟩
    have hes : ∀ es2 : List (Nat × PNode V), (∀ lc ∈ es2, sizeOf lc.2 ≤ m) →
        reverseRecursiveWalkEs fn es2 =
          (takeThrough (fun e => fn e.1 e.2) (revEntriesEs es2),
           (revEntriesEs es2).any (fun e => fn e.1 e.2)) := by
      intro es2 hsz
      induction es2 with
      | nil =>
        rw [reverseRecursiveWalkEs_nil, revEntriesEs_nil, takeThrough_nil]
        rfl
      | cons e rest ihes =>
        rcases e with ⟨l, c⟩
        have hc := ih c (hsz (l, c) (List.mem_cons_self _ _))
        have hrest := ihes (fun lc hlc => hsz lc (List.mem_cons_of_mem _ hlc))
        rw [reverseRecursiveWalkEs_cons, hc, hrest, revEntriesEs_cons,
          takeThrough_append, List.any_append]
        dsimp only
        rcases h2 : (revEntriesEs rest).any (fun e => fn e.1 e.2) with _ | _
        · rw [if_neg Bool.false_ne_true, if_neg Bool.false_ne_true, Bool.false_or,
            takeThrough_of_any_eq_false h2]
        · rw [if_pos rfl, if_pos rfl, Bool.true_or]
    have hszb : ∀ lc ∈ es, sizeOf lc.2 ≤ m := by
      intro lc hlc
      have h1 : sizeOf lc < sizeOf es := List.sizeOf_lt_of_mem hlc
      have h2 : sizeOf lc.2 < sizeOf lc := by
        rcases lc with ⟨a, b⟩
        simp
      simp only [PNode.mk.sizeOf_spec] at hm
      omega
    have hE := hes es hszb
    cases lf with
    | none =>
      rw [reverseRecursiveWalk_mk_none, hE, revEntriesN_mk, Option.toList_none,
        List.nil_append]
    | some l0 =>
      rcases l0 with ⟨k, v⟩
      rw [reverseRecursiveWalk_mk_some, hE, revEntriesN_mk, Option.toList_some,
        List.singleton_append, takeThrough_cons, List.any_cons]
      dsimp only
      rcases h : fn k v with _ | _
      · rw [if_neg Bool.false_ne_true, if_neg Bool.false_ne_true, Bool.false_or]
      · rw [if_pos rfl, if_pos rfl, Bool.true_or]

/-- No stored key is a proper prefix of another stored key. -/
def prefixFree {V : Type} (l : List (List Nat × V)) : Prop :=
  ∀ e ∈ l, ∀ f ∈ l, e.1 <+: f.1 → e.1 = f.1

theorem prefixFree_mono {V : Type} {l l2 : List (List Nat × V)}
    (hsub : ∀ e ∈ l2, e ∈ l) (h : prefixFree l) : prefixFree l2 :=
  fun e he f hf hp => h e (hsub e he) f (hsub f hf) hp

/-- The entries of a well-formed subtree are strictly ascending in
lexicographic key order. -/
theorem entries_sorted {V : Type} :
    ∀ (m : Nat) (n : PNode V) (p : List Nat), sizeOf n ≤ m → wfN p n = true →
      (entriesN n).Pairwise (fun a b => lexLt a.1 b.1) := by
  intro m
  induction m with
  | zero =>
    intro n p hm
    rcases n with ⟨lf, px, es⟩
    simp only [PNode.mk.sizeOf_spec] at hm
    omega
  | succ m ih =>
    intro n p hm hwf
    rcases n with ⟨lf, px, es⟩
    rw [wfN_iff] at hwf
    obtain ⟨hleaf, hSL, hwfes⟩ := hwf
    have hszb : ∀ lc ∈ es, sizeOf lc.2 ≤ m := by
      intro lc hlc
      have h1 : sizeOf lc < sizeOf es := List.sizeOf_lt_of_mem hlc
      have h2 : sizeOf lc.2 < sizeOf lc := by
        rcases lc with ⟨a, b⟩
        simp
      simp only [PNode.mk.sizeOf_spec] at hm
      omega
    have hes : ∀ es2 : List (Nat × PNode V), (∀ lc ∈ es2, lc ∈ es) →
        SL es2 → (entriesEs es2).Pairwise (fun a b => lexLt a.1 b.1) := by
      intro es2 hsub hSL2
      induction es2 with
      | nil =>
        rw [entriesEs_nil]
        exact List.Pairwise.nil
      | cons e rest ihes =>
        rcases e with ⟨l, c⟩
        have hmem : (l, c) ∈ es := hsub (l, c) (List.mem_cons_self _ _)
        obtain ⟨⟨r, hr⟩, hwfc⟩ := (wfEs_iff p es).mp hwfes (l, c) hmem
        have hc := ih c (p ++ c.pfx) (hszb (l, c) hmem) hwfc
        have hSLr : SL rest := by
          have h2 := hSL2
          rw [SL, List.map_cons] at h2
          exact h2.tail
        have hlt : ∀ x ∈ rest.map Prod.fst, l < x := by
          have hpw := List.chain'_iff_pairwise.mp
            (by rw [SL, List.map_cons] at hSL2; exact hSL2)
          exact (List.pairwise_cons.mp hpw).1
        rw [entriesEs_cons]
        rw [List.pairwise_append]
        refine ⟨hc, ihes (fun lc hlc => hsub lc (List.mem_cons_of_mem _ hlc)) hSLr, ?_⟩
        intro a ha b hb
        obtain ⟨ra, hra⟩ := entries_key_label hwfes hmem a ha
        rw [mem_entriesEs] at hb
        obtain ⟨lc2, hlc2, hb2⟩ := hb
        rcases lc2 with ⟨l2, c2⟩
        obtain ⟨rb, hrb⟩ :=
          entries_key_label hwfes (hsub (l2, c2) (List.mem_cons_of_mem _ hlc2)) b hb2
        have hll2 : l < l2 :=
          hlt l2 (List.mem_map_of_mem Prod.fst hlc2)
        show lexLt a.1 b.1
        rw [lexLt, hra, hrb, lexCmp_append_left]
        exact lexCmp_cons_of_lt hll2 _ _
    have hesAll := hes es (fun lc h => h) hSL
    rw [entriesN_mk, List.pairwise_append]
    refine ⟨?_, hesAll, ?_⟩
    · cases lf with
      | none => exact List.Pairwise.nil
      | some l0 => exact List.pairwise_singleton _ _
    · intro a ha b hb
      cases lf with
      | none => simp at ha
      | some l0 =>
        rcases l0 with ⟨k, v⟩
        simp only [Option.toList_some, List.mem_singleton] at ha
        rw [mem_entriesEs] at hb
        obtain ⟨lc2, hlc2, hb2⟩ := hb
        rcases lc2 with ⟨l2, c2⟩
        obtain ⟨rb, hrb⟩ := entries_key_label hwfes hlc2 b hb2
        have hk : k = p := hleaf k v rfl
        show lexLt a.1 b.1
        rw [lexLt, hrb]
        have ha1 : a.1 = p := by rw [ha, hk]
        rw [ha1]
        exact lexLt_append_of_ne_nil p (l2 :: rb) (List.cons_ne_nil _ _)

/-- When no stored key is a proper prefix of another, the reverse walk order
is exactly the reverse of the forward walk order. -/
theorem revEntries_eq_reverse {V : Type} :
    ∀ (m : Nat) (n : PNode V) (p : List Nat), sizeOf n ≤ m → wfN p n = true →
      prefixFree (entriesN n) → revEntriesN n = (entriesN n).reverse := by
  intro m
  induction m with
  | zero =>
    intro n p hm
    rcases n with ⟨lf, px, es⟩
    simp only [PNode.mk.sizeOf_spec] at hm
    omega
  | succ m ih =>
    intro n p hm hwf hpf
    rcases n with ⟨lf, px, es⟩
    have hwf2 := hwf
    rw [wfN_iff] at hwf2
    obtain ⟨hleaf, hSL, hwfes⟩ := hwf2
    have hszb : ∀ lc ∈ es, sizeOf lc.2 ≤ m := by
      intro lc hlc
      have h1 : sizeOf lc < sizeOf es := List.sizeOf_lt_of_mem hlc
      have h2 : sizeOf lc.2 < sizeOf lc := by
        rcases lc with ⟨a, b⟩
        simp
      simp only [PNode.mk.sizeOf_spec] at hm
      omega
    have hes : ∀ es2 : List (Nat × PNode V), (∀ lc ∈ es2, lc ∈ es) →
        revEntriesEs es2 = (entriesEs es2).reverse := by
      intro es2 hsub
      induction es2 with
      | nil =>
        rw [revEntriesEs_nil, entriesEs_nil]
        rfl
      | cons e rest ihes =>
        rcases e with ⟨l, c⟩
        have hmem : (l, c) ∈ es := hsub (l, c) (List.mem_cons_self _ _)
        obtain ⟨⟨r, hr⟩, hwfc⟩ := (wfEs_iff p es).mp hwfes (l, c) hmem
        have hpfc : prefixFree (entriesN c) := by
          refine prefixFree_mono ?_ hpf
          intro e2 he2
          rw [entriesN_mk]
          refine List.mem_append_right _ ?_
          rw [mem_entriesEs]
          exact ⟨(l, c), hmem, he2⟩
        have hcr := ih c (p ++ c.pfx) (hszb (l, c) hmem) hwfc hpfc
        rw [revEntriesEs_cons, entriesEs_cons, List.reverse_append, hcr,
          ihes (fun lc hlc => hsub lc (List.mem_cons_of_mem _ hlc))]
    cases lf with
    | none =>
      rw [revEntriesN_mk, entriesN_mk, Option.toList_none, List.nil_append,
        List.nil_append, hes es (fun lc h => h)]
    | some l0 =>
      rcases l0 with ⟨k, v⟩
      have hk : k = p := hleaf k v rfl
      rcases hE : entriesEs es with _ | ⟨e0, rest0⟩
      · have hrev : revEntriesEs es = [] := by
          have h := hes es (fun lc h => h)
          rw [hE] at h
          exact h
        rw [revEntriesN_mk, entriesN_mk, hE, hrev, Option.toList_some]
        rfl
      · exfalso
        have he0 : e0 ∈ entriesEs es := by
          rw [hE]
          exact List.mem_cons_self _ _
        rw [mem_entriesEs] at he0
        obtain ⟨lc, hlc, he2⟩ := he0
        rcases lc with ⟨l2, c2⟩
        obtain ⟨rest2, hrest2⟩ := entries_key_label hwfes hlc e0 he2
        have hkmem : ((k, v) : List Nat × V) ∈ entriesN (.mk (some (k, v)) px es) := by
          rw [entriesN_mk, Option.toList_some]
          exact List.mem_append_left _ (List.mem_cons_self _ _)
        have he0mem : e0 ∈ entriesN (.mk (some (k, v)) px es) := by
          rw [entriesN_mk]
          refine List.mem_append_right _ ?_
          rw [hE]
          exact List.mem_cons_self _ _
        have hpre : ((k, v) : List Nat × V).1 <+: e0.1 := by
          dsimp only
          rw [hk, hrest2]
          exact List.prefix_append p _
        have heq := hpf (k, v) hkmem e0 he0mem hpre
        dsimp only at heq
        rw [hk, hrest2] at heq
        have hlen := congrArg List.length heq
        simp at hlen

/-- C5 (amended): on a well-formed tree, `Walk` invokes the callback on all
stored pairs in strictly ascending lexicographic key order (stopping early
exactly at the first pair where the callback returns true), and
`WalkBackwards` invokes it in its reverse pre-order (`revEntriesN`: a node
leaf before its subtrees, subtrees in reverse edge order) with the same
early-stopping rule; that order is strictly descending whenever no stored
key is a proper prefix of another stored key. -/
theorem claim_C5 {V : Type} (t : PTree V) (fn : List Nat → V → Bool)
    (hwf : wfTree t = true) :
    (entriesN t.root).Pairwise (fun a b => lexLt a.1 b.1) ∧
    recursiveWalk fn t.root =
      (takeThrough (fun e => fn e.1 e.2) (entriesN t.root),
       (entriesN t.root).any (fun e => fn e.1 e.2)) ∧
    reverseRecursiveWalk fn t.root =
      (takeThrough (fun e => fn e.1 e.2) (revEntriesN t.root),
       (revEntriesN t.root).any (fun e => fn e.1 e.2)) ∧
    (prefixFree (entriesN t.root) →
      (revEntriesN t.root).Pairwise (fun a b => lexLt b.1 a.1)) := by
  have hwfr : wfN [] t.root = true := by
    rw [wfTree, Bool.and_eq_true] at hwf
    exact hwf.1
  refine ⟨entries_sorted (sizeOf t.root) t.root [] (Nat.le_refl _) hwfr,
    recursiveWalk_eq fn (sizeOf t.root) t.root (Nat.le_refl _),
    reverseRecursiveWalk_eq fn (sizeOf t.root) t.root (Nat.le_refl _), ?_⟩
  intro hpf
  rw [revEntries_eq_reverse (sizeOf t.root) t.root [] (Nat.le_refl _) hwfr hpf]
  rw [List.pairwise_reverse]
  exact entries_sorted (sizeOf t.root) t.root [] (Nat.le_refl _) hwfr

/-- The tree {[97] ↦ 5, [97, 98] ↦ 7}: a key that is a proper prefix of
another stored key. -/
def exTree2 : PTree Nat := (exTree1.insertK [97, 98] 7).1

theorem exTree2_wf : wfTree exTree2 = true :=
  (insertK_spec exTree1 [97, 98] 7 exTree1_wf).1

theorem exTree1_root :
    exTree1.root = PNode.mk none [] [(97, PNode.mk (some ([97], 5)) [97] [])] := by
  show (insertRec (PNode.mk none [] []) [97] [97] 5).1 = _
  rw [insertRec_cons_none
    (show getEdge ([] : List (Nat × PNode Nat)) 97 = none from rfl)]
  rfl

theorem exTree2_root :
    exTree2.root = PNode.mk none []
      [(97, PNode.mk (some ([97], 5)) [97]
        [(98, PNode.mk (some ([97, 98], 7)) [98] [])])] := by
  show (insertRec exTree1.root [97, 98] [97, 98] 7).1 = _
  rw [exTree1_root]
  rw [insertRec_cons_eq
    (show getEdge [(97, PNode.mk (some ([97], 5)) [97] ([] : List (Nat × PNode Nat)))] 97 =
      some (0, PNode.mk (some ([97], 5)) [97] []) from rfl)
    (by decide)]
  rw [show ([97, 98] : List Nat).drop
      (PNode.mk (some ([97], 5)) [97] ([] : List (Nat × PNode Nat))).pfx.length =
      [98] from rfl]
  rw [insertRec_cons_none
    (show getEdge ([] : List (Nat × PNode Nat)) 98 = none from rfl)]
  rfl

/-- C5 counterexample: on the tree {[97] ↦ 5, [97, 98] ↦ 7} (reachable by two
inserts), `WalkBackwards` with a callback that never aborts visits [97]
before [97, 98], although [97] is lexicographically smaller — the visit
order is not descending. -/
theorem claim_C5_counterexample :
    wfTree exTree2 = true ∧
    exTree2.get [97] = some 5 ∧ exTree2.get [97, 98] = some 7 ∧
    (reverseRecursiveWalk (fun _ _ => false) exTree2.root).1 =
      [([97], 5), ([97, 98], 7)] ∧
    lexLt [97] [97, 98] := by
  refine ⟨exTree2_wf, ?_, ?_, ?_, by decide⟩
  · have h := (insertK_spec exTree1 [97, 98] 7 exTree1_wf).2.1 [97]
    rw [if_neg (by decide)] at h
    show (exTree1.insertK [97, 98] 7).1.get [97] = some 5
    rw [h]
    exact exTree1_get97
  · have h := (insertK_spec exTree1 [97, 98] 7 exTree1_wf).2.1 [97, 98]
    rw [if_pos rfl] at h
    show (exTree1.insertK [97, 98] 7).1.get [97, 98] = some 7
    exact h
  · rw [exTree2_root]
    rfl

theorem claim_C5_witness :
    wfTree exTree2 = true ∧
    (entriesN exTree2.root).Pairwise (fun a b => lexLt a.1 b.1) ∧
    recursiveWalk (fun _ _ => false) exTree2.root =
      (takeThrough (fun e => (fun _ _ => false) e.1 e.2) (entriesN exTree2.root),
       (entriesN exTree2.root).any (fun e => (fun _ _ => false) e.1 e.2)) :=
  ⟨exTree2_wf, (claim_C5 exTree2 (fun _ _ => false) exTree2_wf).1,
    (claim_C5 exTree2 (fun _ _ => false) exTree2_wf).2.1⟩

/-! ## Lower-bound iteration of the flat-stack Iterator (claim C3)

Embedding of the `Iterator` of the flat-stack variant: its stack is a plain
`[]*Node`, pushed at the end and popped at the end.  We store the stack with
the TOP AT THE HEAD, so pushing a Go slice `xs` (in ascending order) onto the
stack becomes `xs.reverse ++ stack`, and popping is taking the head. -/

mutual

/-- Go `(i *Iterator[T]) recurseMin(n)`: descend to the leftmost leaf,
pushing the remaining (ascending) siblings `children[1:]` as one chunk. -/
def recurseMin {V : Type} : PNode V → List (PNode V) → Option (PNode V) × List (PNode V)
  | .mk (some l) px es, stack => (some (.mk (some l) px es), stack)
  | .mk none _ es, stack => recurseMinEs es stack

def recurseMinEs {V : Type} :
    List (Nat × PNode V) → List (PNode V) → Option (PNode V) × List (PNode V)
  | [], stack => (none, stack)
  | (_, c0) :: rest, stack => recurseMin c0 ((rest.map Prod.snd).reverse ++ stack)

end

/-- Go `(i *Iterator[T]) SeekLowerBound(key)`, one loop iteration per fuel
unit.  Every iteration descends into a child node, so `psize n` units of
fuel (as supplied by `seekLowerBound` below) always suffice and the
fuel-exhaustion branch is unreachable. -/
def seekLBAux {V : Type} (key : List Nat) :
    Nat → PNode V → List Nat → List (PNode V) → List (PNode V)
  | 0, _, _, stack => stack
  | fuel + 1, n, search, stack =>
    let pc := if n.pfx.length < search.length
      then lexCmp n.pfx (search.take n.pfx.length)
      else lexCmp n.pfx search
    match pc with
    | Ordering.gt =>
      match recurseMin n stack with
      | (some m, st) => m :: st
      | (none, st) => st
    | Ordering.lt => stack
    | Ordering.eq =>
      if (match n.leaf with
          | some l => decide (l.1 = key)
          | none => false) then
        n :: stack
      else
        match search.drop n.pfx.length with
        | [] =>
          match recurseMin n stack with
          | (some m, st) => m :: st
          | (none, st) => st
        | s0 :: ss =>
          match getLowerBoundEdge n.edges s0 with
          | none => stack
          | some (idx, lb) =>
            seekLBAux key fuel lb (s0 :: ss)
              (((n.edges.drop (idx + 1)).map Prod.snd).reverse ++ stack)

mutual

/-- Computable node size, used only to provision loop fuel. -/
def psize {V : Type} : PNode V → Nat
  | .mk _ _ es => 1 + psizeEs es

def psizeEs {V : Type} : List (Nat × PNode V) → Nat
  | [] => 0
  | (_, c) :: rest => 1 + psize c + psizeEs rest

end

/-- `SeekLowerBound` on a fresh iterator whose node is `n`: the loop starts
with an empty (non-nil) stack and leaves `i.node = nil`, so the resulting
iterator state is just the stack. -/
def seekLowerBound {V : Type} (n : PNode V) (key : List Nat) : List (PNode V) :=
  seekLBAux key (psize n) n key []

/-- Go `(i *Iterator[T]) Next()` called repeatedly until it returns false:
pop the top node, push its children with the leftmost on top, and emit the
popped node's leaf if it has one.  One fuel unit per pop; the total size of
the stack's nodes (as supplied by `drainIter`) is enough fuel because each
pop replaces a node by its strictly smaller children. -/
def drainAux {V : Type} : Nat → List (PNode V) → List (List Nat × V)
  | 0, _ => []
  | _, [] => []
  | fuel + 1, n :: rest =>
    match n.leaf with
    | some l => l :: drainAux fuel ((n.edges.map Prod.snd) ++ rest)
    | none => drainAux fuel ((n.edges.map Prod.snd) ++ rest)

def drainIter {V : Type} (stack : List (PNode V)) : List (List Nat × V) :=
  drainAux ((stack.map psize).sum) stack

/-- The tree {[97] ↦ 1, [98] ↦ 2, [99] ↦ 3} built by three inserts: three
sibling leaves under the root, no key a prefix of another. -/
def exTree3a : PTree Nat := ((newTree Nat).insertK [97] 1).1

def exTree3b : PTree Nat := (exTree3a.insertK [98] 2).1

def exTree3 : PTree Nat := (exTree3b.insertK [99] 3).1

theorem exTree3a_wf : wfTree exTree3a = true :=
  (insertK_spec (newTree Nat) [97] 1 (wfTree_newTree Nat)).1

theorem exTree3b_wf : wfTree exTree3b = true :=
  (insertK_spec exTree3a [98] 2 exTree3a_wf).1

theorem exTree3_wf : wfTree exTree3 = true :=
  (insertK_spec exTree3b [99] 3 exTree3b_wf).1

theorem exTree3_root :
    exTree3.root = PNode.mk none []
      [(97, PNode.mk (some ([97], 1)) [97] []),
       (98, PNode.mk (some ([98], 2)) [98] []),
       (99, PNode.mk (some ([99], 3)) [99] [])] := by
  have h1 : exTree3a.root
      = PNode.mk none [] [(97, PNode.mk (some ([97], 1)) [97] [])] := by
    show (insertRec (PNode.mk none [] []) [97] [97] 1).1 = _
    rw [insertRec_cons_none
      (show getEdge ([] : List (Nat × PNode Nat)) 97 = none from rfl)]
    rfl
  have h2 : exTree3b.root
      = PNode.mk none [] [(97, PNode.mk (some ([97], 1)) [97] []),
          (98, PNode.mk (some ([98], 2)) [98] [])] := by
    show (insertRec exTree3a.root [98] [98] 2).1 = _
    rw [h1]
    rw [insertRec_cons_none (show getEdge
      [(97, PNode.mk (some ([97], 1)) [97] ([] : List (Nat × PNode Nat)))] 98 =
        none from rfl)]
    rfl
  show (insertRec exTree3b.root [99] [99] 3).1 = _
  rw [h2]
  rw [insertRec_cons_none (show getEdge
    [(97, PNode.mk (some ([97], 1)) [97] ([] : List (Nat × PNode Nat))),
     (98, PNode.mk (some ([98], 2)) [98] [])] 99 = none from rfl)]
  rfl

theorem exTree3_get97 : exTree3.get [97] = some 1 := by
  have h3 := (insertK_spec exTree3b [99] 3 exTree3b_wf).2.1 [97]
  rw [if_neg (by decide)] at h3
  have h2 := (insertK_spec exTree3a [98] 2 exTree3a_wf).2.1 [97]
  rw [if_neg (by decide)] at h2
  have h1 := (insertK_spec (newTree Nat) [97] 1 (wfTree_newTree Nat)).2.1 [97]
  rw [if_pos rfl] at h1
  show (exTree3b.insertK [99] 3).1.get [97] = some 1
  rw [h3]
  show (exTree3a.insertK [98] 2).1.get [97] = some 1
  rw [h2]
  show ((newTree Nat).insertK [97] 1).1.get [97] = some 1
  rw [h1]

theorem exTree3_get98 : exTree3.get [98] = some 2 := by
  have h3 := (insertK_spec exTree3b [99] 3 exTree3b_wf).2.1 [98]
  rw [if_neg (by decide)] at h3
  have h2 := (insertK_spec exTree3a [98] 2 exTree3a_wf).2.1 [98]
  rw [if_pos rfl] at h2
  show (exTree3b.insertK [99] 3).1.get [98] = some 2
  rw [h3]
  show (exTree3a.insertK [98] 2).1.get [98] = some 2
  rw [h2]

theorem exTree3_get99 : exTree3.get [99] = some 3 := by
  have h3 := (insertK_spec exTree3b [99] 3 exTree3b_wf).2.1 [99]
  rw [if_pos rfl] at h3
  show (exTree3b.insertK [99] 3).1.get [99] = some 3
  rw [h3]

/-- C3 is false of the flat-stack iterator: on the prefix-free tree
{[97] ↦ 1, [98] ↦ 2, [99] ↦ 3}, `SeekLowerBound [97]` followed by draining
`Next` visits the keys as [97], [99], [98] — the siblings pushed as one
ascending chunk are popped in reverse — although ascending order
([97], [98], [99], with lexLt [98] [99]) is required. -/
theorem claim_C3_bug :
    wfTree exTree3 = true ∧
    exTree3.get [97] = some 1 ∧ exTree3.get [98] = some 2 ∧
    exTree3.get [99] = some 3 ∧
    (drainIter (seekLowerBound exTree3.root [97])).map Prod.fst =
      [[97], [99], [98]] ∧
    lexLt [98] [99] := by
  refine ⟨exTree3_wf, exTree3_get97, exTree3_get98, exTree3_get99, ?_, by decide⟩
  rw [exTree3_root]
  rfl

/-! ## Reverse lower-bound iteration (claim C4)

Embedding of `reverse_iter.go` (v1 `ReverseIterator`).  Its stack is a
`[]edges` — a list of edge-slice frames — and the current element is the
last element of the last frame.  We store both levels with the TOP AT THE
HEAD: pushing a Go frame (an ascending slice) becomes consing its reverse.
The pointer-keyed `expandedParents` set always holds nodes currently on the
stack (members are removed when popped), so it is rendered as a boolean
flag carried by each stack entry: the flag is true exactly when the node is
in `expandedParents`. -/

mutual

/-- Computable total size of the subtrees on a frame/stack, used for loop
fuel and termination measures below. -/
def liveN {V : Type} : PNode V → Bool
  | .mk lf _ es => (lf.isSome || !es.isEmpty) && liveEs es

def liveEs {V : Type} : List (Nat × PNode V) → Bool
  | [] => true
  | (_, c) :: rest => liveN c && liveEs rest

end

/-- First edge index whose label is `≥ label` (i.e. `sort.Search`), the index
dance of the v1 `getLowerBoundEdge` whose body predates the sources kept
here: `reverse_iter.go` documents that it returns `(-1, nil)` when every
label is smaller, and the seek loop immediately replaces `-1` by
`len(n.edges)`; the net index used is always this one. -/
def lowerBoundIdx {C : Type} (es : List (Nat × C)) (label : Nat) : Nat :=
  goSearch es.length (fun i => decide (label ≤ labelAt es i))

/-- Go `(ri *ReverseIterator) recurseMax(n)`: descend to the rightmost
leaf-bearing node, pushing each `edges[:m-1]` as one (unexpanded) frame. -/
def recurseMax {V : Type} :
    PNode V → List (List (Bool × PNode V)) →
      Option (PNode V) × List (List (Bool × PNode V))
  | .mk (some l) px es, st => (some (.mk (some l) px es), st)
  | .mk none px es, st =>
    match hl : es.getLast? with
    | some e =>
      recurseMax e.2
        (((es.dropLast.map (fun x => ((false : Bool), x.2))).reverse) :: st)
    | none => (none, st)
termination_by n _ => sizeOf n
decreasing_by
  have hmem : e ∈ es := List.mem_of_mem_getLast? hl
  have h1 : sizeOf e < sizeOf es := List.sizeOf_lt_of_mem hmem
  have h2 : sizeOf e.2 < sizeOf e := by
    rcases e with ⟨a, b⟩
    simp
  simp only [PNode.mk.sizeOf_spec]
  omega

mutual

/-- Go `(ri *ReverseIterator) SeekReverseLowerBound(key)`, one loop iteration
per fuel unit.  Every iteration recurses into a child, so `psize n` units
(as supplied by `seekRevLowerBound`) always suffice and the fuel-exhaustion
branch is unreachable.  `found(n)` pushes the one-element frame `[n]` and
marks `n` expanded. -/
def seekRevLBAux {V : Type} (key : List Nat) :
    Nat → PNode V → List Nat → List (List (Bool × PNode V)) →
      List (List (Bool × PNode V))
  | 0, _, _, st => st
  | fuel + 1, n, search, st =>
    let pc := if n.pfx.length < search.length
      then lexCmp n.pfx (search.take n.pfx.length)
      else lexCmp n.pfx search
    match pc with
    | Ordering.lt =>
      match recurseMax n st with
      | (some m, st2) => [(true, m)] :: st2
      | (none, st2) => st2
    | Ordering.gt => st
    | Ordering.eq =>
      match n.leaf with
      | some l =>
        if l.1 = key then [(true, n)] :: st
        else if n.edges.isEmpty then [(true, n)] :: st
        else
          seekRevLBStep key fuel n search ([(true, n)] :: st)
      | none => seekRevLBStep key fuel n search st
termination_by fuel => (fuel, 0)

/-- The tail of one loop iteration, after the leaf handling: consume the
prefix, stop on key exhaustion, otherwise push the strictly lower edges and
recurse into the lower-bound edge. -/
def seekRevLBStep {V : Type} (key : List Nat) (fuel : Nat) (n : PNode V)
    (search : List Nat) (st : List (List (Bool × PNode V))) :
    List (List (Bool × PNode V)) :=
  match search.drop n.pfx.length with
  | [] => st
  | s0 :: ss =>
    let idx := lowerBoundIdx n.edges s0
    let st2 := if 0 < idx then
        (((n.edges.take idx).map (fun x => ((false : Bool), x.2))).reverse) :: st
      else st
    match n.edges.get? idx with
    | none => st2
    | some e => seekRevLBAux key fuel e.2 (s0 :: ss) st2
termination_by (fuel, 1)

end

def seekRevLowerBound {V : Type} (n : PNode V) (key : List Nat) :
    List (List (Bool × PNode V)) :=
  seekRevLBAux key (psize n) n key []

/-- Weight of a stack entry: an expanded node will only ever emit its own
leaf; an unexpanded node may still be expanded into its whole subtree. -/
def wEntry {V : Type} : Bool × PNode V → Nat
  | (true, _) => 1
  | (false, n) => 2 * psize n

def wFrame {V : Type} (f : List (Bool × PNode V)) : Nat := (f.map wEntry).sum

def wStack {V : Type} (st : List (List (Bool × PNode V))) : Nat :=
  (st.map wFrame).sum

theorem psize_pos {V : Type} (n : PNode V) : 0 < psize n := by
  rcases n with ⟨lf, px, es⟩
  rw [psize]
  omega

theorem wFrame_map_false {V : Type} (es : List (Nat × PNode V)) :
    wFrame (es.map (fun x => ((false : Bool), x.2))) + 2 * es.length =
      2 * psizeEs es := by
  induction es with
  | nil =>
    rw [psizeEs]
    rfl
  | cons e rest ih =>
    rcases e with ⟨l, c⟩
    rw [List.map_cons, wFrame, List.map_cons, List.sum_cons, psizeEs]
    rw [wFrame] at ih
    rw [wEntry]
    simp only [List.length_cons]
    omega

theorem wFrame_reverse {V : Type} (f : List (Bool × PNode V)) :
    wFrame f.reverse = wFrame f := by
  rw [wFrame, wFrame, List.map_reverse, List.sum_reverse]

theorem wEntry_pos {V : Type} (e : Bool × PNode V) : 1 ≤ wEntry e := by
  rcases e with ⟨ex, n⟩
  rcases ex with _ | _
  · show 1 ≤ 2 * psize n
    have := psize_pos n
    omega
  · exact Nat.le_refl 1

theorem drainPop_lt {V : Type} (ex : Bool) (n : PNode V)
    (f : List (Bool × PNode V)) (st : List (List (Bool × PNode V))) :
    3 * wStack (if f.isEmpty then st else f :: st) +
      (if f.isEmpty then st else f :: st).length <
    3 * wStack (((ex, n) :: f) :: st) + (((ex, n) :: f) :: st).length := by
  have hw : 1 ≤ wEntry (ex, n) := wEntry_pos (ex, n)
  rcases hf : f.isEmpty with _ | _
  · rw [if_neg Bool.false_ne_true]
    simp only [wStack, List.map_cons, List.sum_cons, wFrame, List.map_cons,
      List.sum_cons, List.length_cons]
    omega
  · have hfe : f = [] := by
      rcases f with _ | ⟨a, b⟩
      · rfl
      · simp at hf
    subst hfe
    rw [if_pos rfl]
    simp only [wStack, List.map_cons, List.sum_cons, wFrame, List.map_cons,
      List.map_nil, List.sum_cons, List.sum_nil, List.length_cons]
    omega

/-- Go `(ri *ReverseIterator) Previous()` called repeatedly until it returns
false.  Inspect the top entry: an unexpanded internal node is expanded (its
children pushed as a new frame, leftover entry marked); otherwise the entry
is popped (dropping its frame when it empties) and its leaf, if any, is
emitted. -/
def drainPrev {V : Type} : List (List (Bool × PNode V)) → List (List Nat × V)
  | [] => []
  | [] :: st => drainPrev st
  | ((ex, n) :: f) :: st =>
    if hx : ex = false ∧ n.edges.isEmpty = false then
      drainPrev
        (((n.edges.map (fun e => ((false : Bool), e.2))).reverse) ::
          ((true, n) :: f) :: st)
    else
      match n.leaf with
      | some l => l :: drainPrev (if f.isEmpty then st else f :: st)
      | none => drainPrev (if f.isEmpty then st else f :: st)
termination_by st => 3 * wStack st + st.length
decreasing_by
  · simp only [wStack, List.map_cons, List.sum_cons, wFrame, List.map_nil,
      List.sum_nil, List.length_cons]
    omega
  · obtain ⟨hx1, hx2⟩ := hx
    subst hx1
    rcases n with ⟨lf, px, es⟩
    have h1 := wFrame_map_false es
    have h2 := wFrame_reverse (es.map (fun x => ((false : Bool), x.2)))
    have h3 : es.length ≠ 0 := by
      intro h
      rw [List.eq_nil_of_length_eq_zero h] at hx2
      simp at hx2
    simp only [wStack, List.map_cons, List.sum_cons, wFrame, List.map_cons,
      List.sum_cons, List.length_cons, wEntry, PNode.edges_mk, psize] at *
    omega
  · exact drainPop_lt ex n f st

/-- What `Previous` will emit for one stack entry: an expanded node only its
own leaf; an unexpanded node its whole subtree in reverse order. -/
def yEntry {V : Type} : Bool × PNode V → List (List Nat × V)
  | (true, n) => n.leaf.toList
  | (false, n) => (entriesN n).reverse

def yFrame {V : Type} (f : List (Bool × PNode V)) : List (List Nat × V) :=
  (f.map yEntry).flatten

def yStack {V : Type} (st : List (List (Bool × PNode V))) : List (List Nat × V) :=
  (st.map yFrame).flatten

theorem yFrame_nil {V : Type} : yFrame ([] : List (Bool × PNode V)) = [] := rfl

theorem yFrame_cons {V : Type} (e : Bool × PNode V) (f : List (Bool × PNode V)) :
    yFrame (e :: f) = yEntry e ++ yFrame f := by
  rw [yFrame, List.map_cons, List.flatten_cons, yFrame]

theorem yFrame_append {V : Type} (f g : List (Bool × PNode V)) :
    yFrame (f ++ g) = yFrame f ++ yFrame g := by
  rw [yFrame, List.map_append, List.flatten_append, yFrame, yFrame]

theorem yStack_nil {V : Type} : yStack ([] : List (List (Bool × PNode V))) = [] := rfl

theorem yStack_cons {V : Type} (f : List (Bool × PNode V))
    (st : List (List (Bool × PNode V))) :
    yStack (f :: st) = yFrame f ++ yStack st := by
  rw [yStack, List.map_cons, List.flatten_cons, yStack]

theorem entriesEs_append {V : Type} (es fs : List (Nat × PNode V)) :
    entriesEs (es ++ fs) = entriesEs es ++ entriesEs fs := by
  induction es with
  | nil =>
    rw [List.nil_append, entriesEs_nil, List.nil_append]
  | cons e rest ih =>
    rcases e with ⟨l, c⟩
    rw [List.cons_append, entriesEs_cons, entriesEs_cons, ih, List.append_assoc]

/-- The frame of a node's children, unexpanded and reversed, emits exactly
the node's child entries in reverse. -/
theorem yFrame_children {V : Type} (es : List (Nat × PNode V)) :
    yFrame ((es.map (fun e => ((false : Bool), e.2))).reverse) =
      (entriesEs es).reverse := by
  induction es with
  | nil => rfl
  | cons e rest ih =>
    rcases e with ⟨l, c⟩
    rw [List.map_cons, List.reverse_cons, yFrame_append, ih, entriesEs_cons,
      List.reverse_append, yFrame_cons, yFrame_nil, List.append_nil]
    rfl

theorem drainPrev_nil {V : Type} :
    drainPrev ([] : List (List (Bool × PNode V))) = [] := by
  rw [drainPrev]

theorem drainPrev_emptyframe {V : Type} (st : List (List (Bool × PNode V))) :
    drainPrev ([] :: st) = drainPrev st := by
  rw [drainPrev]

theorem drainPrev_expand {V : Type} {n : PNode V} (f : List (Bool × PNode V))
    (st : List (List (Bool × PNode V))) (hx : n.edges.isEmpty = false) :
    drainPrev (((false, n) :: f) :: st) =
      drainPrev
        (((n.edges.map (fun e => ((false : Bool), e.2))).reverse) ::
          ((true, n) :: f) :: st) := by
  rw [drainPrev]
  rw [dif_pos ⟨rfl, hx⟩]

theorem drainPrev_pop {V : Type} {ex : Bool} {n : PNode V}
    (f : List (Bool × PNode V)) (st : List (List (Bool × PNode V)))
    (hx : ¬ (ex = false ∧ n.edges.isEmpty = false)) :
    drainPrev (((ex, n) :: f) :: st) =
      (match n.leaf with
       | some l => l :: drainPrev (if f.isEmpty then st else f :: st)
       | none => drainPrev (if f.isEmpty then st else f :: st)) := by
  rw [drainPrev]
  rw [dif_neg hx]

theorem yStack_popframe {V : Type} (f : List (Bool × PNode V))
    (st : List (List (Bool × PNode V))) :
    yStack (if f.isEmpty then st else f :: st) = yFrame f ++ yStack st := by
  rcases f with _ | ⟨e, f⟩
  · simp [yFrame_nil]
  · rw [if_neg (by simp), yStack_cons]

theorem wStack_expand_lt {V : Type} (n : PNode V) (f : List (Bool × PNode V))
    (st : List (List (Bool × PNode V))) (hx : n.edges.isEmpty = false) :
    3 * wStack ((((n.edges.map (fun e => ((false : Bool), e.2))).reverse) ::
        ((true, n) :: f) :: st)) +
      ((((n.edges.map (fun e => ((false : Bool), e.2))).reverse) ::
        ((true, n) :: f) :: st)).length <
    3 * wStack ((((false : Bool), n) :: f) :: st) +
      (((((false : Bool), n) :: f) :: st)).length := by
  rcases n with ⟨lf, px, es⟩
  have h1 := wFrame_map_false es
  have h2 := wFrame_reverse (es.map (fun x => ((false : Bool), x.2)))
  have h3 : es.length ≠ 0 := by
    intro h
    rw [List.eq_nil_of_length_eq_zero h] at hx
    simp at hx
  simp only [wStack, wFrame, List.map_cons, List.sum_cons, List.length_cons,
    wEntry, PNode.edges_mk, psize] at *
  omega

/-- Draining `Previous` emits exactly the `yStack` of the stack. -/
theorem drainPrev_eq_yStack {V : Type} :
    ∀ (M : Nat) (st : List (List (Bool × PNode V))),
      3 * wStack st + st.length ≤ M → drainPrev st = yStack st := by
  intro M
  induction M with
  | zero =>
    intro st hM
    rcases st with _ | ⟨f, st⟩
    · rw [drainPrev_nil, yStack_nil]
    · simp at hM
  | succ M ih =>
    intro st hM
    rcases st with _ | ⟨f, st⟩
    · rw [drainPrev_nil, yStack_nil]
    rcases f with _ | ⟨⟨ex, n⟩, f⟩
    · rw [drainPrev_emptyframe, yStack_cons, yFrame_nil, List.nil_append]
      refine ih st ?_
      simp only [wStack, List.map_cons, List.sum_cons, wFrame, List.map_nil,
        List.sum_nil, List.length_cons] at hM ⊢
      omega
    have hpop : ∀ (ex2 : Bool), ¬ (ex2 = false ∧ n.edges.isEmpty = false) →
        3 * wStack (((ex2, n) :: f) :: st) + (((ex2, n) :: f) :: st).length ≤ M + 1 →
        yEntry (ex2, n) = n.leaf.toList →
        drainPrev (((ex2, n) :: f) :: st) = yStack (((ex2, n) :: f) :: st) := by
      intro ex2 hx hMx hy
      rw [drainPrev_pop f st hx, yStack_cons, yFrame_cons, hy]
      have hrec : drainPrev (if f.isEmpty then st else f :: st) =
          yFrame f ++ yStack st := by
        rw [ih (if f.isEmpty then st else f :: st)
          (by have := drainPop_lt ex2 n f st; omega)]
        exact yStack_popframe f st
      cases hl : n.leaf with
      | some l =>
        dsimp only
        rw [hrec, Option.toList_some, List.singleton_append, List.cons_append]
      | none =>
        dsimp only
        rw [hrec, Option.toList_none, List.nil_append]
    rcases hex : ex with _ | _
    · rw [hex] at hM
      rcases hes : n.edges.isEmpty with _ | _
      · -- internal unexpanded node: expand it
        rw [drainPrev_expand f st hes]
        rw [ih _ (by have := wStack_expand_lt n f st hes; omega)]
        rw [yStack_cons, yStack_cons, yStack_cons, yFrame_children,
          yFrame_cons]
        have hy : yEntry ((false : Bool), n) = (entriesN n).reverse := rfl
        rw [yFrame_cons, hy]
        have hy2 : yEntry ((true : Bool), n) = n.leaf.toList := rfl
        rw [hy2]
        rcases n with ⟨lf, px, es⟩
        rw [entriesN_mk, List.reverse_append]
        have hlf : lf.toList.reverse = lf.toList := by
          cases lf with
          | none => rfl
          | some l => rfl
        rw [hlf]
        simp only [PNode.edges_mk, PNode.leaf_mk, List.append_assoc]
      · -- leaf-only unexpanded node: pop
        refine hpop false (by intro h; rw [hes] at h; exact absurd h.2 (by simp)) hM ?_
        have hy : yEntry ((false : Bool), n) = (entriesN n).reverse := rfl
        rw [hy]
        rcases n with ⟨lf, px, es⟩
        have hes2 : es = [] := by
          rcases es with _ | ⟨e, es⟩
          · rfl
          · simp at hes
        subst hes2
        rw [entriesN_mk, entriesEs_nil, List.append_nil, PNode.leaf_mk]
        cases lf with
        | none => rfl
        | some l => rfl
    · -- expanded node: pop, emit only the leaf
      rw [hex] at hM
      exact hpop true (by intro h; exact absurd h.1 (by simp)) hM rfl

/-! Comparison facts: the loop's `prefixCmp` always equals
`lexCmp n.pfx (search.take n.pfx.length)`, and that comparison decides the
comparison of every subtree key against the full search key. -/

theorem pc_eq_take (a b : List Nat) :
    (if a.length < b.length then lexCmp a (b.take a.length) else lexCmp a b) =
      lexCmp a (b.take a.length) := by
  by_cases h : a.length < b.length
  · rw [if_pos h]
  · rw [if_neg h, List.take_all_of_le (by omega)]

theorem lexCmp_take_lt :
    ∀ (a b r : List Nat), lexCmp a (b.take a.length) = Ordering.lt →
      lexCmp (a ++ r) b = Ordering.lt
  | [], b, r, h => by
    simp [lexCmp] at h
  | x :: xs, [], r, h => by
    rw [List.take_nil] at h
    simp [lexCmp] at h
  | x :: xs, y :: ys, r, h => by
    rw [List.length_cons, List.take_succ_cons] at h
    rw [List.cons_append]
    rw [lexCmp] at h ⊢
    by_cases h1 : x < y
    · rw [if_pos h1]
    · rw [if_neg h1] at h ⊢
      by_cases h2 : y < x
      · rw [if_pos h2] at h
        exact absurd h (by simp)
      · rw [if_neg h2] at h ⊢
        exact lexCmp_take_lt xs ys r h

theorem lexCmp_take_gt :
    ∀ (a b r : List Nat), lexCmp a (b.take a.length) = Ordering.gt →
      lexCmp (a ++ r) b = Ordering.gt
  | [], b, r, h => by
    simp [lexCmp] at h
  | x :: xs, [], r, h => by
    rw [List.cons_append]
    rfl
  | x :: xs, y :: ys, r, h => by
    rw [List.length_cons, List.take_succ_cons] at h
    rw [List.cons_append]
    rw [lexCmp] at h ⊢
    by_cases h1 : x < y
    · rw [if_pos h1] at h
      exact absurd h (by simp)
    · rw [if_neg h1] at h ⊢
      by_cases h2 : y < x
      · rw [if_pos h2]
      · rw [if_neg h2] at h ⊢
        exact lexCmp_take_gt xs ys r h

theorem liveN_mk {V : Type} (lf : Option (List Nat × V)) (px : List Nat)
    (es : List (Nat × PNode V)) :
    liveN (.mk lf px es) = ((lf.isSome || !es.isEmpty) && liveEs es) := by
  rw [liveN.eq_def]

theorem liveEs_nil {V : Type} : liveEs ([] : List (Nat × PNode V)) = true := by
  rw [liveEs.eq_def]

theorem liveEs_cons {V : Type} (l : Nat) (c : PNode V) (rest : List (Nat × PNode V)) :
    liveEs ((l, c) :: rest) = (liveN c && liveEs rest) := by
  rw [liveEs.eq_def]

theorem liveEs_mem {V : Type} :
    ∀ {es : List (Nat × PNode V)}, liveEs es = true →
      ∀ {l : Nat} {c : PNode V}, (l, c) ∈ es → liveN c = true
  | [], _, _, _, hm => by simp at hm
  | (l0, c0) :: rest, h, l, c, hm => by
    rw [liveEs_cons, Bool.and_eq_true] at h
    rcases List.mem_cons.mp hm with heq | hm2
    · have hc : c = c0 := by injection heq
      rw [hc]
      exact h.1
    · exact liveEs_mem h.2 hm2

theorem liveN_entries_ne {V : Type} :
    ∀ (m : Nat) (n : PNode V), sizeOf n ≤ m → liveN n = true →
      entriesN n ≠ [] := by
  intro m
  induction m with
  | zero =>
    intro n hm
    rcases n with ⟨lf, px, es⟩
    simp only [PNode.mk.sizeOf_spec] at hm
    omega
  | succ m ih =>
    intro n hm hlive
    rcases n with ⟨lf, px, es⟩
    rw [liveN_mk, Bool.and_eq_true, Bool.or_eq_true] at hlive
    rw [entriesN_mk]
    cases lf with
    | some l =>
      rw [Option.toList_some, List.singleton_append]
      exact List.cons_ne_nil _ _
    | none =>
      rw [Option.toList_none, List.nil_append]
      rcases hlive with ⟨hne, hes⟩
      rcases hne with hne | hne
      · simp at hne
      rcases hE : es with _ | ⟨⟨l0, c0⟩, rest⟩
      · rw [hE] at hne
        simp at hne
      rw [hE] at hes
      rw [liveEs_cons, Bool.and_eq_true] at hes
      have hc0 : entriesN c0 ≠ [] := by
        refine ih c0 ?_ hes.1
        rw [hE] at hm
        have h1 : sizeOf (l0, c0) < sizeOf ((l0, c0) :: rest) :=
          List.sizeOf_lt_of_mem (List.mem_cons_self _ _)
        have h2 : sizeOf c0 < sizeOf (l0, c0) := by simp
        simp only [PNode.mk.sizeOf_spec] at hm
        omega
      rw [entriesEs_cons]
      intro hcontra
      rcases List.append_eq_nil.mp hcontra with ⟨ha, _⟩
      exact hc0 ha

/-- In a live, prefix-free, well-formed subtree, a node carrying a leaf has
no edges. -/
theorem leaf_no_edges {V : Type} {m : Nat} {n : PNode V} {p : List Nat}
    (hm : sizeOf n ≤ m) (hwf : wfN p n = true) (hlive : liveN n = true)
    (hpf : prefixFree (entriesN n)) {l : List Nat × V} (hl : n.leaf = some l) :
    n.edges = [] := by
  rcases n with ⟨lf, px, es⟩
  rw [PNode.leaf_mk] at hl
  subst hl
  rw [PNode.edges_mk]
  rw [wfN_iff] at hwf
  obtain ⟨hleaf, hSL, hwfes⟩ := hwf
  rw [liveN_mk, Bool.and_eq_true] at hlive
  rcases hE : es with _ | ⟨⟨l0, c0⟩, rest⟩
  · rfl
  exfalso
  rw [hE] at hlive
  rw [liveEs_cons, Bool.and_eq_true] at hlive
  have hc0 : entriesN c0 ≠ [] := by
    refine liveN_entries_ne (sizeOf c0) c0 (Nat.le_refl _) hlive.2.1
  rcases hEc : entriesN c0 with _ | ⟨e0, rest0⟩
  · exact hc0 hEc
  have he0 : e0 ∈ entriesN c0 := by
    rw [hEc]
    exact List.mem_cons_self _ _
  have hmem : ((l0, c0) : Nat × PNode V) ∈ es := by
    rw [hE]
    exact List.mem_cons_self _ _
  obtain ⟨r0, hr0⟩ := entries_key_label hwfes hmem e0 he0
  have hkmem : l ∈ entriesN (.mk (some l) px es) := by
    rw [entriesN_mk, Option.toList_some]
    exact List.mem_append_left _ (List.mem_cons_self _ _)
  have he0mem : e0 ∈ entriesN (.mk (some l) px es) := by
    rw [entriesN_mk]
    refine List.mem_append_right _ ?_
    rw [mem_entriesEs]
    exact ⟨(l0, c0), hmem, he0⟩
  rcases l with ⟨k, v⟩
  have hk : k = p := hleaf k v rfl
  have hpre : ((k, v) : List Nat × V).1 <+: e0.1 := by
    dsimp only
    rw [hk, hr0]
    exact List.prefix_append p _
  have heq := hpf (k, v) hkmem e0 he0mem hpre
  dsimp only at heq
  rw [hk, hr0] at heq
  have hlen := congrArg List.length heq
  simp at hlen

theorem recurseMax_leaf {V : Type} (l : List Nat × V) (px : List Nat)
    (es : List (Nat × PNode V)) (st : List (List (Bool × PNode V))) :
    recurseMax (.mk (some l) px es) st = (some (.mk (some l) px es), st) := by
  rw [recurseMax]

theorem recurseMax_step {V : Type} (px : List Nat) (es : List (Nat × PNode V))
    (st : List (List (Bool × PNode V))) {e : Nat × PNode V}
    (hl : es.getLast? = some e) :
    recurseMax (.mk none px es) st =
      recurseMax e.2
        (((es.dropLast.map (fun x => ((false : Bool), x.2))).reverse) :: st) := by
  rw [recurseMax]
  split
  · rename_i e2 heq
    rw [hl] at heq
    injection heq with heq
    rw [heq]
  · rename_i heq
    rw [hl] at heq
    exact absurd heq (by simp)

/-- `recurseMax` finds a leaf-bearing node and sets the stack up so that the
found node's leaf followed by the stack's emission is exactly the subtree's
entries in reverse. -/
theorem recurseMax_ok {V : Type} :
    ∀ (m : Nat) (n : PNode V) (p : List Nat), sizeOf n ≤ m → wfN p n = true →
      liveN n = true → prefixFree (entriesN n) →
      ∀ st, ∃ mx st2, recurseMax n st = (some mx, st2) ∧
        mx.leaf.toList ++ yStack st2 = (entriesN n).reverse ++ yStack st := by
  intro m
  induction m with
  | zero =>
    intro n p hm
    rcases n with ⟨lf, px, es⟩
    simp only [PNode.mk.sizeOf_spec] at hm
    omega
  | succ m ih =>
    intro n p hm hwf hlive hpf st
    rcases n with ⟨lf, px, es⟩
    cases lf with
    | some l =>
      have hes : es = [] := by
        have := leaf_no_edges hm hwf hlive hpf
          (show (PNode.mk (some l) px es).leaf = some l from rfl)
        rw [PNode.edges_mk] at this
        exact this
      subst hes
      refine ⟨.mk (some l) px [], st, recurseMax_leaf l px [] st, ?_⟩
      rw [entriesN_mk, entriesEs_nil, List.append_nil, PNode.leaf_mk]
      cases l with
      | mk k v => rfl
    | none =>
      have hlive2 := hlive
      rw [liveN_mk, Bool.and_eq_true, Bool.or_eq_true] at hlive2
      have hesne : es ≠ [] := by
        rcases hlive2.1 with h | h
        · simp at h
        · rcases es with _ | _
          · simp at h
          · exact List.cons_ne_nil _ _
      have hgl : es.getLast? = some (es.getLast hesne) := by
        rw [List.getLast?_eq_getLast]
      set e := es.getLast hesne with he
      have hemem : e ∈ es := List.getLast_mem hesne
      rw [wfN_iff] at hwf
      obtain ⟨hleaf, hSL, hwfes⟩ := hwf
      obtain ⟨⟨r, hr⟩, hwfc⟩ := (wfEs_iff p es).mp hwfes e hemem
      have hsize : sizeOf e.2 ≤ m := by
        have h1 : sizeOf e < sizeOf es := List.sizeOf_lt_of_mem hemem
        have h2 : sizeOf e.2 < sizeOf e := by
          rcases e with ⟨a, b⟩
          simp
        simp only [PNode.mk.sizeOf_spec] at hm
        omega
      have hlc : liveN e.2 = true :=
        liveEs_mem hlive2.2 (show (e.1, e.2) ∈ es from hemem)
      have hpfc : prefixFree (entriesN e.2) := by
        refine prefixFree_mono ?_ hpf
        intro e2 he2
        rw [entriesN_mk]
        refine List.mem_append_right _ ?_
        rw [mem_entriesEs]
        exact ⟨e, hemem, he2⟩
      obtain ⟨mx, st2, hrec, heq⟩ := ih e.2 (p ++ e.2.pfx) hsize hwfc hlc hpfc
        (((es.dropLast.map (fun x => ((false : Bool), x.2))).reverse) :: st)
      refine ⟨mx, st2, ?_, ?_⟩
      · rw [recurseMax_step px es st hgl]
        exact hrec
      · rw [heq, yStack_cons, yFrame_children, entriesN_mk, Option.toList_none,
          List.nil_append]
        have hsplit : entriesEs es = entriesEs es.dropLast ++ entriesN e.2 := by
          conv_lhs => rw [← List.dropLast_concat_getLast hesne]
          rw [entriesEs_append, ← he]
          rcases e with ⟨a, b⟩
          rw [entriesEs_cons, entriesEs_nil, List.append_nil]
        rw [hsplit, List.reverse_append, List.append_assoc]

/-- `a ≤ b` in the lexicographic byte order. -/
def isLe (a b : List Nat) : Bool :=
  match lexCmp a b with
  | Ordering.gt => false
  | _ => true

theorem isLe_of_lt {a b : List Nat} (h : lexCmp a b = Ordering.lt) :
    isLe a b = true := by
  rw [isLe, h]

theorem isLe_of_eq {a b : List Nat} (h : lexCmp a b = Ordering.eq) :
    isLe a b = true := by
  rw [isLe, h]

theorem isLe_of_gt {a b : List Nat} (h : lexCmp a b = Ordering.gt) :
    isLe a b = false := by
  rw [isLe, h]

theorem psize_mk {V : Type} (lf : Option (List Nat × V)) (px : List Nat)
    (es : List (Nat × PNode V)) :
    psize (.mk lf px es) = 1 + psizeEs es := by
  rw [psize.eq_def]

theorem psizeEs_nil {V : Type} : psizeEs ([] : List (Nat × PNode V)) = 0 := by
  rw [psizeEs.eq_def]

theorem psizeEs_cons {V : Type} (l : Nat) (c : PNode V) (rest : List (Nat × PNode V)) :
    psizeEs ((l, c) :: rest) = 1 + psize c + psizeEs rest := by
  rw [psizeEs.eq_def]

theorem psize_child_lt {V : Type} :
    ∀ {es : List (Nat × PNode V)} {l : Nat} {c : PNode V}, (l, c) ∈ es →
      psize c < psizeEs es
  | [], _, _, hm => by simp at hm
  | (l0, c0) :: rest, l, c, hm => by
    rw [psizeEs_cons]
    rcases List.mem_cons.mp hm with heq | hm2
    · have hc : c = c0 := by injection heq
      rw [hc]
      omega
    · have := psize_child_lt hm2
      omega

theorem lowerBoundIdx_le {C : Type} (es : List (Nat × C)) (l : Nat) :
    lowerBoundIdx es l ≤ es.length :=
  goSearch_le _ _

theorem lowerBoundIdx_mono {C : Type} {es : List (Nat × C)} (hs : SL es) (l : Nat) :
    ∀ a b, a ≤ b → b < es.length →
      (fun i => decide (l ≤ labelAt es i)) a = true →
      (fun i => decide (l ≤ labelAt es i)) b = true := by
  intro a b hab hb ha
  rw [decide_eq_true_iff] at ha ⊢
  rcases Nat.eq_or_lt_of_le hab with h | h
  · rw [← h]
    exact ha
  · exact Nat.le_of_lt (Nat.lt_of_le_of_lt ha (SL_labelAt_lt hs h hb))

theorem lowerBoundIdx_lt_label {C : Type} {es : List (Nat × C)} (hs : SL es)
    (l : Nat) : ∀ j, j < lowerBoundIdx es l → labelAt es j < l := by
  intro j hj
  have h := goSearch_not_below es.length _ (lowerBoundIdx_mono hs l) j hj
  rw [decide_eq_false_iff_not] at h
  omega

theorem lowerBoundIdx_ge_label {C : Type} (es : List (Nat × C)) (l : Nat)
    (h : lowerBoundIdx es l < es.length) :
    l ≤ labelAt es (lowerBoundIdx es l) := by
  have h2 := goSearch_holds es.length (fun i => decide (l ≤ labelAt es i)) h
  rw [decide_eq_true_iff] at h2
  exact h2

theorem seekAux_unfold {V : Type} (key : List Nat) (fuel : Nat) (n : PNode V)
    (search : List Nat) (st : List (List (Bool × PNode V))) :
    seekRevLBAux key (fuel + 1) n search st =
      match lexCmp n.pfx (search.take n.pfx.length) with
      | Ordering.lt =>
        (match recurseMax n st with
         | (some m, st2) => [(true, m)] :: st2
         | (none, st2) => st2)
      | Ordering.gt => st
      | Ordering.eq =>
        match n.leaf with
        | some l =>
          if l.1 = key then [(true, n)] :: st
          else if n.edges.isEmpty then [(true, n)] :: st
          else seekRevLBStep key fuel n search ([(true, n)] :: st)
        | none => seekRevLBStep key fuel n search st := by
  rw [seekRevLBAux]
  simp only [pc_eq_take]

theorem seekStep_unfold {V : Type} (key : List Nat) (fuel : Nat) (n : PNode V)
    (search : List Nat) (st : List (List (Bool × PNode V))) :
    seekRevLBStep key fuel n search st =
      match search.drop n.pfx.length with
      | [] => st
      | s0 :: ss =>
        (match n.edges.get? (lowerBoundIdx n.edges s0) with
         | none =>
           if 0 < lowerBoundIdx n.edges s0 then
             (((n.edges.take (lowerBoundIdx n.edges s0)).map
               (fun x => ((false : Bool), x.2))).reverse) :: st
           else st
         | some e =>
           seekRevLBAux key fuel e.2 (s0 :: ss)
             (if 0 < lowerBoundIdx n.edges s0 then
               (((n.edges.take (lowerBoundIdx n.edges s0)).map
                 (fun x => ((false : Bool), x.2))).reverse) :: st
             else st)) := by
  rw [seekRevLBStep]

theorem mem_take_get? {C : Type} {es : List C} {n : Nat} {a : C}
    (h : a ∈ es.take n) : ∃ i, i < n ∧ i < es.length ∧ es.get? i = some a := by
  rw [List.mem_take_iff_getElem] at h
  obtain ⟨i, hi, he⟩ := h
  refine ⟨i, by omega, by omega, ?_⟩
  rw [List.get?_eq_getElem?, List.getElem?_eq_getElem (by omega)]
  rw [he]

theorem mem_drop_get? {C : Type} {es : List C} {n : Nat} {a : C}
    (h : a ∈ es.drop n) : ∃ i, n ≤ i ∧ i < es.length ∧ es.get? i = some a := by
  rw [List.mem_drop_iff_getElem] at h
  obtain ⟨i, hi, he⟩ := h
  refine ⟨n + i, by omega, by omega, ?_⟩
  rw [List.get?_eq_getElem?, List.getElem?_eq_getElem (by omega)]
  rw [he]

theorem labelAt_of_get? {C : Type} {es : List (Nat × C)} {i l : Nat} {c : C}
    (h : es.get? i = some (l, c)) : labelAt es i = l := by
  rw [labelAt, h]
  rfl

theorem lexCmp_cons_of_gt {x y : Nat} (h : y < x) (a b : List Nat) :
    lexCmp (x :: a) (y :: b) = Ordering.gt := by
  rw [lexCmp]
  rw [if_neg (by omega), if_pos h]

/-- One loop iteration's tail below a leafless node whose prefix matched:
the emitted stack grows by exactly the subtree entries `≤ key`. -/
theorem seekStep_ok {V : Type} (key : List Nat) (fuel : Nat)
    (ih : ∀ (n : PNode V) (p0 search : List Nat)
        (st : List (List (Bool × PNode V))),
      psize n ≤ fuel → wfN (p0 ++ n.pfx) n = true → liveN n = true →
      prefixFree (entriesN n) → key = p0 ++ search →
      yStack (seekRevLBAux key fuel n search st) =
        ((entriesN n).filter (fun e => isLe e.1 key)).reverse ++ yStack st) :
    ∀ (px : List Nat) (es : List (Nat × PNode V)) (p0 search : List Nat)
      (st : List (List (Bool × PNode V))),
      psize (.mk none px es) ≤ fuel + 1 →
      wfN (p0 ++ px) (.mk none px es) = true →
      liveN (.mk none px es) = true →
      prefixFree (entriesN (.mk none px es)) →
      key = p0 ++ search →
      px = search.take px.length →
      yStack (seekRevLBStep key fuel (.mk none px es) search st) =
        ((entriesN (.mk none px es)).filter (fun e => isLe e.1 key)).reverse ++
          yStack st := by
  intro px es p0 search st hfuel hwf hlive hpf hkey hpfx
  have hwf2 := hwf
  rw [wfN_iff] at hwf2
  obtain ⟨hleaf, hSL, hwfes⟩ := hwf2
  have hentriesN : entriesN (.mk none px es) = entriesEs es := by
    rw [entriesN_mk, Option.toList_none, List.nil_append]
  rw [seekStep_unfold]
  simp only [PNode.pfx_mk, PNode.edges_mk]
  have hsearch : search = px ++ search.drop px.length := by
    conv_lhs => rw [← List.take_append_drop px.length search]
    rw [← hpfx]
  rcases hd : search.drop px.length with _ | ⟨s0, ss⟩
  · -- search exhausted below a leafless node: every entry is greater
    dsimp only
    have hsea : search = px := by
      rw [hsearch, hd, List.append_nil]
    have hfil : (entriesN (.mk none px es)).filter (fun e => isLe e.1 key) = [] := by
      rw [List.filter_eq_nil]
      intro e he hp
      rw [hentriesN, mem_entriesEs] at he
      obtain ⟨lc, hlc, he2⟩ := he
      rcases lc with ⟨l2, c2⟩
      obtain ⟨r2, hr2⟩ := entries_key_label hwfes hlc e he2
      have hgt : lexCmp e.1 key = Ordering.gt := by
        rw [hr2, hkey, hsea]
        have h7 : lexCmp ((p0 ++ px) ++ l2 :: r2) ((p0 ++ px) ++ []) =
            lexCmp (l2 :: r2) [] := lexCmp_append_left _ _ _
        rw [List.append_nil] at h7
        rw [h7]
        rfl
      rw [isLe_of_gt hgt] at hp
      exact absurd hp (by simp)
    rw [hfil, List.reverse_nil, List.nil_append]
  · dsimp only
    have hsea2 : search = px ++ s0 :: ss := by rw [hsearch, hd]
    have hidxle := lowerBoundIdx_le es s0
    have hlowlab : ∀ lc ∈ es.take (lowerBoundIdx es s0),
        (lc : Nat × PNode V).1 < s0 := by
      intro lc hlc
      obtain ⟨i, hi1, hi2, hget⟩ := mem_take_get? hlc
      have h2 := lowerBoundIdx_lt_label hSL s0 i hi1
      rcases lc with ⟨l2, c2⟩
      rw [labelAt_of_get? hget] at h2
      exact h2
    have hlowfil : (entriesEs (es.take (lowerBoundIdx es s0))).filter
        (fun e => isLe e.1 key) = entriesEs (es.take (lowerBoundIdx es s0)) := by
      rw [List.filter_eq_self]
      intro e he
      rw [mem_entriesEs] at he
      obtain ⟨lc, hlc, he2⟩ := he
      rcases lc with ⟨l2, c2⟩
      obtain ⟨r2, hr2⟩ :=
        entries_key_label hwfes (List.mem_of_mem_take hlc) e he2
      show isLe e.1 key = true
      refine isLe_of_lt ?_
      rw [hr2, hkey, hsea2]
      rw [show p0 ++ (px ++ s0 :: ss) = (p0 ++ px) ++ s0 :: ss from by
        rw [List.append_assoc]]
      rw [lexCmp_append_left]
      exact lexCmp_cons_of_lt (hlowlab (l2, c2) hlc) _ _
    have hyst2 : yStack (if 0 < lowerBoundIdx es s0 then
          (((es.take (lowerBoundIdx es s0)).map
            (fun x => ((false : Bool), x.2))).reverse) :: st
        else st) =
        (entriesEs (es.take (lowerBoundIdx es s0))).reverse ++ yStack st := by
      by_cases h0 : 0 < lowerBoundIdx es s0
      · rw [if_pos h0, yStack_cons, yFrame_children]
      · rw [if_neg h0]
        have h1 : lowerBoundIdx es s0 = 0 := by omega
        rw [h1, List.take_zero, entriesEs_nil, List.reverse_nil, List.nil_append]
    rcases hget : es.get? (lowerBoundIdx es s0) with _ | ⟨le, c⟩
    · -- no lower-bound edge: push all (strictly smaller) edges and stop
      dsimp only
      have hlen : es.length ≤ lowerBoundIdx es s0 := List.get?_eq_none.mp hget
      have htake : es.take (lowerBoundIdx es s0) = es := List.take_all_of_le hlen
      have hfilall : (entriesEs es).filter (fun e => isLe e.1 key) =
          entriesEs es := by
        have h2 := hlowfil
        rw [htake] at h2
        exact h2
      rw [hyst2, htake, hentriesN, hfilall]
    · -- recurse into the lower-bound edge
      dsimp only
      have hgetmem : (le, c) ∈ es := List.get?_mem hget
      obtain ⟨⟨rc, hrc⟩, hwfc⟩ := (wfEs_iff (p0 ++ px) es).mp hwfes (le, c) hgetmem
      have hlivec : liveN c = true := by
        have hl2 : liveEs es = true := by
          rw [liveN_mk, Bool.and_eq_true] at hlive
          exact hlive.2
        exact liveEs_mem hl2 hgetmem
      have hpfc : prefixFree (entriesN c) := by
        refine prefixFree_mono ?_ hpf
        intro e2 he2
        rw [hentriesN, mem_entriesEs]
        exact ⟨(le, c), hgetmem, he2⟩
      have hfuelc : psize c ≤ fuel := by
        have h1 := psize_child_lt hgetmem
        rw [psize_mk] at hfuel
        omega
      have hkey2 : key = (p0 ++ px) ++ s0 :: ss := by
        rw [hkey, hsea2, List.append_assoc]
      have hrec := ih c (p0 ++ px) (s0 :: ss)
        (if 0 < lowerBoundIdx es s0 then
          (((es.take (lowerBoundIdx es s0)).map
            (fun x => ((false : Bool), x.2))).reverse) :: st
        else st) hfuelc hwfc hlivec hpfc hkey2
      rw [hrec, hyst2]
      have hidxlt : lowerBoundIdx es s0 < es.length := by
        rcases Nat.lt_or_ge (lowerBoundIdx es s0) es.length with h | h
        · exact h
        · rw [List.get?_eq_none.mpr h] at hget
          exact absurd hget (by simp)
      have hidxelem : es[lowerBoundIdx es s0] = (le, c) := by
        have h4 := hget
        rw [List.get?_eq_getElem?, List.getElem?_eq_getElem hidxlt] at h4
        injection h4
      have hsplit : es = es.take (lowerBoundIdx es s0) ++
          (le, c) :: es.drop (lowerBoundIdx es s0 + 1) := by
        conv_lhs => rw [← List.take_append_drop (lowerBoundIdx es s0) es]
        rw [List.drop_eq_getElem_cons hidxlt, hidxelem]
      have hhigh : (entriesEs (es.drop (lowerBoundIdx es s0 + 1))).filter
          (fun e => isLe e.1 key) = [] := by
        rw [List.filter_eq_nil]
        intro e he hp
        rw [mem_entriesEs] at he
        obtain ⟨lc, hlc, he2⟩ := he
        rcases lc with ⟨l2, c2⟩
        obtain ⟨r2, hr2⟩ :=
          entries_key_label hwfes (List.mem_of_mem_drop hlc) e he2
        obtain ⟨i, hi1, hi2, hget2⟩ := mem_drop_get? hlc
        have hlab2 : labelAt es i = l2 := labelAt_of_get? hget2
        have hlabidx : labelAt es (lowerBoundIdx es s0) = le :=
          labelAt_of_get? hget
        have hge : s0 ≤ le := by
          have h5 := lowerBoundIdx_ge_label es s0 hidxlt
          rw [hlabidx] at h5
          exact h5
        have hlt2 : le < l2 := by
          have h6 := SL_labelAt_lt hSL
            (show lowerBoundIdx es s0 < i by omega) hi2
          rw [hlab2, hlabidx] at h6
          exact h6
        have hgt : lexCmp e.1 key = Ordering.gt := by
          rw [hr2, hkey2, lexCmp_append_left]
          exact lexCmp_cons_of_gt (by omega) _ _
        rw [isLe_of_gt hgt] at hp
        exact absurd hp (by simp)
      rw [hentriesN]
      conv_rhs => rw [hsplit]
      rw [entriesEs_append, entriesEs_cons, List.filter_append,
        List.filter_append, hlowfil, hhigh, List.append_nil,
        List.reverse_append, List.append_assoc]

/-- Main invariant of `SeekReverseLowerBound`: on a live, prefix-free,
well-formed subtree, the seek loop leaves a stack whose emission is exactly
the subtree's entries with key `≤ key`, in reverse, in front of whatever the
incoming stack would emit. -/
theorem seekRev_ok {V : Type} (key : List Nat) :
    ∀ (fuel : Nat) (n : PNode V) (p0 search : List Nat)
      (st : List (List (Bool × PNode V))),
      psize n ≤ fuel →
      wfN (p0 ++ n.pfx) n = true → liveN n = true →
      prefixFree (entriesN n) → key = p0 ++ search →
      yStack (seekRevLBAux key fuel n search st) =
        ((entriesN n).filter (fun e => isLe e.1 key)).reverse ++ yStack st := by
  intro fuel
  induction fuel with
  | zero =>
    intro n p0 search st hfuel _ _ _ _
    have := psize_pos n
    omega
  | succ fuel ih =>
    intro n p0 search st hfuel hwf hlive hpf hkey
    rw [seekAux_unfold]
    rcases hpc : lexCmp n.pfx (search.take n.pfx.length) with _ | _ | _
    · -- prefix smaller: every subtree key is below the search key
      dsimp only
      have hall : (entriesN n).filter (fun e => isLe e.1 key) = entriesN n := by
        rw [List.filter_eq_self]
        intro e he
        obtain ⟨r, hr⟩ :=
          entries_key_pfx (sizeOf n) n (p0 ++ n.pfx) (Nat.le_refl _) hwf e he
        show isLe e.1 key = true
        refine isLe_of_lt ?_
        rw [← hr, hkey, List.append_assoc, lexCmp_append_left]
        exact lexCmp_take_lt _ _ _ hpc
      obtain ⟨mx, st2, hrec, heq⟩ :=
        recurseMax_ok (sizeOf n) n (p0 ++ n.pfx) (Nat.le_refl _) hwf hlive hpf st
      rw [hrec]
      dsimp only
      rw [yStack_cons, yFrame_cons, yFrame_nil, List.append_nil, hall]
      exact heq
    · -- prefix equal so far
      have hpfx_take : n.pfx = search.take n.pfx.length := lexCmp_eq_iff.mp hpc
      rcases n with ⟨lf, px, es⟩
      rw [PNode.pfx_mk] at hpfx_take
      dsimp only
      cases lf with
      | none =>
        exact seekStep_ok key fuel ih px es p0 search st hfuel hwf hlive hpf
          hkey hpfx_take
      | some l =>
        simp only [PNode.leaf_mk, PNode.edges_mk]
        have hwf2 := hwf
        rw [wfN_iff] at hwf2
        obtain ⟨hleaf, hSL, hwfes⟩ := hwf2
        have hlk : l.1 = p0 ++ px := by
          rcases l with ⟨k, v⟩
          exact hleaf k v rfl
        have hes : es = [] := by
          have h8 := leaf_no_edges (Nat.le_refl (sizeOf (PNode.mk (some l) px es)))
            hwf hlive hpf (show (PNode.mk (some l) px es).leaf = some l from rfl)
          rw [PNode.edges_mk] at h8
          exact h8
        subst hes
        have hent : entriesN (.mk (some l) px ([] : List (Nat × PNode V))) = [l] := by
          rw [entriesN_mk, entriesEs_nil, List.append_nil]
          rcases l with ⟨k, v⟩
          rfl
        by_cases hex : l.1 = key
        · rw [if_pos hex, yStack_cons, yFrame_cons, yFrame_nil, List.append_nil,
            hent]
          have hfil : ([l] : List (List Nat × V)).filter
              (fun e => isLe e.1 key) = [l] := by
            rw [List.filter_eq_self]
            intro e he
            rw [List.mem_singleton] at he
            subst he
            show isLe e.1 key = true
            rw [hex]
            exact isLe_of_eq (lexCmp_refl key)
          rw [hfil]
          show (some l).toList ++ yStack st = [l].reverse ++ yStack st
          rfl
        · rw [if_neg hex]
          rw [if_pos (show (([] : List (Nat × PNode V)).isEmpty = true) from rfl)]
          rw [yStack_cons, yFrame_cons, yFrame_nil, List.append_nil, hent]
          have hlt : lexCmp l.1 key = Ordering.lt := by
            have hne : px ≠ search := by
              intro h
              apply hex
              rw [hlk, hkey, h]
            have hlenlt : px.length < search.length := by
              rcases Nat.lt_or_ge px.length search.length with h | h
              · exact h
              · exfalso
                apply hne
                rw [hpfx_take, List.take_all_of_le h]
            have hdropne : search.drop px.length ≠ [] := by
              intro h
              have h9 := congrArg List.length h
              rw [List.length_drop] at h9
              simp at h9
              omega
            have hsearch : search = px ++ search.drop px.length := by
              conv_lhs => rw [← List.take_append_drop px.length search]
              rw [← hpfx_take]
            rw [hlk, hkey, hsearch]
            rw [show p0 ++ (px ++ search.drop px.length) =
                (p0 ++ px) ++ search.drop px.length from by
              rw [List.append_assoc]]
            exact lexLt_append_of_ne_nil (p0 ++ px) (search.drop px.length) hdropne
          have hfil : ([l] : List (List Nat × V)).filter
              (fun e => isLe e.1 key) = [l] := by
            rw [List.filter_eq_self]
            intro e he
            rw [List.mem_singleton] at he
            subst he
            show isLe e.1 key = true
            exact isLe_of_lt hlt
          rw [hfil]
          show (some l).toList ++ yStack st = [l].reverse ++ yStack st
          rfl
    · -- prefix larger: no subtree key is below the search key
      dsimp only
      have hfil : (entriesN n).filter (fun e => isLe e.1 key) = [] := by
        rw [List.filter_eq_nil]
        intro e he hp
        obtain ⟨r, hr⟩ :=
          entries_key_pfx (sizeOf n) n (p0 ++ n.pfx) (Nat.le_refl _) hwf e he
        have hgt : lexCmp e.1 key = Ordering.gt := by
          rw [← hr, hkey, List.append_assoc, lexCmp_append_left]
          exact lexCmp_take_gt _ _ _ hpc
        rw [isLe_of_gt hgt] at hp
        exact absurd hp (by simp)
      rw [hfil, List.reverse_nil, List.nil_append]

/-- C4: on a well-formed, live tree in which no stored key is a proper
prefix of another (the claim's hypothesis), `SeekReverseLowerBound(s)` on a
fresh reverse iterator followed by draining `Previous` yields exactly the
stored pairs with key `≤ s`, in descending lexicographic order, each once. -/
theorem claim_C4 {V : Type} (t : PTree V) (s : List Nat)
    (hwf : wfTree t = true) (hlive : liveN t.root = true)
    (hpf : prefixFree (entriesN t.root)) :
    drainPrev (seekRevLowerBound t.root s) =
      ((entriesN t.root).filter (fun e => isLe e.1 s)).reverse ∧
    (∀ e, e ∈ drainPrev (seekRevLowerBound t.root s) ↔
      e ∈ entriesN t.root ∧ isLe e.1 s = true) ∧
    (drainPrev (seekRevLowerBound t.root s)).Pairwise
      (fun a b => lexLt b.1 a.1) := by
  rw [wfTree, Bool.and_eq_true] at hwf
  obtain ⟨hwfr, hpfxr⟩ := hwf
  have hpfx0 : t.root.pfx = [] := by
    rcases hr : t.root.pfx with _ | _
    · rfl
    · rw [hr] at hpfxr
      simp at hpfxr
  have hwfr2 : wfN ([] ++ t.root.pfx) t.root = true := by
    rw [List.nil_append, hpfx0]
    exact hwfr
  have hdrain : drainPrev (seekRevLowerBound t.root s) =
      ((entriesN t.root).filter (fun e => isLe e.1 s)).reverse := by
    rw [seekRevLowerBound]
    rw [drainPrev_eq_yStack
      (3 * wStack (seekRevLBAux s (psize t.root) t.root s []) +
        (seekRevLBAux s (psize t.root) t.root s []).length) _ (Nat.le_refl _)]
    rw [seekRev_ok s (psize t.root) t.root [] s [] (Nat.le_refl _) hwfr2 hlive
      hpf (List.nil_append s).symm]
    rw [yStack_nil, List.append_nil]
  refine ⟨hdrain, ?_, ?_⟩
  · intro e
    rw [hdrain, List.mem_reverse, List.mem_filter]
  · rw [hdrain, List.pairwise_reverse]
    have hsorted := entries_sorted (sizeOf t.root) t.root [] (Nat.le_refl _) hwfr
    exact List.Pairwise.sublist (List.filter_sublist _) hsorted

theorem exTree3_live : liveN exTree3.root = true := by
  rw [exTree3_root]
  rfl

theorem exTree3_pf : prefixFree (entriesN exTree3.root) := by
  rw [exTree3_root]
  intro e he f hf hp
  fin_cases he <;> fin_cases hf <;> first
    | rfl
    | exact absurd hp (by decide)

theorem claim_C4_witness :
    wfTree exTree3 = true ∧ liveN exTree3.root = true ∧
    prefixFree (entriesN exTree3.root) ∧
    drainPrev (seekRevLowerBound exTree3.root [98]) =
      ((entriesN exTree3.root).filter (fun e => isLe e.1 [98])).reverse :=
  ⟨exTree3_wf, exTree3_live, exTree3_pf,
    (claim_C4 exTree3 [98] exTree3_wf exTree3_live exTree3_pf).1⟩

/-! ## Bitmap-based child index (claim C9)

Embedding of the generic `Node`'s 256-bit presence bitmap (4 × uint64) plus
compact child array, as a standalone child-index structure so that it can be
compared with the sorted `(label, child)` array of the non-generic `node`.
uint64 values are `Nat`s kept below `2^64`; uint8 label arithmetic carries an
explicit `% 256` where the Go code computes in `uint8`. -/

structure BN (C : Type) where
  bitmap : List Nat
  edges : List C

/-- Go `bits.OnesCount64`. -/
def popCount64 (x : Nat) : Nat :=
  ((List.range 64).filter (fun i => x.testBit i)).length

/-- Go `bits.TrailingZeros64` (64 when no bit is set below 64). -/
def tz64 (x : Nat) : Nat := (List.range 64).findIdx (fun i => x.testBit i)

def bmGet (bm : List Nat) (b : Nat) : Nat := bm.getD b 0

/-- Go `setBit(bitmap, label)`. -/
def setBit (bm : List Nat) (label : Nat) : List Nat :=
  bm.set (label / 64) (bmGet bm (label / 64) ||| (1 <<< (label % 64)))

/-- Go `clearBit(bitmap, label)`: `&^=` is and-not; the complement of the
single-bit uint64 mask is its xor with `2^64 - 1`. -/
def clearBit (bm : List Nat) (label : Nat) : List Nat :=
  bm.set (label / 64)
    (bmGet bm (label / 64) &&& ((2 ^ 64 - 1) ^^^ (1 <<< (label % 64))))

/-- Go `bitSet(bitmap, label)`. -/
def bitSet (bm : List Nat) (label : Nat) : Bool :=
  decide (bmGet bm (label / 64) &&& (1 <<< (label % 64)) ≠ 0)

/-- Go `rankOf` / `getChildRank` (they are textually identical): set bits
strictly below `label`. -/
def rankOf (bm : List Nat) (label : Nat) : Nat :=
  ((List.range (label / 64)).map (fun i => popCount64 (bmGet bm i))).sum +
    popCount64 (bmGet bm (label / 64) &&& ((1 <<< (label % 64)) - 1))

/-- The bit the bitmap stores for a label. -/
def bmBit (bm : List Nat) (l : Nat) : Bool := (bmGet bm (l / 64)).testBit (l % 64)

/-- Number of set bits strictly below `l` — the abstract meaning of a rank. -/
def countLt (bm : List Nat) (l : Nat) : Nat :=
  ((List.range l).filter (fun i => bmBit bm i)).length

theorem getD_set {l : List Nat} (i v j : Nat) (h : i < l.length) :
    (l.set i v).getD j 0 = if i = j then v else l.getD j 0 := by
  rcases Nat.decEq i j with hne | heq
  · rw [if_neg hne, List.getD_eq_getElem?_getD, List.getD_eq_getElem?_getD,
      List.getElem?_set_ne hne]
  · subst heq
    rw [if_pos rfl, List.getD_eq_getElem?_getD, List.getElem?_set_eq h]
    rfl

theorem bitSet_eq_bmBit (bm : List Nat) (l : Nat) : bitSet bm l = bmBit bm l := by
  rw [bitSet, bmBit]
  rcases hb : (bmGet bm (l / 64)).testBit (l % 64) with _ | _
  · rw [decide_eq_false_iff_not]
    intro hne
    apply hne
    rw [Nat.one_shiftLeft]
    have h2 := Nat.and_two_pow (bmGet bm (l / 64)) (l % 64)
    rw [hb] at h2
    simpa using h2
  · rw [decide_eq_true_iff]
    rw [Nat.one_shiftLeft]
    have h2 := Nat.and_two_pow (bmGet bm (l / 64)) (l % 64)
    rw [hb] at h2
    rw [h2]
    simp

def countBits (x k : Nat) : Nat :=
  ((List.range k).filter (fun i => x.testBit i)).length

theorem bmGet_lt {bm : List Nat} (hwfb : ∀ b ∈ bm, b < 2 ^ 64) (i : Nat) :
    bmGet bm i < 2 ^ 64 := by
  rw [bmGet]
  by_cases hi : i < bm.length
  · rw [List.getD_eq_getElem?_getD, List.getElem?_eq_getElem hi]
    exact hwfb _ (List.getElem_mem hi)
  · rw [List.getD_eq_getElem?_getD, List.getElem?_eq_none (by omega)]
    decide

theorem bmBit_setBit {bm : List Nat} (hlen : bm.length = 4) (l l2 : Nat)
    (hl : l < 256) (hl2 : l2 < 256) :
    bmBit (setBit bm l) l2 = (decide (l = l2) || bmBit bm l2) := by
  rw [bmBit, setBit, bmGet, getD_set _ _ _ (by rw [hlen]; omega)]
  by_cases hb : l / 64 = l2 / 64
  · rw [if_pos hb]
    rw [Nat.testBit_or, Nat.one_shiftLeft, Nat.testBit_two_pow]
    rw [bmBit, bmGet, hb]
    have hiff : (l % 64 = l2 % 64) ↔ (l = l2) := by omega
    by_cases heq : l = l2
    · rw [decide_eq_true (hiff.mpr heq), decide_eq_true heq]
      simp
    · rw [decide_eq_false (fun hc => heq (hiff.mp hc)), decide_eq_false heq]
      simp
      rw [bmGet, List.getD_eq_getElem?_getD]
  · rw [if_neg hb, bmBit, bmGet]
    rw [decide_eq_false (fun hc : l = l2 => hb (by rw [hc]))]
    simp

theorem bmBit_clearBit {bm : List Nat} (hlen : bm.length = 4) (l l2 : Nat)
    (hl : l < 256) (hl2 : l2 < 256) :
    bmBit (clearBit bm l) l2 = (!decide (l = l2) && bmBit bm l2) := by
  rw [bmBit, clearBit, bmGet, getD_set _ _ _ (by rw [hlen]; omega)]
  by_cases hb : l / 64 = l2 / 64
  · rw [if_pos hb]
    rw [Nat.testBit_and, Nat.testBit_xor, Nat.one_shiftLeft, Nat.testBit_two_pow,
      Nat.testBit_two_pow_sub_one]
    rw [bmBit, bmGet, hb]
    have h64 : l2 % 64 < 64 := Nat.mod_lt _ (by omega)
    rw [decide_eq_true h64]
    have hiff : (l % 64 = l2 % 64) ↔ (l = l2) := by omega
    by_cases heq : l = l2
    · rw [decide_eq_true (hiff.mpr heq), decide_eq_true heq]
      simp
    · rw [decide_eq_false (fun hc => heq (hiff.mp hc)), decide_eq_false heq]
      simp
      rw [bmGet, List.getD_eq_getElem?_getD]
  · rw [if_neg hb, bmBit, bmGet]
    rw [decide_eq_false (fun hc : l = l2 => hb (by rw [hc]))]
    simp

theorem countBits_and_mask (x b : Nat) (hb : b ≤ 64) :
    popCount64 (x &&& (2 ^ b - 1)) = countBits x b := by
  rw [popCount64, countBits]
  have hr : List.range 64 = List.range b ++ (List.range (64 - b)).map (b + ·) := by
    rw [← List.range_add]
    congr 1
    omega
  rw [hr, List.filter_append, List.length_append]
  have h1 : (List.range b).filter (fun i => (x &&& (2 ^ b - 1)).testBit i) =
      (List.range b).filter (fun i => x.testBit i) := by
    apply List.filter_congr
    intro i hi
    rw [List.mem_range] at hi
    rw [Nat.testBit_and, Nat.testBit_two_pow_sub_one, decide_eq_true hi,
      Bool.and_true]
  have h2 : (((List.range (64 - b)).map (b + ·)).filter
      (fun i => (x &&& (2 ^ b - 1)).testBit i)).length = 0 := by
    rw [List.length_eq_zero, List.filter_eq_nil]
    intro i hi
    rw [List.mem_map] at hi
    obtain ⟨j, hj, hij⟩ := hi
    intro hp
    rw [Nat.testBit_and, Nat.testBit_two_pow_sub_one] at hp
    rw [decide_eq_false (by omega), Bool.and_false] at hp
    exact absurd hp (by simp)
  rw [h1, h2, Nat.add_zero]

theorem bmBit_block (bm : List Nat) (b j : Nat) (hj : j < 64) :
    bmBit bm (b * 64 + j) = (bmGet bm b).testBit j := by
  rw [bmBit]
  have h1 : (b * 64 + j) / 64 = b := by omega
  have h2 : (b * 64 + j) % 64 = j := by omega
  rw [h1, h2]

theorem countLt_split (bm : List Nat) (b r : Nat) (hr : r ≤ 64) :
    countLt bm (b * 64 + r) = countLt bm (b * 64) + countBits (bmGet bm b) r := by
  rw [countLt, countLt, countBits, List.range_add, List.filter_append,
    List.length_append]
  congr 1
  rw [List.map_filter]
  rw [List.length_map]
  apply congrArg List.length
  apply List.filter_congr
  intro j hj
  rw [List.mem_range] at hj
  show bmBit bm (b * 64 + j) = (bmGet bm b).testBit j
  exact bmBit_block bm b j (by omega)

theorem countLt_blocks (bm : List Nat) :
    ∀ b, countLt bm (b * 64) =
      ((List.range b).map (fun i => popCount64 (bmGet bm i))).sum
  | 0 => by
    rw [countLt]
    rfl
  | b + 1 => by
    have h1 : (b + 1) * 64 = b * 64 + 64 := by ring
    rw [h1, countLt_split bm b 64 (Nat.le_refl _), countLt_blocks bm b,
      List.range_succ, List.map_append, List.sum_append]
    rfl

theorem rankOf_eq_countLt (bm : List Nat) (l : Nat) :
    rankOf bm l = countLt bm l := by
  rw [rankOf, Nat.one_shiftLeft,
    countBits_and_mask _ _ (Nat.le_of_lt (Nat.mod_lt _ (by omega)))]
  have h1 : l = l / 64 * 64 + l % 64 := by omega
  conv_rhs => rw [h1]
  rw [countLt_split bm (l / 64) (l % 64) (Nat.le_of_lt (Nat.mod_lt _ (by omega)))]
  rw [countLt_blocks]

theorem tz64_spec {x : Nat} (hx : x ≠ 0) (hx2 : x < 2 ^ 64) :
    tz64 x < 64 ∧ x.testBit (tz64 x) = true ∧
      ∀ j, j < tz64 x → x.testBit j = false := by
  have hex : ∃ i ∈ List.range 64, x.testBit i := by
    obtain ⟨i, hi⟩ := Nat.ne_zero_implies_bit_true hx
    have hi64 : i < 64 := by
      by_contra hge
      have hlt : x < 2 ^ i :=
        lt_of_lt_of_le hx2 (Nat.pow_le_pow_right (by omega) (by omega))
      rw [Nat.testBit_lt_two_pow hlt] at hi
      exact absurd hi (by simp)
    exact ⟨i, List.mem_range.mpr hi64, hi⟩
  have hlt : tz64 x < 64 := by
    have h2 := List.findIdx_lt_length_of_exists hex
    rw [List.length_range] at h2
    exact h2
  refine ⟨hlt, ?_, ?_⟩
  · have hw : (List.range 64).findIdx (fun i => x.testBit i) <
        (List.range 64).length := by
      rw [List.length_range]
      exact hlt
    have h2 := List.findIdx_get (w := hw)
    rw [List.get_range] at h2
    exact h2
  · intro j hj
    have h3 := List.not_of_lt_findIdx (show j <
      (List.range 64).findIdx (fun i => x.testBit i) from hj)
    rw [List.getElem_range] at h3
    simpa using h3

/-- The block loop of `findInsertionIndex` (`for b := block+1; b < 4; b++`),
over the explicit list of remaining block indices. -/
def fiiBlocks (bm : List Nat) (len : Nat) : List Nat → Nat
  | [] => len
  | b :: rest =>
    if bmGet bm b ≠ 0 then rankOf bm ((b * 64 + tz64 (bmGet bm b)) % 256)
    else fiiBlocks bm len rest

/-- Go `(n *Node[T]) findInsertionIndex(label)`. -/
def BN.findInsertionIndex {C : Type} (n : BN C) (label : Nat) : Nat :=
  if bmGet n.bitmap (label / 64) >>> (label % 64) ≠ 0 ∧
      label ≤ (label / 64 * 64 + label % 64 +
        tz64 (bmGet n.bitmap (label / 64) >>> (label % 64))) % 256 then
    rankOf n.bitmap ((label / 64 * 64 + label % 64 +
      tz64 (bmGet n.bitmap (label / 64) >>> (label % 64))) % 256)
  else fiiBlocks n.bitmap n.edges.length (List.range' (label / 64 + 1) (3 - label / 64))

/-- Go `(n *Node[T]) addEdge(label, child)`: the append-then-shift is an
insertion of `child` at the computed index. -/
def BN.addEdge {C : Type} (n : BN C) (label : Nat) (child : C) : BN C :=
  ⟨setBit n.bitmap label,
    n.edges.take (BN.findInsertionIndex n label) ++
      child :: n.edges.drop (BN.findInsertionIndex n label)⟩

/-- Go `(n *Node[T]) getEdge(label)` (bitmap version); `(-1, nil)` is `none`,
and the out-of-range child access that a broken bitmap would cause in Go is
also `none`. -/
def BN.getEdge {C : Type} (n : BN C) (label : Nat) : Option (Nat × C) :=
  if bitSet n.bitmap label then
    match n.edges.get? (rankOf n.bitmap label) with
    | some c => some (rankOf n.bitmap label, c)
    | none => none
  else none

/-- The block loop of the bitmap `getLowerBoundEdge`. -/
def glbBlocks {C : Type} (bm : List Nat) (edges : List C) :
    List Nat → Option (Nat × C)
  | [] => none
  | b :: rest =>
    if bmGet bm b ≠ 0 then
      match edges.get? (rankOf bm ((b * 64 + tz64 (bmGet bm b)) % 256)) with
      | some c => some (rankOf bm ((b * 64 + tz64 (bmGet bm b)) % 256), c)
      | none => none
    else glbBlocks bm edges rest

/-- Go `(n *Node[T]) getLowerBoundEdge(label)` (bitmap version). -/
def BN.getLowerBoundEdge {C : Type} (n : BN C) (label : Nat) : Option (Nat × C) :=
  if bmGet n.bitmap (label / 64) >>> (label % 64) ≠ 0 then
    match n.edges.get? (rankOf n.bitmap ((label / 64 * 64 + label % 64 +
        tz64 (bmGet n.bitmap (label / 64) >>> (label % 64))) % 256)) with
    | some c => some (rankOf n.bitmap ((label / 64 * 64 + label % 64 +
        tz64 (bmGet n.bitmap (label / 64) >>> (label % 64))) % 256), c)
    | none => none
  else glbBlocks n.bitmap n.edges (List.range' (label / 64 + 1) (3 - label / 64))

/-- Go `(n *Node[T]) delEdge(label)` (bitmap version): the copy-shift and
truncation remove the child at the rank. -/
def BN.delEdge {C : Type} (n : BN C) (label : Nat) : BN C :=
  if bitSet n.bitmap label then
    ⟨clearBit n.bitmap label, n.edges.eraseIdx (rankOf n.bitmap label)⟩
  else n

/-- Refinement invariant between the sorted `(label, child)` array of the
non-generic node and the bitmap-plus-compact-array of the generic node. -/
def InvBN {C : Type} (es : List (Nat × C)) (n : BN C) : Prop :=
  n.bitmap.length = 4 ∧ (∀ b ∈ n.bitmap, b < 2 ^ 64) ∧
  n.edges = es.map Prod.snd ∧ SL es ∧ (∀ lc ∈ es, (lc : Nat × C).1 < 256) ∧
  (∀ l, l < 256 → (bmBit n.bitmap l = true ↔ l ∈ es.map Prod.fst))

/-- Counting a nodup set of numbers two ways. -/
theorem count_range_filter (L : List Nat) (hnd : L.Nodup) (l : Nat) :
    ((List.range l).filter (fun i => decide (i ∈ L))).length =
      (L.filter (fun x => decide (x < l))).length := by
  have h1 : ((List.range l).filter (fun i => decide (i ∈ L))).Nodup :=
    (List.nodup_range l).filter _
  have h2 : (L.filter (fun x => decide (x < l))).Nodup := hnd.filter _
  rw [← List.toFinset_card_of_nodup h1, ← List.toFinset_card_of_nodup h2]
  congr 1
  ext x
  simp only [List.mem_toFinset, List.mem_filter, List.mem_range,
    decide_eq_true_eq]
  tauto

theorem InvBN_countLt {C : Type} {es : List (Nat × C)} {n : BN C}
    (hinv : InvBN es n) (l : Nat) (hl : l ≤ 256) :
    countLt n.bitmap l =
      ((es.map Prod.fst).filter (fun x => decide (x < l))).length := by
  obtain ⟨hlen, hwfb, hedges, hSL, hlab, hbit⟩ := hinv
  rw [countLt]
  rw [show (List.range l).filter (fun i => bmBit n.bitmap i) =
      (List.range l).filter (fun i => decide (i ∈ es.map Prod.fst)) from ?_]
  · exact count_range_filter (es.map Prod.fst) (SL_nodup hSL) l
  · apply List.filter_congr
    intro i hi
    rw [List.mem_range] at hi
    rcases hb : bmBit n.bitmap i with _ | _
    · symm
      rw [decide_eq_false_iff_not]
      intro hmem
      have := (hbit i (by omega)).mpr hmem
      rw [hb] at this
      exact absurd this (by simp)
    · symm
      rw [decide_eq_true_iff]
      exact (hbit i (by omega)).mp hb

theorem lowerBoundIdx_eq_count {C : Type} {es : List (Nat × C)} (hs : SL es)
    (l : Nat) :
    lowerBoundIdx es l =
      ((es.map Prod.fst).filter (fun x => decide (x < l))).length := by
  have hlen : (es.map Prod.fst).length = es.length := List.length_map _ _
  have hidxle := lowerBoundIdx_le es l
  conv_rhs =>
    rw [← List.take_append_drop (lowerBoundIdx es l) (es.map Prod.fst)]
  rw [List.filter_append, List.length_append]
  have h1 : ((es.map Prod.fst).take (lowerBoundIdx es l)).filter
      (fun x => decide (x < l)) = (es.map Prod.fst).take (lowerBoundIdx es l) := by
    rw [List.filter_eq_self]
    intro x hx
    obtain ⟨j, hj1, hj2, hget⟩ := mem_take_get? hx
    have hx2 : labelAt es j = x := by
      rw [labelAt_eq, hget]
      rfl
    rw [decide_eq_true_eq, ← hx2]
    exact lowerBoundIdx_lt_label hs l j hj1
  have h2 : ((es.map Prod.fst).drop (lowerBoundIdx es l)).filter
      (fun x => decide (x < l)) = [] := by
    rw [List.filter_eq_nil]
    intro x hx hp
    obtain ⟨j, hj1, hj2, hget⟩ := mem_drop_get? hx
    have hx2 : labelAt es j = x := by
      rw [labelAt_eq, hget]
      rfl
    rw [decide_eq_true_eq] at hp
    have hjlen : j < es.length := by omega
    have hidxlt : lowerBoundIdx es l < es.length := by omega
    have hge : l ≤ labelAt es j := by
      rcases Nat.eq_or_lt_of_le hj1 with heq | hlt
      · rw [← heq]
        exact lowerBoundIdx_ge_label es l hidxlt
      · have h5 := SL_labelAt_lt hs hlt hjlen
        have h6 := lowerBoundIdx_ge_label es l hidxlt
        omega
    rw [hx2] at hge
    omega
  rw [h1, h2, List.length_nil, Nat.add_zero, List.length_take]
  omega

theorem shiftRight_le (x n : Nat) : x >>> n ≤ x := by
  rw [Nat.shiftRight_eq_div_pow]
  exact Nat.div_le_self x (2 ^ n)

theorem curBlock_testBit (bm : List Nat) (l t : Nat) (ht : l % 64 + t < 64) :
    (bmGet bm (l / 64) >>> (l % 64)).testBit t = bmBit bm (l + t) := by
  rw [Nat.testBit_shiftRight, bmBit]
  have h1 : (l + t) / 64 = l / 64 := by omega
  have h2 : (l + t) % 64 = l % 64 + t := by omega
  rw [h1, h2]

theorem bmGet_eq_zero_of_bits {x : Nat} (hx : x < 2 ^ 64)
    (h : ∀ j, j < 64 → x.testBit j = false) : x = 0 := by
  apply Nat.eq_of_testBit_eq
  intro i
  rcases Nat.lt_or_ge i 64 with hi | hi
  · rw [h i hi, Nat.zero_testBit]
  · rw [Nat.testBit_lt_two_pow
      (lt_of_lt_of_le hx (Nat.pow_le_pow_right (by omega) hi)), Nat.zero_testBit]

theorem bmGet_block_zero {bm : List Nat} (hwfb : ∀ b ∈ bm, b < 2 ^ 64) {b : Nat}
    (hz : ∀ j, j < 64 → bmBit bm (b * 64 + j) = false) : bmGet bm b = 0 := by
  apply bmGet_eq_zero_of_bits (bmGet_lt hwfb b)
  intro j hj
  rw [← bmBit_block bm b j hj]
  exact hz j hj

theorem countLt_ext {bm : List Nat} {a b : Nat} (hab : a ≤ b)
    (h : ∀ g, a ≤ g → g < b → bmBit bm g = false) :
    countLt bm b = countLt bm a := by
  rw [countLt, countLt]
  have hr : List.range b = List.range a ++ (List.range (b - a)).map (a + ·) := by
    rw [← List.range_add]
    congr 1
    omega
  rw [hr, List.filter_append, List.length_append]
  have h2 : (((List.range (b - a)).map (a + ·)).filter
      (fun i => bmBit bm i)).length = 0 := by
    rw [List.length_eq_zero, List.filter_eq_nil]
    intro i hi hbit
    rw [List.mem_map] at hi
    obtain ⟨j, hj, hij⟩ := hi
    rw [List.mem_range] at hj
    rw [h i (by omega) (by omega)] at hbit
    exact absurd hbit (by simp)
  omega

/-- Either there is a least set bit `≥ l` below 256, or none at all. -/
theorem bn_lb_cases (bm : List Nat) (l : Nat) :
    (∃ fl, l ≤ fl ∧ fl < 256 ∧ bmBit bm fl = true ∧
      (∀ g, l ≤ g → g < fl → bmBit bm g = false)) ∨
    (∀ g, l ≤ g → g < 256 → bmBit bm g = false) := by
  by_cases hex : ∃ fl, l ≤ fl ∧ fl < 256 ∧ bmBit bm fl = true
  · left
    have hfl := Nat.find_spec hex
    refine ⟨Nat.find hex, hfl.1, hfl.2.1, hfl.2.2, ?_⟩
    intro g hg1 hg2
    have h3 := Nat.find_min hex hg2
    rcases hb : bmBit bm g with _ | _
    · rfl
    · exact absurd ⟨hg1, by omega, hb⟩ h3
  · right
    intro g hg1 hg2
    rcases hb : bmBit bm g with _ | _
    · rfl
    · exact absurd ⟨g, hg1, hg2, hb⟩ hex

theorem bn_curblock_found {bm : List Nat} (hwfb : ∀ b ∈ bm, b < 2 ^ 64)
    {l fl : Nat} (hl : l < 256) (hfl1 : l ≤ fl) (hfl2 : fl < 256)
    (hflbit : bmBit bm fl = true)
    (hleast : ∀ g, l ≤ g → g < fl → bmBit bm g = false)
    (hblk : fl / 64 = l / 64) :
    bmGet bm (l / 64) >>> (l % 64) ≠ 0 ∧
    (l / 64 * 64 + l % 64 + tz64 (bmGet bm (l / 64) >>> (l % 64))) % 256 = fl := by
  have hcb2 : bmGet bm (l / 64) >>> (l % 64) < 2 ^ 64 :=
    lt_of_le_of_lt (shiftRight_le _ _) (bmGet_lt hwfb _)
  have htlt : l % 64 + (fl - l) < 64 := by omega
  have hbit : (bmGet bm (l / 64) >>> (l % 64)).testBit (fl - l) = true := by
    rw [curBlock_testBit bm l (fl - l) htlt]
    have h4 : l + (fl - l) = fl := by omega
    rw [h4]
    exact hflbit
  have hne : bmGet bm (l / 64) >>> (l % 64) ≠ 0 := by
    intro h0
    rw [h0, Nat.zero_testBit] at hbit
    exact absurd hbit (by simp)
  refine ⟨hne, ?_⟩
  obtain ⟨htz1, htz2, htz3⟩ := tz64_spec hne hcb2
  have htzeq : tz64 (bmGet bm (l / 64) >>> (l % 64)) = fl - l := by
    rcases Nat.lt_trichotomy (tz64 (bmGet bm (l / 64) >>> (l % 64))) (fl - l)
      with h | h | h
    · exfalso
      have hb2 : bmBit bm (l + tz64 (bmGet bm (l / 64) >>> (l % 64))) = true := by
        rw [← curBlock_testBit bm l _ (by omega)]
        exact htz2
      have h5 := hleast (l + tz64 (bmGet bm (l / 64) >>> (l % 64)))
        (by omega) (by omega)
      rw [hb2] at h5
      exact absurd h5 (by simp)
    · exact h
    · exfalso
      have h5 := htz3 (fl - l) h
      rw [hbit] at h5
      exact absurd h5 (by simp)
  rw [htzeq]
  have h6 : l / 64 * 64 + l % 64 + (fl - l) = fl := by omega
  rw [h6, Nat.mod_eq_of_lt hfl2]

theorem bn_curblock_zero {bm : List Nat} (hwfb : ∀ b ∈ bm, b < 2 ^ 64)
    {l : Nat} (hl : l < 256)
    (hnone : ∀ g, l ≤ g → g < (l / 64 + 1) * 64 → bmBit bm g = false) :
    bmGet bm (l / 64) >>> (l % 64) = 0 := by
  apply bmGet_eq_zero_of_bits
    (lt_of_le_of_lt (shiftRight_le _ _) (bmGet_lt hwfb _))
  intro j hj
  by_cases hj2 : l % 64 + j < 64
  · rw [curBlock_testBit bm l j hj2]
    exact hnone (l + j) (by omega) (by omega)
  · rw [Nat.testBit_shiftRight]
    exact Nat.testBit_lt_two_pow
      (lt_of_lt_of_le (bmGet_lt hwfb _) (Nat.pow_le_pow_right (by omega) (by omega)))

theorem fiiBlocks_zero (bm : List Nat) (len : Nat) :
    ∀ bs : List Nat, (∀ b ∈ bs, bmGet bm b = 0) → fiiBlocks bm len bs = len
  | [], _ => rfl
  | b :: rest, h => by
    rw [fiiBlocks,
      if_neg (by rw [h b (List.mem_cons_self _ _)]; exact fun hc => hc rfl)]
    exact fiiBlocks_zero bm len rest
      (fun b2 hb2 => h b2 (List.mem_cons_of_mem _ hb2))

theorem fiiBlocks_found (bm : List Nat) (len : Nat) :
    ∀ (zs : List Nat) (b2 : Nat) (rest : List Nat),
      (∀ b ∈ zs, bmGet bm b = 0) → bmGet bm b2 ≠ 0 →
      fiiBlocks bm len (zs ++ b2 :: rest) =
        rankOf bm ((b2 * 64 + tz64 (bmGet bm b2)) % 256)
  | [], b2, rest, _, hnz => by
    rw [List.nil_append, fiiBlocks, if_pos hnz]
  | z :: zs, b2, rest, hz, hnz => by
    rw [List.cons_append, fiiBlocks,
      if_neg (by rw [hz z (List.mem_cons_self _ _)]; exact fun hc => hc rfl)]
    exact fiiBlocks_found bm len zs b2 rest
      (fun b3 hb3 => hz b3 (List.mem_cons_of_mem _ hb3)) hnz

theorem glbBlocks_zero {C : Type} (bm : List Nat) (edges : List C) :
    ∀ bs : List Nat, (∀ b ∈ bs, bmGet bm b = 0) → glbBlocks bm edges bs = none
  | [], _ => rfl
  | b :: rest, h => by
    rw [glbBlocks,
      if_neg (by rw [h b (List.mem_cons_self _ _)]; exact fun hc => hc rfl)]
    exact glbBlocks_zero bm edges rest
      (fun b2 hb2 => h b2 (List.mem_cons_of_mem _ hb2))

theorem glbBlocks_found {C : Type} (bm : List Nat) (edges : List C) :
    ∀ (zs : List Nat) (b2 : Nat) (rest : List Nat),
      (∀ b ∈ zs, bmGet bm b = 0) → bmGet bm b2 ≠ 0 →
      glbBlocks bm edges (zs ++ b2 :: rest) =
        (match edges.get? (rankOf bm ((b2 * 64 + tz64 (bmGet bm b2)) % 256)) with
         | some c => some (rankOf bm ((b2 * 64 + tz64 (bmGet bm b2)) % 256), c)
         | none => none)
  | [], b2, rest, _, hnz => by
    rw [List.nil_append, glbBlocks, if_pos hnz]
  | z :: zs, b2, rest, hz, hnz => by
    rw [List.cons_append, glbBlocks,
      if_neg (by rw [hz z (List.mem_cons_self _ _)]; exact fun hc => hc rfl)]
    exact glbBlocks_found bm edges zs b2 rest
      (fun b3 hb3 => hz b3 (List.mem_cons_of_mem _ hb3)) hnz

theorem range4_split (d b2 : Nat) (h1 : d ≤ b2) (h2 : b2 < 4) :
    List.range' d (4 - d) =
      List.range' d (b2 - d) ++ b2 :: List.range' (b2 + 1) (3 - b2) := by
  have h3 := List.range'_append d (b2 - d) (4 - b2) 1
  have h4 : d + 1 * (b2 - d) = b2 := by omega
  have h5 : (4 - b2) + (b2 - d) = 4 - d := by omega
  rw [h4, h5] at h3
  rw [← h3]
  congr 1
  have h6 : 4 - b2 = (3 - b2) + 1 := by omega
  rw [h6, List.range'_succ]

theorem tz64_block_least {bm : List Nat} (hwfb : ∀ b ∈ bm, b < 2 ^ 64)
    {l fl : Nat} (hfl2 : fl < 256) (hflbit : bmBit bm fl = true)
    (hleast : ∀ g, l ≤ g → g < fl → bmBit bm g = false)
    (hlow : l ≤ fl / 64 * 64) :
    bmGet bm (fl / 64) ≠ 0 ∧ tz64 (bmGet bm (fl / 64)) = fl % 64 := by
  have hbit : (bmGet bm (fl / 64)).testBit (fl % 64) = true := by
    rw [← bmBit_block bm (fl / 64) (fl % 64) (by omega)]
    have h4 : fl / 64 * 64 + fl % 64 = fl := by omega
    rw [h4]
    exact hflbit
  have hnz : bmGet bm (fl / 64) ≠ 0 := by
    intro h0
    rw [h0, Nat.zero_testBit] at hbit
    exact absurd hbit (by simp)
  refine ⟨hnz, ?_⟩
  obtain ⟨htz1, htz2, htz3⟩ := tz64_spec hnz (bmGet_lt hwfb _)
  rcases Nat.lt_trichotomy (tz64 (bmGet bm (fl / 64))) (fl % 64) with h | h | h
  · exfalso
    have hb2 : bmBit bm (fl / 64 * 64 + tz64 (bmGet bm (fl / 64))) = true := by
      rw [bmBit_block bm (fl / 64) _ (by omega)]
      exact htz2
    have h5 := hleast (fl / 64 * 64 + tz64 (bmGet bm (fl / 64)))
      (by omega) (by omega)
    rw [hb2] at h5
    exact absurd h5 (by simp)
  · exact h
  · exfalso
    have h5 := htz3 (fl % 64) h
    rw [hbit] at h5
    exact absurd h5 (by simp)

theorem getEdge_fst {C : Type} {es : List (Nat × C)} {label i : Nat} {c : C}
    (h : getEdge es label = some (i, c)) : i = lowerBoundIdx es label := by
  unfold getEdge at h
  split at h
  · split at h
    · injection h with h1
      injection h1 with hi hc
      rw [← hi]
      rfl
    · exact absurd h (by simp)
  · exact absurd h (by simp)

theorem getLowerBoundEdge_eq_lbi {C : Type} (es : List (Nat × C)) (label : Nat) :
    getLowerBoundEdge es label =
      match es.get? (lowerBoundIdx es label) with
      | some e => some (lowerBoundIdx es label, e.2)
      | none => none := rfl

/-- When the least set bit `≥ l` lies in a strictly later block: how the
block scan splits, the skipped blocks are zero, and the found block's
trailing-zero count recovers the bit. -/
theorem bn_later_block {bm : List Nat} (hwfb : ∀ b ∈ bm, b < 2 ^ 64)
    {l fl : Nat} (hl : l < 256) (hfl1 : l ≤ fl) (hfl2 : fl < 256)
    (hflbit : bmBit bm fl = true)
    (hleast : ∀ g, l ≤ g → g < fl → bmBit bm g = false)
    (hblkgt : l / 64 < fl / 64) :
    (List.range' (l / 64 + 1) (3 - l / 64) =
      List.range' (l / 64 + 1) (fl / 64 - (l / 64 + 1)) ++
        fl / 64 :: List.range' (fl / 64 + 1) (3 - fl / 64)) ∧
    (∀ b ∈ List.range' (l / 64 + 1) (fl / 64 - (l / 64 + 1)), bmGet bm b = 0) ∧
    bmGet bm (fl / 64) ≠ 0 ∧
    (fl / 64 * 64 + tz64 (bmGet bm (fl / 64))) % 256 = fl := by
  have hfl64 : fl / 64 < 4 := by omega
  have hsplit := range4_split (l / 64 + 1) (fl / 64) (by omega) hfl64
  have hlen4 : 4 - (l / 64 + 1) = 3 - l / 64 := by omega
  rw [hlen4] at hsplit
  refine ⟨hsplit, ?_, ?_⟩
  · intro b hb
    rw [List.mem_range'_1] at hb
    apply bmGet_block_zero hwfb
    intro j hj
    apply hleast (b * 64 + j) (by omega) (by omega)
  · obtain ⟨hnz, htz⟩ := tz64_block_least hwfb hfl2 hflbit hleast (by omega)
    refine ⟨hnz, ?_⟩
    rw [htz]
    have h6 : fl / 64 * 64 + fl % 64 = fl := by omega
    rw [h6, Nat.mod_eq_of_lt hfl2]

/-- `findInsertionIndex` computes the sorted-array lower-bound index. -/
theorem BN_fii_eq {C : Type} {es : List (Nat × C)} {n : BN C}
    (hinv : InvBN es n) {l : Nat} (hl : l < 256) :
    BN.findInsertionIndex n l = lowerBoundIdx es l := by
  obtain ⟨hlen, hwfb, hedges, hSL, hlab, hbit⟩ := hinv
  have hinv2 : InvBN es n := ⟨hlen, hwfb, hedges, hSL, hlab, hbit⟩
  rw [lowerBoundIdx_eq_count hSL, ← InvBN_countLt hinv2 l (by omega)]
  rcases bn_lb_cases n.bitmap l with ⟨fl, hfl1, hfl2, hflbit, hleast⟩ | hnone
  · have hcount : countLt n.bitmap fl = countLt n.bitmap l :=
      countLt_ext hfl1 hleast
    by_cases hblk : fl / 64 = l / 64
    · obtain ⟨hne, hfleq⟩ :=
        bn_curblock_found hwfb hl hfl1 hfl2 hflbit hleast hblk
      rw [BN.findInsertionIndex, if_pos ⟨hne, by rw [hfleq]; exact hfl1⟩, hfleq,
        rankOf_eq_countLt, hcount]
    · have h1 : l / 64 ≤ fl / 64 := Nat.div_le_div_right hfl1
      have hblkgt : l / 64 < fl / 64 := by omega
      have hcz : bmGet n.bitmap (l / 64) >>> (l % 64) = 0 :=
        bn_curblock_zero hwfb hl (fun g hg1 hg2 => hleast g hg1 (by omega))
      obtain ⟨hsplit, hzs, hnz, hfleq⟩ :=
        bn_later_block hwfb hl hfl1 hfl2 hflbit hleast hblkgt
      rw [BN.findInsertionIndex, if_neg (fun hc => hc.1 hcz), hsplit,
        fiiBlocks_found n.bitmap n.edges.length _ _ _ hzs hnz, hfleq,
        rankOf_eq_countLt, hcount]
  · have hcz : bmGet n.bitmap (l / 64) >>> (l % 64) = 0 :=
      bn_curblock_zero hwfb hl (fun g hg1 hg2 => hnone g hg1 (by omega))
    have hzs : ∀ b ∈ List.range' (l / 64 + 1) (3 - l / 64),
        bmGet n.bitmap b = 0 := by
      intro b hb
      rw [List.mem_range'_1] at hb
      apply bmGet_block_zero hwfb
      intro j hj
      apply hnone (b * 64 + j) (by omega) (by omega)
    rw [BN.findInsertionIndex, if_neg (fun hc => hc.1 hcz),
      fiiBlocks_zero n.bitmap n.edges.length _ hzs, hedges, List.length_map]
    have h256 : countLt n.bitmap 256 = countLt n.bitmap l :=
      countLt_ext (by omega) hnone
    rw [← h256, InvBN_countLt hinv2 256 (le_refl _)]
    have hfull : (es.map Prod.fst).filter (fun x => decide (x < 256)) =
        es.map Prod.fst := by
      rw [List.filter_eq_self]
      intro x hx
      rw [List.mem_map] at hx
      obtain ⟨lc, hlc, hxeq⟩ := hx
      rw [decide_eq_true_eq, ← hxeq]
      exact hlab lc hlc
    rw [hfull, List.length_map]

/-- Bitmap `getEdge` agrees with the sorted-array `getEdge`. -/
theorem BN_getEdge_eq {C : Type} {es : List (Nat × C)} {n : BN C}
    (hinv : InvBN es n) {l : Nat} (hl : l < 256) :
    BN.getEdge n l = getEdge es l := by
  obtain ⟨hlen, hwfb, hedges, hSL, hlab, hbit⟩ := hinv
  have hinv2 : InvBN es n := ⟨hlen, hwfb, hedges, hSL, hlab, hbit⟩
  have hrank : rankOf n.bitmap l = lowerBoundIdx es l := by
    rw [rankOf_eq_countLt, InvBN_countLt hinv2 l (by omega),
      ← lowerBoundIdx_eq_count hSL]
  by_cases hmem : l ∈ es.map Prod.fst
  · have hbs : bitSet n.bitmap l = true := by
      rw [bitSet_eq_bmBit]
      exact (hbit l hl).mpr hmem
    rcases hfl : findL es l with _ | c
    · exact absurd hmem (findL_eq_none.mp hfl)
    obtain ⟨i, hge⟩ := getEdge_of_findL hSL hfl
    have hidx := getEdge_fst hge
    have hes := getEdge_eq_some hge
    rw [BN.getEdge, if_pos hbs, hrank, hedges, List.get?_map, ← hidx, hes,
      Option.map_some', hge]
  · have hbs : bitSet n.bitmap l = false := by
      rw [bitSet_eq_bmBit]
      rcases hb : bmBit n.bitmap l with _ | _
      · rfl
      · exact absurd ((hbit l hl).mp hb) hmem
    rw [BN.getEdge, if_neg (by rw [hbs]; exact Bool.false_ne_true)]
    rcases hge : getEdge es l with _ | p
    · rfl
    · rcases p with ⟨i, c⟩
      have hes := getEdge_eq_some hge
      exfalso
      apply hmem
      rw [List.mem_map]
      exact ⟨(l, c), List.get?_mem hes, rfl⟩

/-- Bitmap `getLowerBoundEdge` agrees with the sorted-array one. -/
theorem BN_glb_eq {C : Type} {es : List (Nat × C)} {n : BN C}
    (hinv : InvBN es n) {l : Nat} (hl : l < 256) :
    BN.getLowerBoundEdge n l = getLowerBoundEdge es l := by
  obtain ⟨hlen, hwfb, hedges, hSL, hlab, hbit⟩ := hinv
  have hinv2 : InvBN es n := ⟨hlen, hwfb, hedges, hSL, hlab, hbit⟩
  have hget : ∀ k : Nat, n.edges.get? k = (es.get? k).map Prod.snd := by
    intro k
    rw [hedges, List.get?_map]
  rcases bn_lb_cases n.bitmap l with ⟨fl, hfl1, hfl2, hflbit, hleast⟩ | hnone
  · have hrank : rankOf n.bitmap fl = lowerBoundIdx es l := by
      rw [rankOf_eq_countLt, countLt_ext hfl1 hleast,
        InvBN_countLt hinv2 l (by omega), ← lowerBoundIdx_eq_count hSL]
    by_cases hblk : fl / 64 = l / 64
    · obtain ⟨hne, hfleq⟩ :=
        bn_curblock_found hwfb hl hfl1 hfl2 hflbit hleast hblk
      rw [BN.getLowerBoundEdge, if_pos hne, hfleq, hrank,
        getLowerBoundEdge_eq_lbi, hget]
      rcases hes : es.get? (lowerBoundIdx es l) with _ | e
      · rw [Option.map_none']
      · rw [Option.map_some']
    · have h1 : l / 64 ≤ fl / 64 := Nat.div_le_div_right hfl1
      have hblkgt : l / 64 < fl / 64 := by omega
      have hcz : bmGet n.bitmap (l / 64) >>> (l % 64) = 0 :=
        bn_curblock_zero hwfb hl (fun g hg1 hg2 => hleast g hg1 (by omega))
      obtain ⟨hsplit, hzs, hnz, hfleq⟩ :=
        bn_later_block hwfb hl hfl1 hfl2 hflbit hleast hblkgt
      rw [BN.getLowerBoundEdge, if_neg (fun hc => hc hcz), hsplit,
        glbBlocks_found n.bitmap n.edges _ _ _ hzs hnz, hfleq, hrank,
        getLowerBoundEdge_eq_lbi, hget]
      rcases hes : es.get? (lowerBoundIdx es l) with _ | e
      · rw [Option.map_none']
      · rw [Option.map_some']
  · have hcz : bmGet n.bitmap (l / 64) >>> (l % 64) = 0 :=
      bn_curblock_zero hwfb hl (fun g hg1 hg2 => hnone g hg1 (by omega))
    have hzs : ∀ b ∈ List.range' (l / 64 + 1) (3 - l / 64),
        bmGet n.bitmap b = 0 := by
      intro b hb
      rw [List.mem_range'_1] at hb
      apply bmGet_block_zero hwfb
      intro j hj
      apply hnone (b * 64 + j) (by omega) (by omega)
    have hlbi : lowerBoundIdx es l = es.length := by
      rw [lowerBoundIdx_eq_count hSL]
      have hfull : (es.map Prod.fst).filter (fun x => decide (x < l)) =
          es.map Prod.fst := by
        rw [List.filter_eq_self]
        intro x hx
        rw [List.mem_map] at hx
        obtain ⟨lc, hlc, hxeq⟩ := hx
        rw [decide_eq_true_eq]
        by_contra hge
        have hx256 : x < 256 := by
          rw [← hxeq]
          exact hlab lc hlc
        have hxbit := (hbit x hx256).mpr
          (by rw [List.mem_map]; exact ⟨lc, hlc, hxeq⟩)
        rw [hnone x (by omega) hx256] at hxbit
        exact absurd hxbit (by simp)
      rw [hfull, List.length_map]
    rw [BN.getLowerBoundEdge, if_neg (fun hc => hc hcz),
      glbBlocks_zero n.bitmap n.edges _ hzs, getLowerBoundEdge_eq_lbi, hlbi,
      List.get?_eq_none.mpr (le_refl _)]

/-- On a sorted list, `insertEdge` is insertion at the count of smaller
labels. -/
theorem insertEdge_split {C : Type} :
    ∀ es : List (Nat × C), SL es → ∀ (a : Nat) (c : C),
      insertEdge (a, c) es =
        es.take (((es.map Prod.fst).filter (fun x => decide (x < a))).length)
          ++ (a, c) ::
            es.drop (((es.map Prod.fst).filter (fun x => decide (x < a))).length)
  | [], _, a, c => rfl
  | f :: fs, hs, a, c => by
    have hpw := SL_pairwise hs
    rw [List.map_cons, List.pairwise_cons] at hpw
    have hs2 : SL fs := by
      have h0 : List.Chain' (· < ·) (f.1 :: fs.map Prod.fst) := hs
      exact (List.chain'_cons'.mp h0).2
    by_cases hle : a ≤ f.1
    · have hnil : ((f :: fs).map Prod.fst).filter (fun x => decide (x < a)) =
          [] := by
        rw [List.filter_eq_nil_iff]
        intro x hx
        rw [List.map_cons, List.mem_cons] at hx
        simp only [decide_eq_true_eq]
        rcases hx with rfl | hx
        · omega
        · have := hpw.1 x hx
          omega
      rw [hnil, List.length_nil, List.take_zero, List.drop_zero]
      show (if (a, c).1 ≤ f.1 then (a, c) :: f :: fs
        else f :: insertEdge (a, c) fs) = (a, c) :: f :: fs
      rw [if_pos hle]
    · have hcons : ((f :: fs).map Prod.fst).filter (fun x => decide (x < a)) =
          f.1 :: (fs.map Prod.fst).filter (fun x => decide (x < a)) := by
        rw [List.map_cons, List.filter_cons,
          if_pos (by simp only [decide_eq_true_eq]; omega)]
      rw [hcons, List.length_cons]
      show (if (a, c).1 ≤ f.1 then (a, c) :: f :: fs
        else f :: insertEdge (a, c) fs) = _
      rw [if_neg hle, insertEdge_split fs hs2 a c]
      rfl

theorem map_eraseIdx {α β : Type} (f : α → β) :
    ∀ (xs : List α) (i : Nat), (xs.eraseIdx i).map f = (xs.map f).eraseIdx i
  | [], i => by cases i <;> rfl
  | x :: xs, 0 => rfl
  | x :: xs, i + 1 => by
    show f x :: (xs.eraseIdx i).map f = f x :: (xs.map f).eraseIdx i
    rw [map_eraseIdx f xs i]

theorem SL_eraseIdx {C : Type} {es : List (Nat × C)} (hs : SL es) (i : Nat) :
    SL (es.eraseIdx i) := by
  show List.Chain' (· < ·) ((es.eraseIdx i).map Prod.fst)
  rw [map_eraseIdx]
  apply List.chain'_iff_pairwise.mpr
  exact List.Pairwise.sublist (List.eraseIdx_sublist _ _) (SL_pairwise hs)

/-- Removing the element at the index of `l` from a nodup list removes
exactly the occurrence of `l`. -/
theorem mem_eraseIdx_nodup {L : List Nat} (hnd : L.Nodup) {i l : Nat}
    (hget : L.get? i = some l) (x : Nat) :
    x ∈ L.eraseIdx i ↔ (x ∈ L ∧ x ≠ l) := by
  have hi : i < L.length := by
    by_contra hge
    rw [List.get?_eq_none.mpr (by omega)] at hget
    exact absurd hget (by simp)
  have hdrop : L.drop i = l :: L.drop (i + 1) := by
    rw [List.drop_eq_getElem_cons hi]
    congr 1
    rw [List.get?_eq_some] at hget
    obtain ⟨h1, h2⟩ := hget
    rw [← h2]
    rfl
  have hL : L = L.take i ++ l :: L.drop (i + 1) := by
    conv_lhs => rw [← List.take_append_drop i L]
    rw [hdrop]
  have her : L.eraseIdx i = L.take i ++ L.drop (i + 1) :=
    List.eraseIdx_eq_take_drop_succ L i
  have hndd : l ∉ L.take i ∧ l ∉ L.drop (i + 1) := by
    rw [hL, List.nodup_append] at hnd
    obtain ⟨h1, h2, h3⟩ := hnd
    refine ⟨?_, (List.nodup_cons.mp h2).1⟩
    intro hmem
    exact h3 hmem (List.mem_cons_self _ _)
  rw [her]
  constructor
  · intro hx
    rw [List.mem_append] at hx
    refine ⟨?_, ?_⟩
    · rw [hL, List.mem_append, List.mem_cons]
      tauto
    · intro hxl
      subst hxl
      tauto
  · rintro ⟨hx1, hx2⟩
    rw [hL, List.mem_append, List.mem_cons] at hx1
    rw [List.mem_append]
    tauto

/-- `addEdge` preserves the refinement invariant for a fresh byte label. -/
theorem InvBN_addEdge {C : Type} {es : List (Nat × C)} {n : BN C}
    (hinv : InvBN es n) {l : Nat} (c : C) (hl : l < 256)
    (habs : l ∉ es.map Prod.fst) :
    InvBN (insertEdge (l, c) es) (BN.addEdge n l c) := by
  obtain ⟨hlen, hwfb, hedges, hSL, hlab, hbit⟩ := hinv
  have hinv2 : InvBN es n := ⟨hlen, hwfb, hedges, hSL, hlab, hbit⟩
  have hfii : BN.findInsertionIndex n l = lowerBoundIdx es l :=
    BN_fii_eq hinv2 hl
  have hK : lowerBoundIdx es l =
      ((es.map Prod.fst).filter (fun x => decide (x < l))).length :=
    lowerBoundIdx_eq_count hSL l
  have hsplitE := insertEdge_split es hSL l c
  refine ⟨?_, ?_, ?_, ?_, ?_, ?_⟩
  · show (setBit n.bitmap l).length = 4
    rw [setBit, List.length_set, hlen]
  · intro b hb
    have hb' : b ∈ n.bitmap.set (l / 64)
        (bmGet n.bitmap (l / 64) ||| (1 <<< (l % 64))) := hb
    rcases List.mem_or_eq_of_mem_set hb' with h | h
    · exact hwfb b h
    · subst h
      apply Nat.or_lt_two_pow (bmGet_lt hwfb _)
      rw [Nat.one_shiftLeft]
      exact Nat.pow_lt_pow_right (by omega) (by omega)
  · show n.edges.take (BN.findInsertionIndex n l) ++
        c :: n.edges.drop (BN.findInsertionIndex n l) =
      (insertEdge (l, c) es).map Prod.snd
    rw [hsplitE, List.map_append, List.map_take, List.map_cons, List.map_drop,
      hedges, hfii, hK]
  · exact SL_insertEdge (l, c) es hSL habs
  · intro lc hlc
    rcases mem_insertEdge.mp hlc with h | h
    · rw [h]
      exact hl
    · exact hlab lc h
  · intro x hx256
    show bmBit (setBit n.bitmap l) x = true ↔ _
    rw [bmBit_setBit hlen l x hl hx256, mem_map_fst_insertEdge (l, c) es x,
      Bool.or_eq_true, decide_eq_true_eq, hbit x hx256]
    constructor
    · rintro (h | h)
      · left
        exact h.symm
      · right
        exact h
    · rintro (h | h)
      · left
        exact h.symm
      · right
        exact h

/-- `delEdge` preserves the refinement invariant. -/
theorem InvBN_delEdge {C : Type} {es : List (Nat × C)} {n : BN C}
    (hinv : InvBN es n) {l : Nat} (hl : l < 256) :
    InvBN (delEdge es l) (BN.delEdge n l) := by
  obtain ⟨hlen, hwfb, hedges, hSL, hlab, hbit⟩ := hinv
  have hinv2 : InvBN es n := ⟨hlen, hwfb, hedges, hSL, hlab, hbit⟩
  by_cases hmem : l ∈ es.map Prod.fst
  · have hbs : bitSet n.bitmap l = true := by
      rw [bitSet_eq_bmBit]
      exact (hbit l hl).mpr hmem
    rcases hfl : findL es l with _ | c
    · exact absurd hmem (findL_eq_none.mp hfl)
    obtain ⟨i, hge⟩ := getEdge_of_findL hSL hfl
    have hidx := getEdge_fst hge
    have hes := getEdge_eq_some hge
    have hrank : rankOf n.bitmap l = i := by
      rw [rankOf_eq_countLt, InvBN_countLt hinv2 l (by omega),
        ← lowerBoundIdx_eq_count hSL, ← hidx]
    have h1 : delEdge es l = es.eraseIdx i := by
      unfold delEdge
      rw [hge]
    have h2 : BN.delEdge n l =
        ⟨clearBit n.bitmap l, n.edges.eraseIdx i⟩ := by
      unfold BN.delEdge
      rw [if_pos hbs, hrank]
    rw [h1, h2]
    have hLget : (es.map Prod.fst).get? i = some l := by
      rw [List.get?_map, hes]
      rfl
    refine ⟨?_, ?_, ?_, ?_, ?_, ?_⟩
    · show (clearBit n.bitmap l).length = 4
      rw [clearBit, List.length_set, hlen]
    · intro b hb
      have hb' : b ∈ n.bitmap.set (l / 64) (bmGet n.bitmap (l / 64) &&&
          ((2 ^ 64 - 1) ^^^ (1 <<< (l % 64)))) := hb
      rcases List.mem_or_eq_of_mem_set hb' with h | h
      · exact hwfb b h
      · subst h
        exact lt_of_le_of_lt Nat.and_le_left (bmGet_lt hwfb _)
    · show n.edges.eraseIdx i = (es.eraseIdx i).map Prod.snd
      rw [hedges, map_eraseIdx]
    · exact SL_eraseIdx hSL i
    · intro lc hlc
      exact hlab lc ((List.eraseIdx_sublist es i).subset hlc)
    · intro x hx256
      show bmBit (clearBit n.bitmap l) x = true ↔ _
      rw [bmBit_clearBit hlen l x hl hx256, map_eraseIdx,
        mem_eraseIdx_nodup (SL_nodup hSL) hLget x, Bool.and_eq_true,
        Bool.not_eq_true', decide_eq_false_iff_not, hbit x hx256]
      constructor
      · rintro ⟨h1, h2⟩
        exact ⟨h2, fun hc => h1 hc.symm⟩
      · rintro ⟨h1, h2⟩
        exact ⟨fun hc => h2 hc.symm, h1⟩
  · have hbs : bitSet n.bitmap l = false := by
      rw [bitSet_eq_bmBit]
      rcases hb : bmBit n.bitmap l with _ | _
      · rfl
      · exact absurd ((hbit l hl).mp hb) hmem
    have hgen : getEdge es l = none := by
      rcases hge : getEdge es l with _ | p
      · rfl
      · rcases p with ⟨i, c⟩
        exact absurd (by
          rw [List.mem_map]
          exact ⟨(l, c), List.get?_mem (getEdge_eq_some hge), rfl⟩) hmem
    have h1 : delEdge es l = es := by
      unfold delEdge
      rw [hgen]
    have h2 : BN.delEdge n l = n := by
      unfold BN.delEdge
      rw [if_neg (by rw [hbs]; exact Bool.false_ne_true)]
    rw [h1, h2]
    exact hinv2

/-- An edge-level operation on a node. -/
inductive EOp (C : Type) where
  | add (label : Nat) (child : C)
  | del (label : Nat)

/-- Apply one operation to the sorted-array node. -/
def applyA {C : Type} (es : List (Nat × C)) : EOp C → List (Nat × C)
  | .add l c => insertEdge (l, c) es
  | .del l => delEdge es l

/-- Apply one operation to the bitmap node. -/
def applyB {C : Type} (n : BN C) : EOp C → BN C
  | .add l c => BN.addEdge n l c
  | .del l => BN.delEdge n l

/-- Legality of an operation sequence against the array state: every label
is a byte, and an added label is not already present (the Go callers add an
edge only after `getEdge` reported it missing). -/
def legalOps {C : Type} : List (Nat × C) → List (EOp C) → Prop
  | _, [] => True
  | es, op :: rest =>
    (match op with
     | .add l _ => l < 256 ∧ l ∉ es.map Prod.fst
     | .del l => l < 256) ∧ legalOps (applyA es op) rest

/-- The zero value of the bitmap node: all-zero bitmap, no children. -/
def BN.empty (C : Type) : BN C := ⟨[0, 0, 0, 0], []⟩

theorem bmGet_empty (b : Nat) : bmGet [0, 0, 0, 0] b = 0 := by
  rw [bmGet]
  rcases b with _ | _ | _ | _ | b5
  · rfl
  · rfl
  · rfl
  · rfl
  · rfl

theorem InvBN_empty (C : Type) : InvBN ([] : List (Nat × C)) (BN.empty C) := by
  refine ⟨rfl, ?_, rfl, ?_, ?_, ?_⟩
  · intro b hb
    have hb0 : b = 0 := by simpa [BN.empty] using hb
    subst hb0
    exact Nat.pos_pow_of_pos 64 (by omega)
  · show List.Chain' (· < ·) ([] : List Nat)
    exact List.chain'_nil
  · intro lc hlc
    exact absurd hlc (List.not_mem_nil lc)
  · intro x hx
    show bmBit [0, 0, 0, 0] x = true ↔ _
    rw [bmBit, bmGet_empty, Nat.zero_testBit]
    constructor
    · intro h
      exact absurd h (by simp)
    · intro h
      exact absurd h (by simp)

/-- The invariant is preserved along any legal operation sequence. -/
theorem InvBN_ops {C : Type} :
    ∀ (ops : List (EOp C)) (es : List (Nat × C)) (n : BN C),
      InvBN es n → legalOps es ops →
      InvBN (ops.foldl applyA es) (ops.foldl applyB n)
  | [], _, _, hinv, _ => hinv
  | op :: rest, es, n, hinv, hlegal => by
    rcases op with ⟨l, c⟩ | ⟨l⟩
    · obtain ⟨⟨hl, habs⟩, hrest⟩ := hlegal
      exact InvBN_ops rest _ _ (InvBN_addEdge hinv c hl habs) hrest
    · obtain ⟨hl, hrest⟩ := hlegal
      exact InvBN_ops rest _ _ (InvBN_delEdge hinv hl) hrest

/-- Semantics of the sorted-array lower-bound search, `none` case: every
stored label is `< l`. -/
theorem glb_none_sem {C : Type} {es : List (Nat × C)} (hs : SL es) {l : Nat}
    (h : getLowerBoundEdge es l = none) : ∀ lc ∈ es, (lc : Nat × C).1 < l := by
  rw [getLowerBoundEdge_eq_lbi] at h
  rcases hes : es.get? (lowerBoundIdx es l) with _ | e
  · intro lc hlc
    obtain ⟨j, hj⟩ := List.get?_of_mem hlc
    have hjlen : j < es.length := by
      rw [List.get?_eq_some] at hj
      exact hj.1
    have hKlen : es.length ≤ lowerBoundIdx es l := by
      rw [← List.get?_eq_none]
      exact hes
    have hlab : labelAt es j = lc.1 := by
      rw [labelAt_eq, List.get?_map, hj]
      rfl
    rw [← hlab]
    exact lowerBoundIdx_lt_label hs l j (by omega)
  · rw [hes] at h
    exact absurd h (by simp)

/-- Semantics of the sorted-array lower-bound search, `some` case: the hit
is stored at the returned index, its label is `≥ l`, and it is the least
stored label `≥ l`. -/
theorem glb_some_sem {C : Type} {es : List (Nat × C)} (hs : SL es)
    {l i : Nat} {c : C} (h : getLowerBoundEdge es l = some (i, c)) :
    es.get? i = some (labelAt es i, c) ∧ l ≤ labelAt es i ∧
      ∀ lc ∈ es, l ≤ (lc : Nat × C).1 → labelAt es i ≤ lc.1 := by
  rw [getLowerBoundEdge_eq_lbi] at h
  rcases hes : es.get? (lowerBoundIdx es l) with _ | e
  · rw [hes] at h
    exact absurd h (by simp)
  · rw [hes] at h
    have h2 : some (lowerBoundIdx es l, e.2) = some (i, c) := h
    have h1 : (lowerBoundIdx es l, e.2) = (i, c) := Option.some.inj h2
    have hK : lowerBoundIdx es l = i := congrArg Prod.fst h1
    have hc : e.2 = c := congrArg Prod.snd h1
    have hKlen : lowerBoundIdx es l < es.length := by
      rw [List.get?_eq_some] at hes
      exact hes.1
    have hlabK : labelAt es (lowerBoundIdx es l) = e.1 := by
      rw [labelAt_eq, List.get?_map, hes]
      rfl
    refine ⟨?_, ?_, ?_⟩
    · rw [← hK, hes, ← hc, hlabK]
    · rw [← hK, hlabK, ← hlabK]
      exact lowerBoundIdx_ge_label es l hKlen
    · intro lc hlc hge
      obtain ⟨j, hj⟩ := List.get?_of_mem hlc
      have hjlen : j < es.length := by
        rw [List.get?_eq_some] at hj
        exact hj.1
      have hlabj : labelAt es j = lc.1 := by
        rw [labelAt_eq, List.get?_map, hj]
        rfl
      rw [← hK, ← hlabj]
      rcases Nat.lt_or_ge j (lowerBoundIdx es l) with hlt | hge2
      · exfalso
        have := lowerBoundIdx_lt_label hs l j hlt
        omega
      · rcases Nat.eq_or_lt_of_le hge2 with heq | hlt
        · rw [heq]
        · exact Nat.le_of_lt (SL_labelAt_lt hs hlt hjlen)

/-- **C9**: Child-index refinement. For every node state reachable from the
empty node by a legal sequence of edge additions (fresh byte labels) and
deletions, the bitmap-plus-compact-array node (`BN.addEdge` / `BN.getEdge` /
`BN.getLowerBoundEdge` / `BN.delEdge` over the 256-bit bitmap with rank) and
the sorted-array node with binary search hold the same label-to-child
mapping in the same ascending label order, `getEdge l` returns exactly the
child stored with label `l` (or reports absence exactly when none is
stored), and `getLowerBoundEdge l` returns the child with the smallest
stored label `≥ l` (or reports absence exactly when all stored labels are
`< l`). -/
theorem claim_C9 {C : Type} (ops : List (EOp C))
    (hlegal : legalOps [] ops) :
    (ops.foldl applyB (BN.empty C)).edges =
        (ops.foldl applyA []).map Prod.snd ∧
    SL (ops.foldl applyA []) ∧
    ∀ l, l < 256 →
      (BN.getEdge (ops.foldl applyB (BN.empty C)) l =
        getEdge (ops.foldl applyA []) l) ∧
      (BN.getLowerBoundEdge (ops.foldl applyB (BN.empty C)) l =
        getLowerBoundEdge (ops.foldl applyA []) l) ∧
      (∀ i c, BN.getEdge (ops.foldl applyB (BN.empty C)) l = some (i, c) →
        (ops.foldl applyA []).get? i = some (l, c)) ∧
      (BN.getEdge (ops.foldl applyB (BN.empty C)) l = none →
        l ∉ (ops.foldl applyA []).map Prod.fst) ∧
      (∀ i c,
        BN.getLowerBoundEdge (ops.foldl applyB (BN.empty C)) l =
            some (i, c) →
          (ops.foldl applyA []).get? i =
              some (labelAt (ops.foldl applyA []) i, c) ∧
            l ≤ labelAt (ops.foldl applyA []) i ∧
            ∀ lc ∈ ops.foldl applyA ([] : List (Nat × C)),
              l ≤ lc.1 → labelAt (ops.foldl applyA []) i ≤ lc.1) ∧
      (BN.getLowerBoundEdge (ops.foldl applyB (BN.empty C)) l = none →
        ∀ lc ∈ ops.foldl applyA ([] : List (Nat × C)), lc.1 < l) := by
  have hinv := InvBN_ops ops [] (BN.empty C) (InvBN_empty C) hlegal
  have hSL : SL (ops.foldl applyA []) := hinv.2.2.2.1
  refine ⟨hinv.2.2.1, hSL, ?_⟩
  intro l hl
  have hge := BN_getEdge_eq hinv hl
  have hglb := BN_glb_eq hinv hl
  refine ⟨hge, hglb, ?_, ?_, ?_, ?_⟩
  · intro i c h
    rw [hge] at h
    exact getEdge_eq_some h
  · intro h hmem
    rw [hge] at h
    rcases hfl : findL (ops.foldl applyA []) l with _ | c
    · exact (findL_eq_none.mp hfl) hmem
    · obtain ⟨i, hge2⟩ := getEdge_of_findL hSL hfl
      rw [h] at hge2
      exact Option.noConfusion hge2
  · intro i c h
    rw [hglb] at h
    exact glb_some_sem hSL h
  · intro h
    rw [hglb] at h
    exact glb_none_sem hSL h

/-- A concrete legal operation sequence: add labels 97, 98, 120, then
delete 98. -/
def exOps : List (EOp Nat) :=
  [EOp.add 97 10, EOp.add 98 20, EOp.add 120 30, EOp.del 98]

theorem exOps_legal : legalOps ([] : List (Nat × Nat)) exOps :=
  ⟨⟨by decide, by decide⟩, ⟨by decide, by decide⟩, ⟨by decide, by decide⟩,
    by decide, trivial⟩

/-- Concrete instantiation of C9 on `exOps`: the representations agree and
the lookups coincide, checked at label 98 (deleted) among others. -/
theorem claim_C9_witness :
    legalOps ([] : List (Nat × Nat)) exOps ∧
    ((exOps.foldl applyB (BN.empty Nat)).edges =
      (exOps.foldl applyA []).map Prod.snd) ∧
    (BN.getEdge (exOps.foldl applyB (BN.empty Nat)) 98 =
      getEdge (exOps.foldl applyA []) 98) ∧
    (BN.getLowerBoundEdge (exOps.foldl applyB (BN.empty Nat)) 98 =
      getLowerBoundEdge (exOps.foldl applyA []) 98) ∧
    BN.getEdge (exOps.foldl applyB (BN.empty Nat)) 97 = some (0, 10) ∧
    BN.getEdge (exOps.foldl applyB (BN.empty Nat)) 98 = none ∧
    BN.getLowerBoundEdge (exOps.foldl applyB (BN.empty Nat)) 98 =
      some (1, 30) :=
  ⟨exOps_legal, (claim_C9 exOps exOps_legal).1,
    ((claim_C9 exOps exOps_legal).2.2 98 (by decide)).1,
    ((claim_C9 exOps exOps_legal).2.2 98 (by decide)).2.1,
    by decide, by decide, by decide⟩

/-- A heap node for claim C1: like `PNode` but with children as heap
addresses, modelling Go's `*node` graph with aliasing. -/
structure HNode (V : Type) where
  leaf : Option (List Nat × V)
  pfx : List Nat
  edges : List (Nat × Nat)

/-- Dereference an address in the store (the zero node for out-of-range
reads, which the traversed trees never perform). -/
def readN {V : Type} (st : List (HNode V)) (a : Nat) : HNode V :=
  (st.get? a).getD ⟨none, [], []⟩

/-- In-place mutation of the node at address `a`. -/
def setN {V : Type} (st : List (HNode V)) (a : Nat) (hn : HNode V) :
    List (HNode V) :=
  st.set a hn

/-- Allocate a fresh node, returning its address. -/
def allocN {V : Type} (st : List (HNode V)) (hn : HNode V) :
    Nat × List (HNode V) :=
  (st.length, st ++ [hn])

/-- The mutable state of a Go `Txn`: the heap and the set of node addresses
created (hence freely mutable in place) during this transaction. -/
structure HTxn (V : Type) where
  store : List (HNode V)
  modified : List Nat

/-- Go `(t *Txn) writeNode(n)`: a node already created by this transaction
is reused in place; any other node is copied to a fresh address and the
copy recorded as modified. -/
def writeNode {V : Type} (t : HTxn V) (a : Nat) : Nat × HTxn V :=
  if a ∈ t.modified then (a, t)
  else
    (t.store.length,
      ⟨t.store ++ [readN t.store a], t.store.length :: t.modified⟩)

/-- Go `nc.edges[idx].node = newChild` on a node's edge array. -/
def setEdgeAt {C : Type} (es : List (Nat × C)) (idx : Nat) (c : C) :
    List (Nat × C) :=
  match es.get? idx with
  | some e => es.set idx (e.1, c)
  | none => es

/-- Go `(n *node) mergeChild()` as a store operation at address `a`
(callers guarantee exactly one edge; no edge would panic in Go and is
rendered as the identity). -/
def mergeChildH {V : Type} (st : List (HNode V)) (a : Nat) : List (HNode V) :=
  match (readN st a).edges.head? with
  | some e =>
    setN st a ⟨(readN st e.2).leaf, (readN st a).pfx ++ (readN st e.2).pfx,
      (readN st e.2).edges⟩
  | none => st

/-- Go `(t *Txn) insert(n, k, search, v)` on the heap, fuel-structural:
returns (replacement address, old value, did-update, transaction state),
performing exactly the allocations and in-place writes of the source. -/
def insertH {V : Type} :
    Nat → HTxn V → Nat → List Nat → List Nat → V →
      Option Nat × Option V × Bool × HTxn V
  | 0, t, _, _, _, _ => (none, none, false, t)
  | fuel + 1, t, a, k, search, v =>
    match search with
    | [] =>
      let w := writeNode t a
      match (readN t.store a).leaf with
      | some lf =>
        (some w.1, some lf.2, true,
          ⟨setN w.2.store w.1
            ⟨some (lf.1, v), (readN w.2.store w.1).pfx,
              (readN w.2.store w.1).edges⟩, w.2.modified⟩)
      | none =>
        (some w.1, none, false,
          ⟨setN w.2.store w.1
            ⟨some (k, v), (readN w.2.store w.1).pfx,
              (readN w.2.store w.1).edges⟩, w.2.modified⟩)
    | s0 :: _ =>
      match getEdge (readN t.store a).edges s0 with
      | none =>
        let al := allocN t.store ⟨some (k, v), search, []⟩
        let w := writeNode ⟨al.2, t.modified⟩ a
        (some w.1, none, false,
          ⟨setN w.2.store w.1
            ⟨(readN w.2.store w.1).leaf, (readN w.2.store w.1).pfx,
              insertEdge (s0, al.1) (readN w.2.store w.1).edges⟩,
            w.2.modified⟩)
      | some (idx, ca) =>
        let cp := commonPfxLen search (readN t.store ca).pfx
        if cp = (readN t.store ca).pfx.length then
          let r := insertH fuel t ca k (search.drop cp) v
          match r.1 with
          | some newChild =>
            let w := writeNode r.2.2.2 a
            (some w.1, r.2.1, r.2.2.1,
              ⟨setN w.2.store w.1
                ⟨(readN w.2.store w.1).leaf, (readN w.2.store w.1).pfx,
                  setEdgeAt (readN w.2.store w.1).edges idx newChild⟩,
                w.2.modified⟩)
          | none => (none, r.2.1, r.2.2.1, r.2.2.2)
        else
          let w := writeNode t a
          let al := allocN w.2.store ⟨none, search.take cp, []⟩
          let st3 := setN al.2 w.1
            ⟨(readN al.2 w.1).leaf, (readN al.2 w.1).pfx,
              replaceEdge (readN al.2 w.1).edges s0 al.1⟩
          let w2 := writeNode ⟨st3, w.2.modified⟩ ca
          let st5 := setN w2.2.store al.1
            ⟨(readN w2.2.store al.1).leaf, (readN w2.2.store al.1).pfx,
              insertEdge ((readN w2.2.store w2.1).pfx.getD cp 0, w2.1)
                (readN w2.2.store al.1).edges⟩
          let st6 := setN st5 w2.1
            ⟨(readN st5 w2.1).leaf, (readN st5 w2.1).pfx.drop cp,
              (readN st5 w2.1).edges⟩
          match search.drop cp with
          | [] =>
            (some w.1, none, false,
              ⟨setN st6 al.1
                ⟨some (k, v), (readN st6 al.1).pfx, (readN st6 al.1).edges⟩,
                w2.2.modified⟩)
          | r0 :: _ =>
            let al2 := allocN st6 ⟨some (k, v), search.drop cp, []⟩
            (some w.1, none, false,
              ⟨setN al2.2 al.1
                ⟨(readN al2.2 al.1).leaf, (readN al2.2 al.1).pfx,
                  insertEdge (r0, al2.1) (readN al2.2 al.1).edges⟩,
                w2.2.modified⟩)

/-- Go `(t *Txn) delete(parent, n, search)` on the heap: `ra` is the
transaction root address (rendering the `n != t.root` pointer
comparison). -/
def deleteH {V : Type} :
    Nat → HTxn V → Nat → Nat → List Nat →
      Option Nat × Option (List Nat × V) × HTxn V
  | 0, t, _, _, _ => (none, none, t)
  | fuel + 1, t, ra, a, search =>
    match search with
    | [] =>
      match (readN t.store a).leaf with
      | none => (none, none, t)
      | some _ =>
        let w := writeNode t a
        let st2 := setN w.2.store w.1
          ⟨none, (readN w.2.store w.1).pfx, (readN w.2.store w.1).edges⟩
        let st3 :=
          if a ≠ ra ∧ (readN w.2.store w.1).edges.length = 1 then
            mergeChildH st2 w.1
          else st2
        (some w.1, (readN st3 a).leaf, ⟨st3, w.2.modified⟩)
    | s0 :: _ =>
      match getEdge (readN t.store a).edges s0 with
      | none => (none, none, t)
      | some (idx, ca) =>
        if (readN t.store ca).pfx.isPrefixOf search then
          let r := deleteH fuel t ra ca (search.drop (readN t.store ca).pfx.length)
          match r.1 with
          | none => (none, none, r.2.2)
          | some newChild =>
            let w := writeNode r.2.2 a
            if (readN w.2.store newChild).leaf.isNone &&
                (readN w.2.store newChild).edges.isEmpty then
              let st3 := setN w.2.store w.1
                ⟨(readN w.2.store w.1).leaf, (readN w.2.store w.1).pfx,
                  delEdge (readN w.2.store w.1).edges s0⟩
              let st4 :=
                if a ≠ ra ∧ (readN st3 w.1).edges.length = 1 ∧
                    (readN st3 w.1).leaf.isNone = true then
                  mergeChildH st3 w.1
                else st3
              (some w.1, r.2.1, ⟨st4, w.2.modified⟩)
            else
              (some w.1, r.2.1,
                ⟨setN w.2.store w.1
                  ⟨(readN w.2.store w.1).leaf, (readN w.2.store w.1).pfx,
                    setEdgeAt (readN w.2.store w.1).edges idx newChild⟩,
                  w.2.modified⟩)
        else (none, none, t)

/-- A full transaction: heap, modified set, transaction root and size. -/
structure HTxnFull (V : Type) where
  store : List (HNode V)
  modified : List Nat
  root : Nat
  size : Nat

/-- One transaction operation (`Txn.Insert` / `Txn.Delete`). -/
inductive TOp (V : Type) where
  | ins (k : List Nat) (v : V)
  | del (k : List Nat)

/-- Go `(t *Txn) Insert(k, v)` / `(t *Txn) Delete(k)`. -/
def txnOp {V : Type} (x : HTxnFull V) : TOp V → HTxnFull V
  | .ins k v =>
    let r := insertH (k.length + 1) ⟨x.store, x.modified⟩ x.root k k v
    ⟨r.2.2.2.store, r.2.2.2.modified,
      match r.1 with | some nr => nr | none => x.root,
      if r.2.2.1 then x.size else x.size + 1⟩
  | .del k =>
    let r := deleteH (k.length + 1) ⟨x.store, x.modified⟩ x.root x.root k
    ⟨r.2.2.store, r.2.2.modified,
      match r.1 with | some nr => nr | none => x.root,
      match r.2.1 with | some _ => x.size - 1 | none => x.size⟩

/-- A tree as Go readers hold it: a root address into the shared heap. -/
structure HTree (V : Type) where
  store : List (HNode V)
  root : Nat
  size : Nat

/-- Go `(t *Tree) Txn()`: a fresh transaction with an empty modified set. -/
def HTree.txn {V : Type} (t : HTree V) : HTxnFull V :=
  ⟨t.store, [], t.root, t.size⟩

/-- Go `(t *Txn) Commit()`. -/
def HTxnFull.commit {V : Type} (x : HTxnFull V) : HTree V :=
  ⟨x.store, x.root, x.size⟩

/-- Go `New()`: a heap holding the single empty root node. -/
def HTree.new (V : Type) : HTree V := ⟨[⟨none, [], []⟩], 0, 0⟩

/-- Go `(t *Tree) Get(k)` reading from the heap, fuel-structural. -/
def getH {V : Type} : Nat → List (HNode V) → Nat → List Nat → Option V
  | 0, _, _, _ => none
  | fuel + 1, st, a, search =>
    match search with
    | [] =>
      match (readN st a).leaf with
      | some lf => some lf.2
      | none => none
    | s0 :: _ =>
      match getEdge (readN st a).edges s0 with
      | none => none
      | some (_, ca) =>
        if (readN st ca).pfx.isPrefixOf search then
          getH fuel st ca (search.drop (readN st ca).pfx.length)
        else none

/-- Store agreement below a boundary address. -/
def presBelow {V : Type} (n0 : Nat) (st st' : List (HNode V)) : Prop :=
  ∀ b, b < n0 → st'.get? b = st.get? b

/-- All modified addresses of a transaction state lie at or above the
boundary, and the heap extends past the boundary. -/
def ModHigh {V : Type} (n0 : Nat) (t : HTxn V) : Prop :=
  (∀ x ∈ t.modified, n0 ≤ x) ∧ n0 ≤ t.store.length

theorem presBelow_refl {V : Type} (n0 : Nat) (st : List (HNode V)) :
    presBelow n0 st st := fun _ _ => rfl

theorem presBelow_trans {V : Type} {n0 : Nat} {s1 s2 s3 : List (HNode V)}
    (h1 : presBelow n0 s1 s2) (h2 : presBelow n0 s2 s3) :
    presBelow n0 s1 s3 :=
  fun b hb => (h2 b hb).trans (h1 b hb)

theorem presBelow_setN {V : Type} {n0 a : Nat} (st : List (HNode V))
    (hn : HNode V) (ha : n0 ≤ a) : presBelow n0 st (setN st a hn) := by
  intro b hb
  rw [List.get?_eq_getElem?, List.get?_eq_getElem?]
  exact List.getElem?_set_ne (by omega)

theorem presBelow_append {V : Type} {n0 : Nat} (st ext : List (HNode V))
    (hlen : n0 ≤ st.length) : presBelow n0 st (st ++ ext) := by
  intro b hb
  exact List.get?_append (by omega)

theorem length_setN {V : Type} (st : List (HNode V)) (a : Nat)
    (hn : HNode V) : (setN st a hn).length = st.length :=
  List.length_set st a hn

theorem presBelow_mergeChildH {V : Type} {n0 a : Nat} (st : List (HNode V))
    (ha : n0 ≤ a) : presBelow n0 st (mergeChildH st a) := by
  unfold mergeChildH
  rcases (readN st a).edges.head? with _ | e
  · exact presBelow_refl n0 st
  · exact presBelow_setN st _ ha

theorem length_mergeChildH {V : Type} (st : List (HNode V)) (a : Nat) :
    (mergeChildH st a).length = st.length := by
  unfold mergeChildH
  rcases (readN st a).edges.head? with _ | e
  · rfl
  · exact length_setN st a _

theorem writeNode_frame {V : Type} {n0 : Nat} {t : HTxn V} (a : Nat)
    (hm : ModHigh n0 t) :
    presBelow n0 t.store (writeNode t a).2.store ∧
    t.store.length ≤ (writeNode t a).2.store.length ∧
    ModHigh n0 (writeNode t a).2 ∧ n0 ≤ (writeNode t a).1 := by
  obtain ⟨hmod, hlen⟩ := hm
  unfold writeNode
  by_cases hmem : a ∈ t.modified
  · rw [if_pos hmem]
    exact ⟨presBelow_refl n0 t.store, le_refl _, ⟨hmod, hlen⟩, hmod a hmem⟩
  · rw [if_neg hmem]
    refine ⟨presBelow_append _ _ hlen, ?_, ⟨?_, ?_⟩, hlen⟩
    · rw [List.length_append]
      omega
    · intro x hx
      rcases List.mem_cons.mp hx with rfl | hx2
      · exact hlen
      · exact hmod x hx2
    · rw [List.length_append]
      omega

/-- The frame relation between transaction states: the heap below the
boundary is untouched, the heap only grows, and the invariant that all
modified addresses are above the boundary is maintained. -/
def FrameOK {V : Type} (n0 : Nat) (t t2 : HTxn V) : Prop :=
  presBelow n0 t.store t2.store ∧ t.store.length ≤ t2.store.length ∧
    ModHigh n0 t2

theorem FrameOK_refl {V : Type} {n0 : Nat} {t : HTxn V} (hm : ModHigh n0 t) :
    FrameOK n0 t t :=
  ⟨presBelow_refl n0 t.store, le_refl _, hm⟩

theorem FrameOK_trans {V : Type} {n0 : Nat} {t1 t2 t3 : HTxn V}
    (h1 : FrameOK n0 t1 t2) (h2 : FrameOK n0 t2 t3) : FrameOK n0 t1 t3 :=
  ⟨presBelow_trans h1.1 h2.1, le_trans h1.2.1 h2.2.1, h2.2.2⟩

theorem FrameOK_writeNode {V : Type} {n0 : Nat} {t : HTxn V} (a : Nat)
    (hm : ModHigh n0 t) :
    FrameOK n0 t (writeNode t a).2 ∧ n0 ≤ (writeNode t a).1 := by
  have h := writeNode_frame a hm
  exact ⟨⟨h.1, h.2.1, h.2.2.1⟩, h.2.2.2⟩

theorem FrameOK_setN {V : Type} {n0 : Nat} {t : HTxn V} (a : Nat)
    (hn : HNode V) (ha : n0 ≤ a) (hm : ModHigh n0 t) :
    FrameOK n0 t ⟨setN t.store a hn, t.modified⟩ := by
  refine ⟨presBelow_setN t.store hn ha, ?_, hm.1, ?_⟩
  · show t.store.length ≤ (setN t.store a hn).length
    rw [length_setN]
  · show n0 ≤ (setN t.store a hn).length
    rw [length_setN]
    exact hm.2

theorem FrameOK_alloc {V : Type} {n0 : Nat} {t : HTxn V} (hn : HNode V)
    (hm : ModHigh n0 t) :
    FrameOK n0 t ⟨t.store ++ [hn], t.modified⟩ := by
  refine ⟨presBelow_append t.store [hn] hm.2, ?_, hm.1, ?_⟩
  · show t.store.length ≤ (t.store ++ [hn]).length
    rw [List.length_append]
    omega
  · show n0 ≤ (t.store ++ [hn]).length
    rw [List.length_append]
    have := hm.2
    omega

theorem FrameOK_merge {V : Type} {n0 : Nat} {t : HTxn V} (a : Nat)
    (ha : n0 ≤ a) (hm : ModHigh n0 t) :
    FrameOK n0 t ⟨mergeChildH t.store a, t.modified⟩ := by
  refine ⟨presBelow_mergeChildH t.store ha, ?_, hm.1, ?_⟩
  · show t.store.length ≤ (mergeChildH t.store a).length
    rw [length_mergeChildH]
  · show n0 ≤ (mergeChildH t.store a).length
    rw [length_mergeChildH]
    exact hm.2

theorem FrameOK_setN_after {V : Type} {n0 : Nat} {t : HTxn V}
    {st : List (HNode V)} {m : List Nat} (a : Nat) (hn : HNode V)
    (h : FrameOK n0 t ⟨st, m⟩) (ha : n0 ≤ a) :
    FrameOK n0 t ⟨setN st a hn, m⟩ :=
  FrameOK_trans h (FrameOK_setN a hn ha h.2.2)

theorem FrameOK_alloc_after {V : Type} {n0 : Nat} {t : HTxn V}
    {st : List (HNode V)} {m : List Nat} (hn : HNode V)
    (h : FrameOK n0 t ⟨st, m⟩) :
    FrameOK n0 t ⟨st ++ [hn], m⟩ :=
  FrameOK_trans h (FrameOK_alloc hn h.2.2)

theorem FrameOK_merge_after {V : Type} {n0 : Nat} {t : HTxn V}
    {st : List (HNode V)} {m : List Nat} (a : Nat)
    (h : FrameOK n0 t ⟨st, m⟩) (ha : n0 ≤ a) :
    FrameOK n0 t ⟨mergeChildH st a, m⟩ :=
  FrameOK_trans h (FrameOK_merge a ha h.2.2)

theorem FrameOK_write_after {V : Type} {n0 : Nat} {t : HTxn V}
    {st : List (HNode V)} {m : List Nat} (a : Nat)
    (h : FrameOK n0 t ⟨st, m⟩) :
    FrameOK n0 t (writeNode ⟨st, m⟩ a).2 ∧ n0 ≤ (writeNode ⟨st, m⟩ a).1 :=
  ⟨FrameOK_trans h (FrameOK_writeNode a h.2.2).1, (FrameOK_writeNode a h.2.2).2⟩

/-- `Txn.insert` writes only to nodes copied or allocated by this
transaction: the heap below the boundary is untouched. -/
theorem insertH_frame {V : Type} {n0 : Nat} :
    ∀ (fuel : Nat) (t : HTxn V) (a : Nat) (k search : List Nat) (v : V)
      (res : Option Nat × Option V × Bool × HTxn V),
      ModHigh n0 t → insertH fuel t a k search v = res →
      FrameOK n0 t res.2.2.2
  | 0, t, _, _, _, _, res, hm, h => by
    simp only [insertH] at h
    subst h
    exact FrameOK_refl hm
  | fuel + 1, t, a, k, search, v, res, hm, h => by
    simp only [insertH] at h
    split at h
    · split at h
      · subst h
        exact
          have hw := FrameOK_write_after a (FrameOK_refl hm)
          FrameOK_setN_after _ _ hw.1 hw.2
      · subst h
        exact
          have hw := FrameOK_write_after a (FrameOK_refl hm)
          FrameOK_setN_after _ _ hw.1 hw.2
    · rename_i s0 ss
      split at h
      · subst h
        exact
          have hw := FrameOK_write_after a
            (FrameOK_alloc_after _ (FrameOK_refl hm))
          FrameOK_setN_after _ _ hw.1 hw.2
      · rename_i idx ca hgeq
        split at h
        · split at h
          · subst h
            exact
              have hr := insertH_frame fuel t ca k
                ((s0 :: ss).drop
                  (commonPfxLen (s0 :: ss) (readN t.store ca).pfx)) v
                (insertH fuel t ca k
                  ((s0 :: ss).drop
                    (commonPfxLen (s0 :: ss) (readN t.store ca).pfx)) v)
                hm rfl
              have hw := FrameOK_write_after a hr
              FrameOK_setN_after _ _ hw.1 hw.2
          · subst h
            exact insertH_frame fuel t ca k
              ((s0 :: ss).drop
                (commonPfxLen (s0 :: ss) (readN t.store ca).pfx)) v
              (insertH fuel t ca k
                ((s0 :: ss).drop
                  (commonPfxLen (s0 :: ss) (readN t.store ca).pfx)) v)
              hm rfl
        · split at h
          · subst h
            exact
              have hw := FrameOK_write_after a (FrameOK_refl hm)
              have hw2 := FrameOK_write_after ca
                (FrameOK_setN_after _ _ (FrameOK_alloc_after _ hw.1) hw.2)
              FrameOK_setN_after _ _
                (FrameOK_setN_after _ _
                  (FrameOK_setN_after _ _ hw2.1 hw.1.2.2.2) hw2.2)
                hw.1.2.2.2
          · subst h
            exact
              have hw := FrameOK_write_after a (FrameOK_refl hm)
              have hw2 := FrameOK_write_after ca
                (FrameOK_setN_after _ _ (FrameOK_alloc_after _ hw.1) hw.2)
              FrameOK_setN_after _ _
                (FrameOK_alloc_after _
                  (FrameOK_setN_after _ _
                    (FrameOK_setN_after _ _ hw2.1 hw.1.2.2.2) hw2.2))
                hw.1.2.2.2

/-- `Txn.delete` writes only to nodes copied or allocated by this
transaction: the heap below the boundary is untouched. -/
theorem deleteH_frame {V : Type} {n0 : Nat} :
    ∀ (fuel : Nat) (t : HTxn V) (ra a : Nat) (search : List Nat)
      (res : Option Nat × Option (List Nat × V) × HTxn V),
      ModHigh n0 t → deleteH fuel t ra a search = res →
      FrameOK n0 t res.2.2
  | 0, t, _, _, _, res, hm, h => by
    simp only [deleteH] at h
    subst h
    exact FrameOK_refl hm
  | fuel + 1, t, ra, a, search, res, hm, h => by
    simp only [deleteH] at h
    split at h
    · split at h
      · subst h
        exact FrameOK_refl hm
      · split at h
        · subst h
          exact
            have hw := FrameOK_write_after a (FrameOK_refl hm)
            FrameOK_merge_after _ (FrameOK_setN_after _ _ hw.1 hw.2) hw.2
        · subst h
          exact
            have hw := FrameOK_write_after a (FrameOK_refl hm)
            FrameOK_setN_after _ _ hw.1 hw.2
    · rename_i s0 ss
      split at h
      · subst h
        exact FrameOK_refl hm
      · rename_i idx ca hgeq
        split at h
        · split at h
          · subst h
            exact deleteH_frame fuel t ra ca
              ((s0 :: ss).drop (readN t.store ca).pfx.length)
              (deleteH fuel t ra ca
                ((s0 :: ss).drop (readN t.store ca).pfx.length))
              hm rfl
          · split at h
            · split at h
              · subst h
                exact
                  have hr := deleteH_frame fuel t ra ca
                    ((s0 :: ss).drop (readN t.store ca).pfx.length)
                    (deleteH fuel t ra ca
                      ((s0 :: ss).drop (readN t.store ca).pfx.length))
                    hm rfl
                  have hw := FrameOK_write_after a hr
                  FrameOK_merge_after _ (FrameOK_setN_after _ _ hw.1 hw.2)
                    hw.2
              · subst h
                exact
                  have hr := deleteH_frame fuel t ra ca
                    ((s0 :: ss).drop (readN t.store ca).pfx.length)
                    (deleteH fuel t ra ca
                      ((s0 :: ss).drop (readN t.store ca).pfx.length))
                    hm rfl
                  have hw := FrameOK_write_after a hr
                  FrameOK_setN_after _ _ hw.1 hw.2
            · subst h
              exact
                have hr := deleteH_frame fuel t ra ca
                  ((s0 :: ss).drop (readN t.store ca).pfx.length)
                  (deleteH fuel t ra ca
                    ((s0 :: ss).drop (readN t.store ca).pfx.length))
                  hm rfl
                have hw := FrameOK_write_after a hr
                FrameOK_setN_after _ _ hw.1 hw.2
        · subst h
          exact FrameOK_refl hm

/-- Every edge target of a node below the boundary is itself below the
boundary: the footprint of an old tree is closed. -/
def closedBelow {V : Type} (st : List (HNode V)) (n0 : Nat) : Prop :=
  ∀ a, a < n0 → ∀ e ∈ (readN st a).edges, (e : Nat × Nat).2 < n0

/-- `Get` reads only the footprint of its root, so it is insensitive to any
store change above the boundary. -/
theorem getH_pres {V : Type} {n0 : Nat} {st st2 : List (HNode V)}
    (hpres : presBelow n0 st st2) (hcl : closedBelow st n0) :
    ∀ (fuel : Nat) (a : Nat) (search : List Nat), a < n0 →
      getH fuel st2 a search = getH fuel st a search := by
  intro fuel
  induction fuel with
  | zero =>
    intro a search ha
    rfl
  | succ fuel ih =>
    intro a search ha
    have hra : readN st2 a = readN st a := by
      rw [readN, readN, hpres a ha]
    rcases search with _ | ⟨s0, ss⟩
    · simp only [getH]
      rw [hra]
    · simp only [getH]
      rw [hra]
      split
      · rfl
      · rename_i i ca hge
        have hmem := List.get?_mem (getEdge_eq_some hge)
        have hca : ca < n0 := hcl a ha (s0, ca) hmem
        have hrc : readN st2 ca = readN st ca := by
          rw [readN, readN, hpres ca hca]
        rw [hrc]
        by_cases hpf : (readN st ca).pfx.isPrefixOf (s0 :: ss) = true
        · rw [if_pos hpf, if_pos hpf]
          exact ih ca _ hca
        · rw [if_neg hpf, if_neg hpf]

theorem txnOp_frame {V : Type} {n0 : Nat} (x : HTxnFull V) (op : TOp V)
    (hmod : ∀ y ∈ x.modified, n0 ≤ y) (hlen : n0 ≤ x.store.length) :
    presBelow n0 x.store (txnOp x op).store ∧
    (∀ y ∈ (txnOp x op).modified, n0 ≤ y) ∧
    n0 ≤ (txnOp x op).store.length := by
  rcases op with ⟨k, v⟩ | ⟨k⟩
  · have h := insertH_frame (k.length + 1) ⟨x.store, x.modified⟩ x.root k k v
      (insertH (k.length + 1) ⟨x.store, x.modified⟩ x.root k k v)
      ⟨hmod, hlen⟩ rfl
    exact ⟨h.1, h.2.2.1, h.2.2.2⟩
  · have h := deleteH_frame (k.length + 1) ⟨x.store, x.modified⟩ x.root x.root
      k (deleteH (k.length + 1) ⟨x.store, x.modified⟩ x.root x.root k)
      ⟨hmod, hlen⟩ rfl
    exact ⟨h.1, h.2.2.1, h.2.2.2⟩

theorem txnOps_frame {V : Type} {n0 : Nat} :
    ∀ (ops : List (TOp V)) (x : HTxnFull V),
      (∀ y ∈ x.modified, n0 ≤ y) → n0 ≤ x.store.length →
      presBelow n0 x.store (ops.foldl txnOp x).store ∧
      (∀ y ∈ (ops.foldl txnOp x).modified, n0 ≤ y) ∧
      n0 ≤ (ops.foldl txnOp x).store.length
  | [], x, hmod, hlen => ⟨presBelow_refl n0 x.store, hmod, hlen⟩
  | op :: rest, x, hmod, hlen => by
    have h1 := txnOp_frame x op hmod hlen
    have h2 := txnOps_frame rest (txnOp x op) h1.2.1 h1.2.2
    exact ⟨presBelow_trans h1.1 h2.1, h2.2.1, h2.2.2⟩

/-- **C1**: Persistence of prior versions. For every tree `t` whose heap
footprint is closed, and every transaction started from `t` and running any
sequence of `Insert` / `Delete` operations before committing, the committed
heap agrees with `t`'s heap on every address of `t`'s footprint, so `Get(q)`
on the old tree `t` returns the same result after the mutations as before
them, for every key `q`. In particular this covers `Tree.Insert(k, v)` and
`Tree.Delete(k)`, which are single-operation transactions. -/
theorem claim_C1 {V : Type} (t : HTree V) (ops : List (TOp V))
    (hroot : t.root < t.store.length)
    (hcl : closedBelow t.store t.store.length) :
    ∀ (q : List Nat) (fuel : Nat),
      getH fuel ((ops.foldl txnOp t.txn).commit).store t.root q =
        getH fuel t.store t.root q := by
  have h := txnOps_frame ops t.txn
    (fun y hy => absurd hy (List.not_mem_nil y)) (le_refl _)
  intro q fuel
  exact getH_pres h.1 hcl fuel t.root q hroot

/-- The concrete old tree for the C1 witness: `New()` then `Insert [97] 5`
and `Insert [97, 98] 7` (committed transactions). -/
def exHT : HTree Nat :=
  ([TOp.ins [97] 5, TOp.ins [97, 98] 7].foldl txnOp (HTree.new Nat).txn).commit

/-- Concrete instantiation of C1: after a committed transaction that
deletes `[97]` and inserts `[99] ↦ 9`, the old tree still answers every
lookup as before — checked here at the deleted key `[97]`, at `[97, 98]`
and at the absent key `[99]` — while the new tree differs. -/
theorem claim_C1_witness :
    exHT.root < exHT.store.length ∧
    closedBelow exHT.store exHT.store.length ∧
    getH 4 (([TOp.del [97], TOp.ins [99] 9].foldl txnOp
        exHT.txn).commit).store exHT.root [97] =
      getH 4 exHT.store exHT.root [97] ∧
    getH 4 (([TOp.del [97], TOp.ins [99] 9].foldl txnOp
        exHT.txn).commit).store exHT.root [97, 98] =
      getH 4 exHT.store exHT.root [97, 98] ∧
    getH 4 (([TOp.del [97], TOp.ins [99] 9].foldl txnOp
        exHT.txn).commit).store exHT.root [99] =
      getH 4 exHT.store exHT.root [99] ∧
    getH 4 exHT.store exHT.root [97] = some 5 ∧
    getH 4 (([TOp.del [97], TOp.ins [99] 9].foldl txnOp
        exHT.txn).commit).store
      (([TOp.del [97], TOp.ins [99] 9].foldl txnOp exHT.txn).commit).root
      [97] = none :=
  ⟨by decide, by unfold closedBelow; decide,
    claim_C1 exHT [TOp.del [97], TOp.ins [99] 9] (by decide)
      (by unfold closedBelow; decide) [97] 4,
    claim_C1 exHT [TOp.del [97], TOp.ins [99] 9] (by decide)
      (by unfold closedBelow; decide) [97, 98] 4,
    claim_C1 exHT [TOp.del [97], TOp.ins [99] 9] (by decide)
      (by unfold closedBelow; decide) [99] 4,
    by decide, by decide⟩

/-- A node carrying notification-handle ids for claim C8: `ch` is the
node's `mutateCh`, a leaf is `(key, value, leaf mutateCh)`; handles are
rendered as numeric ids. -/
inductive TNode (V : Type) where
  | mk (leaf : Option (List Nat × V × Nat)) (ch : Nat) (pfx : List Nat)
      (edges : List (Nat × TNode V))

def TNode.leaf {V : Type} : TNode V → Option (List Nat × V × Nat)
  | .mk lf _ _ _ => lf

def TNode.ch {V : Type} : TNode V → Nat
  | .mk _ ch _ _ => ch

def TNode.pfx {V : Type} : TNode V → List Nat
  | .mk _ _ p _ => p

def TNode.edges {V : Type} : TNode V → List (Nat × TNode V)
  | .mk _ _ _ es => es

@[simp] theorem tn_leaf_mk {V : Type} (lf : Option (List Nat × V × Nat))
    (ch : Nat) (p : List Nat) (es : List (Nat × TNode V)) :
    (TNode.mk lf ch p es).leaf = lf := rfl

@[simp] theorem tn_ch_mk {V : Type} (lf : Option (List Nat × V × Nat))
    (ch : Nat) (p : List Nat) (es : List (Nat × TNode V)) :
    (TNode.mk lf ch p es).ch = ch := rfl

@[simp] theorem tn_pfx_mk {V : Type} (lf : Option (List Nat × V × Nat))
    (ch : Nat) (p : List Nat) (es : List (Nat × TNode V)) :
    (TNode.mk lf ch p es).pfx = p := rfl

@[simp] theorem tn_edges_mk {V : Type} (lf : Option (List Nat × V × Nat))
    (ch : Nat) (p : List Nat) (es : List (Nat × TNode V)) :
    (TNode.mk lf ch p es).edges = es := rfl

mutual

def tsize {V : Type} : TNode V → Nat
  | .mk _ _ _ es => 1 + tsizeEs es

def tsizeEs {V : Type} : List (Nat × TNode V) → Nat
  | [] => 0
  | (_, c) :: rest => tsize c + tsizeEs rest

end

theorem tsizeEs_mem_le {V : Type} :
    ∀ {es : List (Nat × TNode V)} {l : Nat} {c : TNode V},
      (l, c) ∈ es → tsize c ≤ tsizeEs es
  | (l2, c2) :: rest, l, c, hmem => by
    rcases List.mem_cons.mp hmem with heq | hmem2
    · have hc : c = c2 := congrArg Prod.snd heq
      subst hc
      rw [tsizeEs]
      omega
    · have h1 := tsizeEs_mem_le hmem2
      rw [tsizeEs]
      omega

theorem tsize_child_lt {V : Type} {es : List (Nat × TNode V)} {s0 idx : Nat}
    {child : TNode V} (hge : getEdge es s0 = some (idx, child))
    (lf : Option (List Nat × V × Nat)) (ch : Nat) (p : List Nat) :
    tsize child < tsize (TNode.mk lf ch p es) := by
  have hmem : (s0, child) ∈ es := List.get?_mem (getEdge_eq_some hge)
  have h1 := tsizeEs_mem_le hmem
  rw [tsize]
  omega

/-- Go `(n *Node[T]) GetWatch(k)` (generic source), fuel-structural: returns
the finest-granularity watch handle seen and the value on a hit. `watch` is
updated to the child's handle as soon as an edge is taken, before the
prefix check. -/
def getWatchT {V : Type} : Nat → TNode V → List Nat → Nat × Option V
  | 0, n, _ => (n.ch, none)
  | fuel + 1, n, search =>
    match search with
    | [] =>
      match n.leaf with
      | some lf => (lf.2.2, some lf.2.1)
      | none => (n.ch, none)
    | s0 :: _ =>
      match getEdge n.edges s0 with
      | none => (n.ch, none)
      | some (_, child) =>
        if child.pfx.isPrefixOf search then
          getWatchT fuel child (search.drop child.pfx.length)
        else (child.ch, none)

/-- The split node of a tracked insert, with fresh handles from counter
`c` (spec §4.6: handles are created fresh on clone). -/
def mkSplitT {V : Type} (k : List Nat) (v : V) (search : List Nat) (cp : Nat)
    (child : TNode V) (c : Nat) : TNode V :=
  match search.drop cp with
  | [] =>
    .mk (some (k, v, c)) (c + 1) (search.take cp)
      (insertEdge (child.pfx.getD cp 0,
        .mk child.leaf (c + 2) (child.pfx.drop cp) child.edges) [])
  | r0 :: rrest =>
    .mk none (c + 1) (search.take cp)
      (insertEdge (r0, .mk (some (k, v, c)) (c + 3) (r0 :: rrest) [])
        (insertEdge (child.pfx.getD cp 0,
          .mk child.leaf (c + 2) (child.pfx.drop cp) child.edges) []))

/-- Tracked transactional insert (spec §4.2.1 / §4.6: the tracking code is
absent from `src/`, so the queueing is modelled from the spec, over the
`Txn.insert` recursion of `iradix.go`): every `writeNode` of a node on the
mutation path queues that node's old handle, an update or removal of a leaf
also queues the old leaf handle, and clones take fresh handles drawn from
the counter `c`. Returns (new node, next counter, queued handles). -/
def insertT {V : Type} : Nat → TNode V → Nat → List Nat → List Nat → V →
    TNode V × Nat × List Nat
  | 0, n, c, _, _, _ => (n, c, [])
  | fuel + 1, n, c, k, search, v =>
    match search with
    | [] =>
      match n.leaf with
      | some lf =>
        (.mk (some (lf.1, v, c)) (c + 1) n.pfx n.edges, c + 2,
          [n.ch, lf.2.2])
      | none =>
        (.mk (some (k, v, c)) (c + 1) n.pfx n.edges, c + 2, [n.ch])
    | s0 :: _ =>
      match getEdge n.edges s0 with
      | none =>
        (.mk n.leaf (c + 2) n.pfx
            (insertEdge (s0, .mk (some (k, v, c)) (c + 1) search [])
              n.edges),
          c + 3, [n.ch])
      | some (idx, child) =>
        if commonPfxLen search child.pfx = child.pfx.length then
          match insertT fuel child c k
              (search.drop (commonPfxLen search child.pfx)) v with
          | (nc, c2, q) =>
            (.mk n.leaf (c2 + 1) n.pfx (n.edges.set idx (s0, nc)), c2 + 2,
              n.ch :: q)
        else
          (.mk n.leaf (c + 1) n.pfx
              (replaceEdge n.edges s0
                (mkSplitT k v search (commonPfxLen search child.pfx) child
                  (c + 2))),
            c + 8, [n.ch, child.ch])

/-- Tracked `mergeChild`: the absorbed child node's identity disappears, so
its handle is queued (spec §4.6). -/
def mergeChildT {V : Type} : TNode V → TNode V × List Nat
  | .mk lf ch p es =>
    match es with
    | (_, c2) :: _ => (.mk c2.leaf ch (p ++ c2.pfx) c2.edges, [c2.ch])
    | [] => (.mk lf ch p [], [])

/-- Tracked transactional delete (spec-modelled queueing over the
`Txn.delete` recursion of `iradix.go`): `isRoot` renders `n != t.root`.
Returns (new node, next counter, removed leaf, queued handles) on a hit. -/
def deleteT {V : Type} : Nat → Bool → TNode V → Nat → List Nat →
    Option (TNode V × Nat × (List Nat × V × Nat) × List Nat)
  | 0, _, _, _, _ => none
  | fuel + 1, isRoot, n, c, search =>
    match search with
    | [] =>
      match n.leaf with
      | none => none
      | some oldLeaf =>
        if !isRoot && n.edges.length == 1 then
          match mergeChildT (.mk none c n.pfx n.edges) with
          | (merged, mq) =>
            some (merged, c + 1, oldLeaf, [n.ch, oldLeaf.2.2] ++ mq)
        else
          some (.mk none c n.pfx n.edges, c + 1, oldLeaf,
            [n.ch, oldLeaf.2.2])
    | s0 :: _ =>
      match getEdge n.edges s0 with
      | none => none
      | some (idx, child) =>
        if child.pfx.isPrefixOf search then
          match deleteT fuel false child c (search.drop child.pfx.length)
            with
          | none => none
          | some (nc, c2, oldLeaf, q) =>
            if nc.leaf.isNone && nc.edges.isEmpty then
              if !isRoot && (delEdge n.edges s0).length == 1 &&
                  n.leaf.isNone then
                match mergeChildT
                    (.mk n.leaf (c2 + 1) n.pfx (delEdge n.edges s0)) with
                | (merged, mq) =>
                  some (merged, c2 + 2, oldLeaf,
                    n.ch :: nc.ch :: (q ++ mq))
              else
                some (.mk n.leaf (c2 + 1) n.pfx (delEdge n.edges s0),
                  c2 + 2, oldLeaf, n.ch :: nc.ch :: q)
            else
              some (.mk n.leaf (c2 + 1) n.pfx (n.edges.set idx (s0, nc)),
                c2 + 2, oldLeaf, n.ch :: q)
        else none

/-- The handle returned by `GetWatch(k)` is queued by a tracked insert of
`k` (fresh key, update of an existing key, or a split anywhere on the
path). -/
theorem getWatch_insert_queued {V : Type} :
    ∀ (fuel : Nat) (n : TNode V) (c : Nat) (k search : List Nat) (v : V),
      tsize n ≤ fuel →
      (getWatchT fuel n search).1 ∈ (insertT fuel n c k search v).2.2
  | 0, n, _, _, _, _, hsz => by
    rcases n with ⟨lf, ch, p, es⟩
    rw [tsize] at hsz
    omega
  | fuel + 1, n, c, k, search, v, hsz => by
    rcases n with ⟨lf, ch, p, es⟩
    rcases search with _ | ⟨s0, ss⟩
    · rcases lf with _ | lf2
      · simp [getWatchT, insertT]
      · simp [getWatchT, insertT]
    · rcases hge : getEdge es s0 with _ | ⟨idx, child⟩
      · simp [getWatchT, insertT, hge]
      · by_cases hcp : commonPfxLen (s0 :: ss) child.pfx = child.pfx.length
        · have hpf : child.pfx.isPrefixOf (s0 :: ss) = true := by
            rw [isPrefixOf_iff]
            exact (commonPfxLen_eq_right_iff _ _).mp hcp
          have hch : tsize child ≤ fuel := by
            have h1 := tsize_child_lt hge lf ch p
            omega
          have ih := getWatch_insert_queued fuel child c k
            ((s0 :: ss).drop child.pfx.length) v hch
          simp only [getWatchT, insertT, tn_edges_mk, tn_leaf_mk,
            tn_pfx_mk, tn_ch_mk, hge, hpf, if_pos hcp, if_true,
            hcp]
          rcases hins : insertT fuel child c k
              ((s0 :: ss).drop child.pfx.length) v with ⟨nc, c2, q⟩
          rw [hins] at ih
          exact List.mem_cons_of_mem _ ih
        · have hpf : child.pfx.isPrefixOf (s0 :: ss) = false := by
            rcases hb : child.pfx.isPrefixOf (s0 :: ss) with _ | _
            · rfl
            · exfalso
              rw [isPrefixOf_iff] at hb
              exact hcp ((commonPfxLen_eq_right_iff _ _).mpr hb)
          simp [getWatchT, insertT, hge, hpf, hcp]

/-- The (leaf) handle returned by a successful `GetWatch(k)` is queued by a
tracked delete of `k`. -/
theorem getWatch_delete_queued {V : Type} :
    ∀ (fuel : Nat) (isRoot : Bool) (n : TNode V) (c : Nat)
      (search : List Nat)
      (res : TNode V × Nat × (List Nat × V × Nat) × List Nat),
      tsize n ≤ fuel → deleteT fuel isRoot n c search = some res →
      (getWatchT fuel n search).1 ∈ res.2.2.2
  | 0, _, n, _, _, _, hsz, hdel => by
    rcases n with ⟨lf, ch, p, es⟩
    rw [tsize] at hsz
    omega
  | fuel + 1, isRoot, n, c, search, res, hsz, hdel => by
    rcases n with ⟨lf, ch, p, es⟩
    rcases search with _ | ⟨s0, ss⟩
    · rcases lf with _ | oldLeaf
      · simp [deleteT] at hdel
      · simp only [deleteT, tn_leaf_mk, tn_edges_mk, tn_pfx_mk,
          tn_ch_mk] at hdel
        split at hdel
        · rcases hmg : mergeChildT (.mk none c p es) with ⟨merged, mq⟩
          rw [hmg] at hdel
          have h1 := Option.some.inj hdel
          rw [← h1]
          simp [getWatchT]
        · have h1 := Option.some.inj hdel
          rw [← h1]
          simp [getWatchT]
    · rcases hge : getEdge es s0 with _ | ⟨idx, child⟩
      · simp [deleteT, hge] at hdel
      · simp only [deleteT, tn_leaf_mk, tn_edges_mk, tn_pfx_mk,
          tn_ch_mk, hge] at hdel
        by_cases hpf : child.pfx.isPrefixOf (s0 :: ss) = true
        · rw [if_pos hpf] at hdel
          have hch : tsize child ≤ fuel := by
            have h1 := tsize_child_lt hge lf ch p
            omega
          rcases hsub : deleteT fuel false child c
              ((s0 :: ss).drop child.pfx.length) with _ | ⟨nc, c2, olf, q⟩
          · simp only [hsub] at hdel
            exact absurd hdel (by simp)
          · simp only [hsub] at hdel
            have ih := getWatch_delete_queued fuel false child c
              ((s0 :: ss).drop child.pfx.length) (nc, c2, olf, q) hch hsub
            have hgw : (getWatchT (fuel + 1) (TNode.mk lf ch p es)
                (s0 :: ss)).1 =
                (getWatchT fuel child ((s0 :: ss).drop child.pfx.length)).1
                := by
              simp [getWatchT, hge, hpf]
            rw [hgw]
            split at hdel
            · split at hdel
              · have h1 := Option.some.inj hdel
                rw [← h1]
                simp only [List.mem_cons, List.mem_append]
                right
                right
                left
                exact ih
              · have h1 := Option.some.inj hdel
                rw [← h1]
                simp only [List.mem_cons]
                right
                right
                exact ih
            · have h1 := Option.some.inj hdel
              rw [← h1]
              simp only [List.mem_cons]
              right
              exact ih
        · rw [if_neg hpf] at hdel
          exact absurd hdel (by simp)

/-- **C8** (tracking machinery modelled from the spec over the source's
`GetWatch` and `Txn.insert` / `Txn.delete` recursions): with mutation
tracking enabled, if `GetWatch(k)` returned handle `H`, then a committed
transaction that inserts or updates key `k` queues `H` for notification,
and a committed transaction that deletes the leaf stored at `k` queues `H`
as well — so `H` is closed by the `Notify` step of that transaction's
`Commit`, which closes every queued handle. -/
theorem claim_C8 {V : Type} (n : TNode V) (c : Nat) (k : List Nat) (v : V)
    (fuel : Nat) (hfuel : tsize n ≤ fuel) :
    (getWatchT fuel n k).1 ∈ (insertT fuel n c k k v).2.2 ∧
    ∀ res, deleteT fuel true n c k = some res →
      (getWatchT fuel n k).1 ∈ res.2.2.2 :=
  ⟨getWatch_insert_queued fuel n c k k v hfuel,
    fun res h => getWatch_delete_queued fuel true n c k res hfuel h⟩

/-- A concrete tracked tree for the C8 witness: root with one child
holding key `[97] ↦ 5`; the leaf's handle is `2`. -/
def exTN : TNode Nat :=
  .mk none 0 [] [(97, .mk (some ([97], 5, 2)) 1 [97] [])]

/-- Concrete instantiation of C8: `GetWatch [97]` hits and returns the
leaf handle `2`; both an update of `[97]` and a delete of `[97]` queue
handle `2`. -/
theorem claim_C8_witness :
    tsize exTN ≤ 2 ∧
    (getWatchT 2 exTN [97]).2 = some 5 ∧
    (getWatchT 2 exTN [97]).1 = 2 ∧
    (getWatchT 2 exTN [97]).1 ∈ (insertT 2 exTN 10 [97] [97] 7).2.2 ∧
    ∃ res, deleteT 2 true exTN 10 [97] = some res ∧
      (getWatchT 2 exTN [97]).1 ∈ res.2.2.2 :=
  ⟨by decide, by decide, by decide,
    (claim_C8 exTN 10 [97] 7 2 (by decide)).1,
    ⟨_, rfl, (claim_C8 exTN 10 [97] 7 2 (by decide)).2 _ rfl⟩⟩

end IradixProof
